import Mathlib

/-!
# TOON encoder, table heuristics and helpers of X-Rai

A shallow embedding of the TOON text encoder (`internal/toon/encoder.go`) and
the properties of its scalar formatter, array strategy selector and recursive
encoder, in the namespace `Toon`; of the junction detection, the table tags,
the cardinality of foreign keys and the grouping into domains of
`internal/heuristics` (`junction.go`, `tags.go`, `semantics.go`,
`domains.go`), in the namespace `Heuristics`; of `buildArguments` of
`internal/introspector/postgres/routines.go`, in the namespace `Postgres`; and
of `sanitizeName` and `findRecommendedStartTables` of `internal/generator`, in
the namespace `Generator`.

Modelling conventions.

* A Go `string` is a Lean `String`: a sequence of Unicode scalar values, that
  is, a well-formed UTF-8 byte string.  `for _, r := range s` visits
  `s.data`.  The byte tests `s[0] == c` and `s[len(s)-1] == c` of the source
  are made against ASCII characters only, and in well-formed UTF-8 the
  first (last) byte is an ASCII byte exactly when the first (last) code
  point is that ASCII character, so they are modelled on the first and last
  element of `s.data`.
* A Go `byte` is a `Nat` below 256; the conversion `byte(r)` of a rune keeps
  the low eight bits, `r % 256`.
* A Go `int` is an `Int`.  The only arithmetic on it is the indentation
  counter, which is bounded by the nesting depth of the input, so it never
  wraps.  Lengths and counts of slices are natural numbers.
* A function that writes through a pointer, such as
  `detectJunctionTable(table *schema.Table)`, is the function from the struct
  before the call to the struct after it.  Slices of pointers hold non-nil
  pointers.
* `strings.ToLower`, `strings.ToUpper` and `sort.Slice` are parameters of the
  functions that call them, and so is the order in which a `range` over a map
  built by the code yields its entries.
* Where the source slices a string by bytes (`formatDomainName`), the string
  is the list of its bytes, which need not be well-formed UTF-8.
-/

namespace Toon

/-! ## Standard library pieces used by the encoder -/

/-- Base-10 numeral of an integer: `strconv.Itoa(n)`, `strconv.FormatInt(n, 10)`
and the `%d` verb of `fmt.Sprintf` (Go standard library). -/
def FormatInt (n : Int) : String :=
  if n < 0 then "-" ++ Nat.repr n.natAbs else Nat.repr n.toNat

/-- The character class `[0-9]`. -/
def isDecimalDigit (c : Char) : Bool :=
  decide (48 ≤ c.toNat) && decide (c.toNat ≤ 57)

/-- The character class `[A-Za-z]`. -/
def isAsciiLetter (c : Char) : Bool :=
  (decide (65 ≤ c.toNat) && decide (c.toNat ≤ 90)) ||
  (decide (97 ≤ c.toNat) && decide (c.toNat ≤ 122))

/-- The character class `[A-Za-z_]`. -/
def isKeyStart (c : Char) : Bool :=
  isAsciiLetter c || c == '_'

/-- The character class `[A-Za-z0-9_.]`. -/
def isKeyRest (c : Char) : Bool :=
  isAsciiLetter c || isDecimalDigit c || c == '_' || c == '.'

/-- Result of `unquotedKeyRe.MatchString(k)` for
`unquotedKeyRe = regexp.MustCompile("^[A-Za-z_][A-Za-z0-9_.]*$")`; without the
`m` flag `^` and `$` match only at the two ends of the text. -/
def unquotedKeyRe (k : String) : Bool :=
  match k.data with
  | [] => false
  | c :: rest => isKeyStart c && rest.all isKeyRest

/-- Result of `numericPatternRe.MatchString(s)` for
`numericPatternRe = regexp.MustCompile("^-?[0-9]")`. -/
def numericPatternRe (s : String) : Bool :=
  match s.data with
  | [] => false
  | c :: rest =>
    isDecimalDigit c ||
    (c == '-' && (match rest with
      | [] => false
      | c2 :: _ => isDecimalDigit c2))

/-! ## Scalar formatter: strings and keys -/

/-- The `switch r` of `needsQuoting`: `':'`, `'"'`, backslash, the four brackets,
newline, carriage return and tab. -/
def isStructuralRune (r : Char) : Bool :=
  r == ':' || r == '"' || r == '\\' || r == '[' || r == ']' ||
  r == '\x7b' || r == '\x7d' || r == '\n' || r == '\r' || r == '\t'

/-- The loop `for _, r := range s` of `needsQuoting`. -/
def needsQuotingRunes (delim : Nat) : List Char → Bool
  | [] => false
  | r :: rest =>
    if isStructuralRune r then true
    else if r.toNat % 256 = delim then true
    else if r.toNat < 32 then true
    else needsQuotingRunes delim rest

/-- The function `needsQuoting(s string, delim byte) bool`. -/
def needsQuoting (s : String) (delim : Nat) : Bool :=
  if s = "" then true
  else if s = "true" ∨ s = "false" ∨ s = "null" then true
  else if numericPatternRe s then true
  else if s.data.head? = some ' ' ∨ s.data.getLast? = some ' ' then true
  else if s.data.head? = some '-' then true
  else needsQuotingRunes delim s.data

/-- One iteration of the loop of `escapeString`: what is written to the
builder `sb` for the rune `r`. -/
def escapeStep (sb : String) (r : Char) : String :=
  if r = '\\' then sb ++ "\\\\"
  else if r = '"' then sb ++ "\\\""
  else if r = '\n' then sb ++ "\\n"
  else if r = '\r' then sb ++ "\\r"
  else if r = '\t' then sb ++ "\\t"
  else sb.push r

/-- The function `escapeString(s string) string`: a builder filled rune by
rune. -/
def escapeString (s : String) : String :=
  s.data.foldl escapeStep ""

/-- The function `quoteString(s string, delim byte) string`. -/
def quoteString (s : String) (delim : Nat) : String :=
  if needsQuoting s delim then "\"" ++ escapeString s ++ "\"" else s

/-- The function `formatKey(k string) string`. -/
def formatKey (k : String) : String :=
  if unquotedKeyRe k then k else quoteString k ','.toNat

/-! ### The quoting rules as the specification words them -/

/-- The escape of one code point, as the specification lists it. -/
def escapeOf (c : Char) : String :=
  if c = '\\' then "\\\\"
  else if c = '"' then "\\\""
  else if c = '\n' then "\\n"
  else if c = '\r' then "\\r"
  else if c = '\t' then "\\t"
  else String.singleton c

/-- The specification's quoting rules for a string `s` under the delimiter `d`:
empty; one of the three literals; starts with `-` or a decimal digit; leading or
trailing space; contains one of the listed characters, the delimiter, or a code
point below 0x20. -/
def MatchesQuotingRule (s : String) (d : Nat) : Prop :=
  s = "" ∨ s = "true" ∨ s = "false" ∨ s = "null" ∨
  (∃ c, s.data.head? = some c ∧ (c = '-' ∨ isDecimalDigit c = true)) ∨
  s.data.head? = some ' ' ∨ s.data.getLast? = some ' ' ∨
  (∃ c ∈ s.data,
    c ∈ [':', '"', '\\', '[', ']', '\x7b', '\x7d', '\n', '\r', '\t'] ∨
    c.toNat = d ∨ c.toNat < 0x20)

/-- The specification's identifier pattern for keys: a letter or underscore
followed by letters, digits, underscores or dots. -/
def IsIdentifierKey (k : String) : Prop :=
  ∃ c rest, k.data = c :: rest ∧
    (isAsciiLetter c = true ∨ c = '_') ∧
    ∀ x ∈ rest, isAsciiLetter x = true ∨ isDecimalDigit x = true ∨ x = '_' ∨ x = '.'

/-! ## Scalar formatter: numbers -/

/-- A Go `float64`: a finite dyadic value `(-1)^neg * mant * 2^exp`, an infinity
or a NaN. -/
inductive Float64 where
  | finite (neg : Bool) (mant : Nat) (exp : Int)
  | inf (neg : Bool)
  | nan
deriving DecidableEq

/-- What the encoder takes from outside the repository: the shortest
round-trip formatter of the standard library and the result of a
float-to-integer conversion whose value does not fit, which the Go language
leaves implementation-dependent. -/
structure GoEnv where
  /-- Result of `strconv.FormatFloat(f, 'f', -1, 64)`. -/
  FormatFloat : Float64 → String
  /-- Result of `int64(f)` when the truncation of `f` is not an `int64`. -/
  int64OutOfRange : Float64 → Int

/-- Integer part of a finite float, rounded toward zero. -/
def Float64.truncate : Float64 → Option Int
  | .finite neg mant exp =>
    let a : Nat := if 0 ≤ exp then mant * 2 ^ exp.toNat else mant / 2 ^ (-exp).toNat
    some (if neg then -(a : Int) else (a : Int))
  | _ => none

/-- The conversion `int64(f)`. -/
def Float64.toInt64 (env : GoEnv) (f : Float64) : Int :=
  match f.truncate with
  | some t => if -(2 : Int) ^ 63 ≤ t ∧ t < (2 : Int) ^ 63 then t else env.int64OutOfRange f
  | none => env.int64OutOfRange f

/-- The conversion `float64(n)` of an `int64`: rounding to 53 significant bits,
ties to even. -/
def Float64.ofInt64 (n : Int) : Float64 :=
  let a := n.natAbs
  let sh := a.size - 53
  let q := a / 2 ^ sh
  let r := a % 2 ^ sh
  let q1 := if 2 ^ sh < 2 * r ∨ (2 * r = 2 ^ sh ∧ q % 2 = 1) then q + 1 else q
  .finite (decide (n < 0)) q1 (sh : Int)

/-- The comparison `f == g` of two floats. -/
def Float64.eq : Float64 → Float64 → Bool
  | .finite n1 m1 e1, .finite n2 m2 e2 =>
    let lo := min e1 e2
    (m1 == 0 && m2 == 0) ||
    (n1 == n2 && m1 * 2 ^ (e1 - lo).toNat == m2 * 2 ^ (e2 - lo).toNat)
  | .inf n1, .inf n2 => n1 == n2
  | _, _ => false

/-- The function `formatNumber(f float64) string`. -/
def formatNumber (env : GoEnv) (f : Float64) : String :=
  if f.eq (.finite false 0 0) then "0"
  else if f.eq (Float64.ofInt64 (f.toInt64 env)) then FormatInt (f.toInt64 env)
  else env.FormatFloat f

/-! ## Value model -/

/-- The dynamic values (`interface{}`) the encoder is called on.

`object obj` is a `map[string]interface{}`.  A Go map has no order of its own:
each `range` over it yields its entries in an order chosen by the runtime.  In
one call of `Encode` every map of the tree is ranged over for its keys at most
once with an effect on the output (by `encodeObject`, or by
`uniformObjectFields` for the first element of an array that is then emitted in
tabular form), so `obj` lists the entries of the map in the order in which that
`range` yields them in the call under consideration.  Two lists that are
permutations of each other are the same map, ranged over in two different
orders.  The keys of a map are pairwise distinct.

`other t` is a value of any other dynamic type, `t` being what `%T` prints. -/
inductive Value where
  | null
  | bool (val : Bool)
  | int (val : Int)
  | int64 (val : Int)
  | float64 (val : Float64)
  | string (val : String)
  | array (val : List Value)
  | object (val : List (String × Value))
  | other (typeName : String)

/-- The keys yielded by `for k := range obj`. -/
def rangeKeys (obj : List (String × Value)) : List String :=
  obj.map Prod.fst

/-- The index expression `obj[k]`: the value stored under `k`, or `nil` when the
key is absent. -/
def mapIndex (obj : List (String × Value)) (k : String) : Value :=
  match obj.lookup k with
  | some v => v
  | none => .null

/-- The type switch `case nil, bool, int, int64, float64, string`. -/
def isPrimitive : Value → Bool
  | .null => true
  | .bool _ => true
  | .int _ => true
  | .int64 _ => true
  | .float64 _ => true
  | .string _ => true
  | _ => false

/-- The function `allPrimitives(arr []interface{}) bool`. -/
def allPrimitives (arr : List Value) : Bool :=
  arr.all isPrimitive

/-- The loop `for i, v := range arr` of `uniformObjectFields`, from index `i` on,
`fields` being the variable of that name. -/
def uniformObjectFieldsLoop (fields : List String) (i : Nat) :
    List Value → List String × Bool
  | [] => (fields, true)
  | v :: rest =>
    match v with
    | .object obj =>
      if !(obj.all fun kv => isPrimitive kv.2) then ([], false)
      else if i = 0 then uniformObjectFieldsLoop (rangeKeys obj) (i + 1) rest
      else if obj.length ≠ fields.length then ([], false)
      else if !(fields.all fun f => (obj.lookup f).isSome) then ([], false)
      else uniformObjectFieldsLoop fields (i + 1) rest
    | _ => ([], false)

/-- The function `uniformObjectFields(arr []interface{}) ([]string, bool)`. -/
def uniformObjectFields (arr : List Value) : List String × Bool :=
  if arr.length = 0 then ([], false)
  else uniformObjectFieldsLoop [] 0 arr

/-! ## Recursive encoder -/

/-- The errors an encoding step can end with: the `unsupported type: %T` error
of `encode`, and the run-time panic of the type assertion
`v.(map[string]interface{})` in the tabular branch. -/
inductive EncodeError where
  | unsupportedType (typeName : String)
  | assertionPanic
deriving DecidableEq

/-- The struct `Encoder`: the string builder, the indentation depth and the
number of spaces per level. -/
structure Encoder where
  sb : String
  indent : Int
  indentSize : Int
deriving DecidableEq

/-- An encoding step yields the encoder as the step leaves it and the error it
returns (`none` for `nil`). -/
abbrev Result := Encoder × Option EncodeError

/-- The function `NewEncoder()`. -/
def NewEncoder : Encoder :=
  { sb := "", indent := 0, indentSize := 2 }

/-- The call `e.sb.WriteString(s)`. -/
def Encoder.WriteString (e : Encoder) (s : String) : Encoder :=
  { e with sb := e.sb ++ s }

/-- The method `writeIndent`: one space for every `i` with
`0 ≤ i < e.indent * e.indentSize`. -/
def Encoder.writeIndent (e : Encoder) : Encoder :=
  e.WriteString (String.mk (List.replicate (e.indent * e.indentSize).toNat ' '))

/-- The statement `e.indent++`. -/
def Encoder.incIndent (e : Encoder) : Encoder :=
  { e with indent := e.indent + 1 }

/-- The statement `e.indent--`. -/
def Encoder.decIndent (e : Encoder) : Encoder :=
  { e with indent := e.indent - 1 }

/-- The text `fmt.Sprintf("[%d]", n)`. -/
def lenHeader (n : Nat) : String :=
  "[" ++ FormatInt (n : Int) ++ "]"

theorem sizeOf_lookup_lt {k : String} {v : Value} :
    ∀ {obj : List (String × Value)}, obj.lookup k = some v → sizeOf v < sizeOf obj
  | [], h => by simp at h
  | (k1, v1) :: rest, h => by
    by_cases hk : k = k1
    · subst hk
      simp only [List.lookup, beq_self_eq_true, Option.some.injEq] at h
      subst h
      simp only [List.cons.sizeOf_spec, Prod.mk.sizeOf_spec]
      omega
    · have hk2 : (k == k1) = false := by simpa using hk
      simp only [List.lookup, hk2] at h
      have hrest := @sizeOf_lookup_lt k v rest h
      simp only [List.cons.sizeOf_spec, Prod.mk.sizeOf_spec]
      omega

theorem sizeOf_mapIndex_le (obj : List (String × Value)) (k : String) :
    sizeOf (mapIndex obj k) ≤ sizeOf obj := by
  unfold mapIndex
  cases h : obj.lookup k with
  | some v => exact Nat.le_of_lt (sizeOf_lookup_lt h)
  | none =>
    cases obj with
    | nil => simp
    | cons a rest => simp only [Value.null.sizeOf_spec, List.cons.sizeOf_spec]; omega

theorem sizeOf_mapIndex_object {obj : List (String × Value)} {k : String}
    {val : List (String × Value)} (h : mapIndex obj k = .object val) :
    sizeOf val < sizeOf obj := by
  unfold mapIndex at h
  cases h2 : obj.lookup k with
  | some v =>
    rw [h2] at h
    simp only at h
    subst h
    have := sizeOf_lookup_lt h2
    simp only [Value.object.sizeOf_spec] at this
    omega
  | none => rw [h2] at h; simp at h

theorem sizeOf_mapIndex_array {obj : List (String × Value)} {k : String}
    {val : List Value} (h : mapIndex obj k = .array val) :
    sizeOf val < sizeOf obj := by
  unfold mapIndex at h
  cases h2 : obj.lookup k with
  | some v =>
    rw [h2] at h
    simp only at h
    subst h
    have := sizeOf_lookup_lt h2
    simp only [Value.array.sizeOf_spec] at this
    omega
  | none => rw [h2] at h; simp at h

/-- The statement `if err != nil { return err }` after a step: the rest of the
function runs on the encoder the step left, unless the step returned an error. -/
def Result.andThen (r : Result) (next : Encoder → Result) : Result :=
  match r with
  | (e, some err) => (e, some err)
  | (e, none) => next e

mutual

/-- The method `(e *Encoder) encode(v interface{}, root bool) error`. -/
def Encoder.encode (env : GoEnv) (e : Encoder) (v : Value) (root : Bool) : Result :=
  match v with
  | .null => (e.WriteString "null", none)
  | .bool val =>
    if val then (e.WriteString "true", none) else (e.WriteString "false", none)
  | .int val => (e.WriteString (FormatInt val), none)
  | .int64 val => (e.WriteString (FormatInt val), none)
  | .float64 val => (e.WriteString (formatNumber env val), none)
  | .string val => (e.WriteString (quoteString val ','.toNat), none)
  | .array val => e.encodeArray env val
  | .object val => e.encodeObject env val root
  | .other typeName => (e, some (.unsupportedType typeName))
termination_by (sizeOf v, 0)

/-- The method `(e *Encoder) encodeObject(obj map[string]interface{}, root bool) error`:
`keys` is filled by `for k := range obj`, then the loop over `keys` runs. -/
def Encoder.encodeObject (env : GoEnv) (e : Encoder) (obj : List (String × Value))
    (root : Bool) : Result :=
  e.encodeObjectLoop env obj root (rangeKeys obj) 0
termination_by (sizeOf obj, (rangeKeys obj).length + 1)

/-- The loop `for i, k := range keys` of `encodeObject` from index `i` on, `keys`
being the keys still to be visited. -/
def Encoder.encodeObjectLoop (env : GoEnv) (e : Encoder) (obj : List (String × Value))
    (root : Bool) (keys : List String) (i : Nat) : Result :=
  match keys with
  | [] => (e, none)
  | k :: rest =>
    let e1 := if !root || decide (i > 0) then e.writeIndent else e
    let e2 := (e1.WriteString (formatKey k)).WriteString ":"
    Result.andThen (match h : mapIndex obj k with
      | .object val =>
        if val.length = 0 then (e2.WriteString " \x7b\x7d", none)
        else
          ((e2.WriteString "\n").incIndent.encodeObject env val false).andThen fun e3 =>
          (e3.decIndent, none)
      | .array val => e2.encodeArrayValue env val
      | v => (e2.WriteString " ").encode env v false) fun e4 =>
    let e5 :=
      if (i : Int) < ((rangeKeys obj).length : Int) - 1 then e4.WriteString "\n" else e4
    e5.encodeObjectLoop env obj root rest (i + 1)
termination_by (sizeOf obj, keys.length)
decreasing_by
  all_goals simp_wf
  all_goals simp only [Prod.lex_def, true_and]
  · have := sizeOf_mapIndex_object h; omega
  · have := sizeOf_mapIndex_array h; omega
  all_goals first
    | omega
    | (have hle := sizeOf_mapIndex_le obj k; rw [h] at hle; omega)

/-- The method `(e *Encoder) encodeArrayValue(arr []interface{}) error`. -/
def Encoder.encodeArrayValue (env : GoEnv) (e : Encoder) (arr : List Value) : Result :=
  if arr.length = 0 then
    (e.WriteString (lenHeader arr.length ++ ":"), none)
  else if allPrimitives arr then
    (e.WriteString (lenHeader arr.length ++ ": ")).inlineLoop env arr 0
  else if (uniformObjectFields arr).2 && decide ((uniformObjectFields arr).1.length > 0) then
    let fields := (uniformObjectFields arr).1
    let e1 := e.WriteString
      (lenHeader arr.length ++ "\x7b" ++ ",".intercalate fields ++ "\x7d:\n")
    (e1.incIndent.tabularLoop env fields arr.length arr 0).andThen fun e2 =>
    (e2.decIndent, none)
  else
    let e1 := e.WriteString (lenHeader arr.length ++ ":\n")
    (e1.incIndent.listLoop env arr.length arr 0).andThen fun e2 =>
    (e2.decIndent, none)
termination_by (sizeOf arr, 2)

/-- The loop `for i, v := range arr` of the inline branch of `encodeArrayValue`,
from index `i` on. -/
def Encoder.inlineLoop (env : GoEnv) (e : Encoder) (arr : List Value) (i : Nat) : Result :=
  match arr with
  | [] => (e, none)
  | v :: rest =>
    let e1 := if i > 0 then e.WriteString "," else e
    (e1.encode env v false).andThen fun e2 =>
    e2.inlineLoop env rest (i + 1)
termination_by (sizeOf arr, 1)

/-- The loop `for i, v := range arr` of the tabular branch of `encodeArrayValue`,
from index `i` on; `n` is `len(arr)`. -/
def Encoder.tabularLoop (env : GoEnv) (e : Encoder) (fields : List String) (n : Nat)
    (arr : List Value) (i : Nat) : Result :=
  match arr with
  | [] => (e, none)
  | v :: rest =>
    let e1 := e.writeIndent
    match v with
    | .object obj =>
      (e1.fieldLoop env obj fields 0).andThen fun e2 =>
      let e3 := if (i : Int) < (n : Int) - 1 then e2.WriteString "\n" else e2
      e3.tabularLoop env fields n rest (i + 1)
    | _ => (e1, some .assertionPanic)
termination_by (sizeOf arr, 1)

/-- The loop `for j, f := range fields` of the tabular branch, from index `j`
on. -/
def Encoder.fieldLoop (env : GoEnv) (e : Encoder) (obj : List (String × Value))
    (fields : List String) (j : Nat) : Result :=
  match fields with
  | [] => (e, none)
  | f :: rest =>
    let e1 := if j > 0 then e.WriteString "," else e
    (e1.encode env (mapIndex obj f) false).andThen fun e2 =>
    e2.fieldLoop env obj rest (j + 1)
termination_by (sizeOf obj, fields.length)
decreasing_by
  all_goals simp_wf
  all_goals simp only [Prod.lex_def, true_and]
  all_goals first
    | omega
    | (have hle := sizeOf_mapIndex_le obj ‹String›; omega)

/-- The loop `for i, v := range arr` of the dash-notation branch of
`encodeArrayValue`, from index `i` on; `n` is `len(arr)`. -/
def Encoder.listLoop (env : GoEnv) (e : Encoder) (n : Nat) (arr : List Value)
    (i : Nat) : Result :=
  match arr with
  | [] => (e, none)
  | v :: rest =>
    let e1 := e.writeIndent.WriteString "- "
    Result.andThen (match v with
      | .object val =>
        if val.length = 0 then (e1.WriteString "\x7b\x7d", none)
        else
          ((e1.WriteString "\n").incIndent.encodeObject env val false).andThen fun e2 =>
          (e2.decIndent, none)
      | v1 => e1.encode env v1 false) fun e3 =>
    let e4 := if (i : Int) < (n : Int) - 1 then e3.WriteString "\n" else e3
    e4.listLoop env n rest (i + 1)
termination_by (sizeOf arr, 1)

/-- The method `(e *Encoder) encodeArray(arr []interface{}) error`. -/
def Encoder.encodeArray (env : GoEnv) (e : Encoder) (arr : List Value) : Result :=
  e.encodeArrayValue env arr
termination_by (sizeOf arr, 3)

end

/-- The function `Encode(v interface{}) (string, error)`. -/
def Encode (env : GoEnv) (v : Value) : String × Option EncodeError :=
  match NewEncoder.encode env v true with
  | (_, some err) => ("", some err)
  | (e, none) => (e.sb, none)

/-! ## Specification-side definitions -/

/-- The scalar encoding of a scalar value: the literals `null`, `true` and `false`,
the base-10 numeral of an integer, the canonical form of a float, and a string
quoted under the delimiter `,`. -/
def scalarText (env : GoEnv) : Value → String
  | .null => "null"
  | .bool true => "true"
  | .bool false => "false"
  | .int val => FormatInt val
  | .int64 val => FormatInt val
  | .float64 val => formatNumber env val
  | .string val => quoteString val ','.toNat
  | _ => ""

/-- A run of `n` spaces. -/
def spaces (n : Nat) : String :=
  String.mk (List.replicate n ' ')

/-- The three array encoding modes of the specification, and the empty array. -/
inductive ArrayEncodingMode where
  | empty
  | inline
  | tabular
  | list
deriving DecidableEq

/-- The branch `encodeArrayValue` takes on `arr`: its guards, in its order. -/
def arrayMode (arr : List Value) : ArrayEncodingMode :=
  if arr.length = 0 then .empty
  else if allPrimitives arr then .inline
  else if (uniformObjectFields arr).2 && decide ((uniformObjectFields arr).1.length > 0) then
    .tabular
  else .list

/-- The encoder at indentation depth `d` with an empty builder and two spaces per
level. -/
def Encoder.atDepth (d : Nat) : Encoder :=
  { sb := "", indent := (d : Int), indentSize := 2 }

/-- The text an encoding step writes when it runs at indentation depth `d`. -/
def emitted (f : Encoder → Result) (d : Nat) : String :=
  (f (Encoder.atDepth d)).1.sb

/-- The encoding step returns no error when it runs at indentation depth `d`. -/
def Succeeds (f : Encoder → Result) (d : Nat) : Prop :=
  (f (Encoder.atDepth d)).2 = none

/-- The uniformity condition of the specification for tabular mode: every element
is a non-empty object whose values are all scalars and whose key set is that of
the first element. -/
def IsUniformTable (arr : List Value) : Prop :=
  ∀ v ∈ arr, ∃ obj, v = .object obj ∧ obj ≠ [] ∧
    (∀ kv ∈ obj, isPrimitive kv.2 = true) ∧
    (∀ first, arr.head? = some (.object first) →
      ∀ k, k ∈ rangeKeys obj ↔ k ∈ rangeKeys first)

/-- The maps among the elements of `arr` have pairwise distinct keys. -/
def ElementKeysDistinct (arr : List Value) : Prop :=
  ∀ v ∈ arr, ∀ obj, v = .object obj → (rangeKeys obj).Nodup

/-- The entries of an object; no entries for any other value. -/
def Value.entries : Value → List (String × Value)
  | .object obj => obj
  | _ => []

/-- One row of a tabular array: the values of `v` under `fields`, scalar-encoded
and joined by `,`. -/
def rowText (env : GoEnv) (fields : List String) (v : Value) : String :=
  ",".intercalate (fields.map fun f => scalarText env (mapIndex v.entries f))

/-- What follows `- ` for an element of a dash-notation array at depth `d`, as the
specification words it: the scalar encoding of a scalar, a pair of braces for an
empty object, and for a non-empty object a newline and its pairs encoded at
depth `d + 2`.  For an element that is itself an array it is what
`encodeArrayValue` writes for that array at depth `d + 1`. -/
def listElemText (env : GoEnv) (d : Nat) : Value → String
  | .object val =>
    if val.length = 0 then "\x7b\x7d"
    else "\n" ++ emitted (fun e => e.encodeObject env val false) (d + 2)
  | .array val => emitted (fun e => e.encodeArrayValue env val) (d + 1)
  | v => scalarText env v

/-- The element of a dash-notation array at depth `d` is encoded without error:
it is a scalar, an empty object, a non-empty object whose pairs encode without
error at depth `d + 2`, or an array that encodes without error at depth
`d + 1`. -/
def ListElemOk (env : GoEnv) (d : Nat) : Value → Prop
  | .object val =>
    val.length ≠ 0 → Succeeds (fun e => e.encodeObject env val false) (d + 2)
  | .array val => Succeeds (fun e => e.encodeArrayValue env val) (d + 1)
  | .other _ => False
  | _ => True

/-- An environment for concrete examples: none of them formats a float that is
not an integer. -/
def exampleEnv : GoEnv :=
  { FormatFloat := fun _ => "", int64OutOfRange := fun _ => 0 }

/-- The array of Scenario 6 of the specification: two uniform objects. -/
def sampleTable : List Value :=
  [.object [("id", .int 1), ("name", .string "Alice")],
   .object [("id", .int 2), ("name", .string "Bob")]]

/-- A mixed array: a scalar, an empty object, a non-empty object and an
empty array. -/
def sampleMixed : List Value :=
  [.string "a", .object [], .object [("k", .int 1)], .array []]

/-- A map with the two keys `a` and `b`, as a `range` yields it with `a` first. -/
def sampleMapAB : List (String × Value) :=
  [("a", .int 1), ("b", .int 2)]

/-- The same map, as a `range` yields it with `b` first. -/
def sampleMapBA : List (String × Value) :=
  [("b", .int 2), ("a", .int 1)]

/-! ## Proof devices -/

/-- The encoder with the text `s` put in front of what the builder holds. -/
def Encoder.prepend (e : Encoder) (s : String) : Encoder :=
  { e with sb := s ++ e.sb }

/-- An encoding step is well behaved when its effect does not depend on the text
the builder already holds (it only appends to it), it leaves `indentSize` alone,
and on success it leaves `indent` as it found it. -/
def WellBehaved (f : Encoder → Result) : Prop :=
  ∀ (e : Encoder) (s : String),
    f (e.prepend s) = ((f e).1.prepend s, (f e).2) ∧
    (f e).1.indentSize = e.indentSize ∧
    ((f e).2 = none → (f e).1.indent = e.indent)

/-- A change of the encoder that only appends text. -/
def Appends (p : Encoder → Encoder) : Prop :=
  ∀ (e : Encoder) (s : String),
    p (e.prepend s) = (p e).prepend s ∧ (p e).indentSize = e.indentSize ∧
    (p e).indent = e.indent

/-- What `encodeObject` writes after the `:` of a key for the value `v` found
under it (the type switch in its loop). -/
def Encoder.encodeValueOf (env : GoEnv) (e : Encoder) (v : Value) : Result :=
  match v with
  | .object val =>
    if val.length = 0 then (e.WriteString " \x7b\x7d", none)
    else
      ((e.WriteString "\n").incIndent.encodeObject env val false).andThen fun e3 =>
      (e3.decIndent, none)
  | .array val => e.encodeArrayValue env val
  | v => (e.WriteString " ").encode env v false

/-- What the dash-notation branch writes after `- ` for the element `v` (the
type switch in its loop). -/
def Encoder.encodeListElem (env : GoEnv) (e : Encoder) (v : Value) : Result :=
  match v with
  | .object val =>
    if val.length = 0 then (e.WriteString "\x7b\x7d", none)
    else
      ((e.WriteString "\n").incIndent.encodeObject env val false).andThen fun e2 =>
      (e2.decIndent, none)
  | v1 => e.encode env v1 false

/-- The rows after the first of a uniform table: objects with scalar values, as
many entries as there are fields, and every field among their keys. -/
def RowsMatch (fields : List String) (arr : List Value) : Prop :=
  ∀ v ∈ arr, ∃ obj, v = .object obj ∧ (∀ kv ∈ obj, isPrimitive kv.2 = true) ∧
    obj.length = fields.length ∧ ∀ f ∈ fields, f ∈ rangeKeys obj

/-- The number a list of decimal digits denotes, most significant digit first. -/
def numeralValue (digits : List Char) : Nat :=
  digits.foldl (fun acc c => acc * 10 + (c.toNat - 48)) 0

/-- What follows the `:` of a key for its value at depth `d`, as the specification
words it: a space and the scalar encoding of a scalar, ` {}` for an empty
object, a newline and the nested pairs at depth `d + 1` for a non-empty
object, and for an array the array text at depth `d`. -/
def objectValueText (env : GoEnv) (d : Nat) : Value → String
  | .object val =>
    if val.length = 0 then " \x7b\x7d"
    else "\n" ++ emitted (fun e => e.encodeObject env val false) (d + 1)
  | .array val => emitted (fun e => e.encodeArrayValue env val) d
  | v => " " ++ scalarText env v

/-- The value of a key at depth `d` is encoded without error. -/
def ObjectValueOk (env : GoEnv) (d : Nat) : Value → Prop
  | .object val =>
    val.length ≠ 0 → Succeeds (fun e => e.encodeObject env val false) (d + 1)
  | .array val => Succeeds (fun e => e.encodeArrayValue env val) d
  | .other _ => False
  | _ => True

/-- One key-value pair of an object at depth `d`: the indentation, the formatted
key, `:` and what follows it. -/
def pairText (env : GoEnv) (d : Nat) (k : String) (v : Value) : String :=
  spaces (2 * d) ++ formatKey k ++ ":" ++ objectValueText env d v

mutual

/-- Every node of the value is of one of the types `encode` handles: `nil`, `bool`,
`int`, `int64`, `float64`, `string`, `[]interface{}` or
`map[string]interface{}`. -/
def Value.supported : Value → Bool
  | .array val => supportedList val
  | .object val => supportedEntries val
  | .other _ => false
  | _ => true

/-- Every element of the array is supported. -/
def supportedList : List Value → Bool
  | [] => true
  | v :: rest => v.supported && supportedList rest

/-- Every value of the map is supported. -/
def supportedEntries : List (String × Value) → Bool
  | [] => true
  | (_, v) :: rest => v.supported && supportedEntries rest

end

mutual

/-- The keys of every map of the value are pairwise distinct, as the keys of a Go
map are. -/
def Value.keysDistinct : Value → Bool
  | .array val => keysDistinctList val
  | .object val => decide (rangeKeys val).Nodup && keysDistinctEntries val
  | _ => true

/-- The keys of every map below the elements of the array are pairwise
distinct. -/
def keysDistinctList : List Value → Bool
  | [] => true
  | v :: rest => v.keysDistinct && keysDistinctList rest

/-- The keys of every map below the values of the map are pairwise distinct. -/
def keysDistinctEntries : List (String × Value) → Bool
  | [] => true
  | (_, v) :: rest => v.keysDistinct && keysDistinctEntries rest

end

/-- The outcome of a step does not depend on the encoder: it returns no error
exactly when `S` holds. -/
def Decides (f : Encoder → Result) (S : Prop) : Prop :=
  ∀ e : Encoder, (f e).2 = none ↔ S

/-- An array with a scalar and a value of the unsupported type `chan int`. -/
def sampleUnsupported : Value :=
  .array [.int 1, .other "chan int"]

/-- The text does not end with a newline character (the empty text does not). -/
def NoTrailingNewline (t : String) : Prop :=
  t.data.getLast? ≠ some '\n'

/-- The text is not empty and does not end with a newline character. -/
def EndsInText (t : String) : Prop :=
  ∃ c, t.data.getLast? = some c ∧ c ≠ '\n'
/-- A map with a scalar, an empty object, a non-empty object and an empty array
as values. -/
def sampleObject : List (String × Value) :=
  [("a", .int 1), ("e", .object []), ("o", .object [("k", .int 1)]), ("l", .array [])]

/-- The float is one a `float64` holds: its significand has at most 53 bits. -/
def Float64.Representable : Float64 → Prop
  | .finite _ mant _ => mant < 2 ^ 53
  | _ => True

/-- The float is finite and its value equals its integer truncation. -/
def Float64.isInteger : Float64 → Bool
  | .finite _ mant exp => decide (0 ≤ exp) || mant % 2 ^ (-exp).toNat == 0
  | _ => false

/-- The float `9223372036854775808`, which is `2^63`. -/
def twoPow63 : Float64 :=
  .finite false 1 63

/-- An environment as on amd64: the conversion of a float that does not fit gives
the smallest `int64`, and `strconv.FormatFloat(f, 'f', -1, 64)` gives for
`2^63` the shortest digits that read back as `2^63`, filled up with zeros. -/
def amd64Env : GoEnv :=
  { FormatFloat := fun f => if f = twoPow63 then "9223372036854776000" else "",
    int64OutOfRange := fun _ => -(2 : Int) ^ 63 }

end Toon

namespace Heuristics

/-! ## Table heuristics: schema model -/

/-- The call `strings.HasPrefix(s, p)` on the code points of the two strings. -/
def startsWith : List Char → List Char → Bool
  | _, [] => true
  | [], _ :: _ => false
  | c :: s, p :: ps => c == p && startsWith s ps

/-- The pattern occurs in the text as a contiguous run. -/
def containsChars : List Char → List Char → Bool
  | [], sub => startsWith [] sub
  | c :: s, sub => startsWith (c :: s) sub || containsChars s sub

/-- The call `strings.Contains(s, substr)` (Go standard library). -/
def Contains (s substr : String) : Bool :=
  containsChars s.data substr.data

/-- The call `strings.HasSuffix(s, suffix)` (Go standard library). -/
def HasSuffix (s suffix : String) : Bool :=
  startsWith s.data.reverse suffix.data.reverse

/-- The struct `schema.Column`, with the field the heuristics read. -/
structure Column where
  ColumnName : String := ""
deriving DecidableEq

/-- The struct `schema.Constraint`, with the fields the heuristics read. -/
structure Constraint where
  ConstraintType : String := ""
  Columns : List String := []
deriving DecidableEq

/-- The struct `schema.ForeignKey`, with the fields the heuristics read. -/
structure ForeignKey where
  FromTable : String := ""
  FromColumns : List String := []
  ToTable : String := ""
  Nullable : Bool := false
deriving DecidableEq

/-- The struct `schema.Index`, with the fields the heuristics read. -/
structure Index where
  Unique : Bool := false
  Columns : List String := []
deriving DecidableEq

/-- The struct `schema.Table`, with the fields the heuristics read and write.
The slices hold the structs their pointers point to: no entry is a nil
pointer. -/
structure Table where
  TableName : String := ""
  Columns : List Column := []
  Indexes : List Index := []
  Constraints : List Constraint := []
  OutgoingForeignKeys : List ForeignKey := []
  IncomingForeignKeys : List ForeignKey := []
  IsJunction : Bool := false
  JunctionReasoning : String := ""
  Tags : List String := []
deriving DecidableEq

/-! ## Junction detection -/

/-- The keys of the map `fkColumns` after the two nested loops over
`table.OutgoingForeignKeys` and `fk.FromColumns`: every key is stored with the
value `true`, so `fkColumns[c]` is membership in this list. -/
def fkColumnsOf (fks : List ForeignKey) : List String :=
  (fks.map fun fk => fk.FromColumns).flatten

/-- The loop that finds `pkColumns`: the columns of the first constraint whose
type is `PRIMARY KEY`, and the nil slice when there is none. -/
def pkColumnsOf : List Constraint → List String
  | [] => []
  | con :: rest =>
    if con.ConstraintType = "PRIMARY KEY" then con.Columns else pkColumnsOf rest

/-- The loop over `pkColumns` that clears `pkIsAllFKs` at the first column that
is not in `fkColumns`. -/
def pkAllLoop (fkColumns : List String) : List String → Bool → Bool
  | [], pkIsAllFKs => pkIsAllFKs
  | pkCol :: rest, pkIsAllFKs =>
    if !fkColumns.contains pkCol then false else pkAllLoop fkColumns rest pkIsAllFKs

/-- The keys of the map literal `metadataCols`. -/
def metadataCols : List String :=
  ["created_at", "updated_at", "created_by", "updated_by", "deleted_at", "id", "uuid"]

/-- The loop that counts in `nonFKColCount` the columns that are neither in
`fkColumns` nor, lower-cased, in `metadataCols`. -/
def nonFKLoop (ToLower : String → String) (fkColumns : List String) :
    List Column → Nat → Nat
  | [], nonFKColCount => nonFKColCount
  | col :: rest, nonFKColCount =>
    if !fkColumns.contains col.ColumnName && !metadataCols.contains (ToLower col.ColumnName)
    then nonFKLoop ToLower fkColumns rest (nonFKColCount + 1)
    else nonFKLoop ToLower fkColumns rest nonFKColCount

/-- The slice literal `junctionPatterns`. -/
def junctionPatterns : List String :=
  ["_to_", "_x_", "_has_", "_rel_", "_link_", "_map_", "_assoc_"]

/-- The loop over `junctionPatterns` and the assignment that follows it. -/
def junctionPatternLoop (name : String) (fkCount : Nat) (table : Table) :
    List String → Table
  | [] => { table with IsJunction := false }
  | pattern :: rest =>
    if Contains name pattern && decide (fkCount ≥ 2) then
      { table with
        IsJunction := true,
        JunctionReasoning :=
          "Table name suggests junction pattern and has multiple foreign keys" }
    else junctionPatternLoop name fkCount table rest

/-- The function `detectJunctionTable(table *schema.Table)`: the table after the
call.  `ToLower` is `strings.ToLower` of the Go standard library. -/
def detectJunctionTable (ToLower : String → String) (table : Table) : Table :=
  let fkCount := table.OutgoingForeignKeys.length
  if fkCount < 2 then { table with IsJunction := false }
  else
    let fkColumns := fkColumnsOf table.OutgoingForeignKeys
    let pkColumns := pkColumnsOf table.Constraints
    let pkIsAllFKs := pkAllLoop fkColumns pkColumns (decide (pkColumns.length > 0))
    let nonFKColCount := nonFKLoop ToLower fkColumns table.Columns 0
    if pkIsAllFKs then
      { table with
        IsJunction := true,
        JunctionReasoning := "Primary key consists entirely of foreign key columns" }
    else if fkCount ≥ 2 ∧ nonFKColCount ≤ 2 ∧ table.Columns.length ≤ 8 then
      { table with
        IsJunction := true,
        JunctionReasoning :=
          "Table has multiple foreign keys with minimal additional columns" }
    else junctionPatternLoop (ToLower table.TableName) fkCount table junctionPatterns

/-- The column name is a from-column of an outgoing foreign key of the table. -/
def isFKColumn (t : Table) (c : String) : Bool :=
  t.OutgoingForeignKeys.any fun fk => fk.FromColumns.contains c

/-- The column is neither a foreign-key column nor, compared without regard to
case, a metadata column. -/
def isExtraColumn (ToLower : String → String) (t : Table) (col : Column) : Bool :=
  !isFKColumn t col.ColumnName && !metadataCols.contains (ToLower col.ColumnName)

/-- The table of `TestDetectJunctionTable_TwoFKsCompositePK`. -/
def sampleUserRoles : Table :=
  { TableName := "user_roles",
    Columns := [{ ColumnName := "user_id" }, { ColumnName := "role_id" }],
    OutgoingForeignKeys :=
      [{ FromColumns := ["user_id"], ToTable := "users" },
       { FromColumns := ["role_id"], ToTable := "roles" }],
    Constraints := [{ ConstraintType := "PRIMARY KEY", Columns := ["user_id", "role_id"] }] }

/-- The table `single FK` of `TestDetectJunctionTable_NotJunction`. -/
def sampleOrders : Table :=
  { TableName := "orders",
    Columns := [{ ColumnName := "id" }, { ColumnName := "user_id" }, { ColumnName := "total" }],
    OutgoingForeignKeys := [{ FromColumns := ["user_id"], ToTable := "users" }] }

/-! ## Table tags -/

/-- The slice literal `lookupPatterns`. -/
def lookupPatterns : List String :=
  ["_type", "_types", "_status", "_statuses", "_category", "_categories", "_kind", "_kinds",
   "_code", "_codes", "lookup_", "ref_"]

/-- The function `isLookupTable(table *schema.Table) bool`. -/
def isLookupTable (ToLower : String → String) (table : Table) : Bool :=
  let name := ToLower table.TableName
  if lookupPatterns.any fun pattern => Contains name pattern || HasSuffix name pattern then true
  else if table.Columns.length ≤ 5 ∧ table.OutgoingForeignKeys.length = 0 ∧
      table.IncomingForeignKeys.length > 0 then true
  else
    let hasCodeOrName := table.Columns.any fun col =>
      let colName := ToLower col.ColumnName
      colName == "name" || colName == "code" || colName == "value" || colName == "label"
    if hasCodeOrName ∧ table.Columns.length ≤ 4 then true else false

/-- The slice literal `auditPatterns`. -/
def auditPatterns : List String :=
  ["_audit", "_history", "_log", "_changelog", "audit_", "history_"]

/-- The function `isAuditTable(table *schema.Table) bool`. -/
def isAuditTable (ToLower : String → String) (table : Table) : Bool :=
  let name := ToLower table.TableName
  if auditPatterns.any fun pattern => Contains name pattern then true
  else
    let auditCols := (table.Columns.filter fun col =>
      let colName := ToLower col.ColumnName
      colName == "action" || colName == "old_value" || colName == "new_value" ||
        colName == "changed_by" || colName == "changed_at" || colName == "revision").length
    decide (auditCols ≥ 2)

/-- The slice literal `configPatterns`. -/
def configPatterns : List String :=
  ["config", "setting", "preference", "option"]

/-- The function `isConfigTable(table *schema.Table) bool`. -/
def isConfigTable (ToLower : String → String) (table : Table) : Bool :=
  let name := ToLower table.TableName
  if configPatterns.any fun pattern => Contains name pattern then true
  else if table.Columns.length ≤ 4 then
    let hasKey := table.Columns.any fun col =>
      let colName := ToLower col.ColumnName
      colName == "key" || colName == "name" || colName == "setting_key"
    let hasValue := table.Columns.any fun col =>
      let colName := ToLower col.ColumnName
      colName == "value" || colName == "setting_value"
    if hasKey && hasValue then true else false
  else false

/-- The slice literal `logPatterns`. -/
def logPatterns : List String :=
  ["_log", "_logs", "_event", "_events", "log_", "event_"]

/-- The function `isLogTable(table *schema.Table) bool`. -/
def isLogTable (ToLower : String → String) (table : Table) : Bool :=
  let name := ToLower table.TableName
  if logPatterns.any fun pattern => Contains name pattern || HasSuffix name pattern then true
  else
    let hasTimestamp := table.Columns.any fun col =>
      let colName := ToLower col.ColumnName
      Contains colName "timestamp" || colName == "logged_at" || colName == "event_time"
    let hasEventType := table.Columns.any fun col =>
      let colName := ToLower col.ColumnName
      colName == "event_type" || colName == "log_type" || colName == "action"
    hasTimestamp && hasEventType

/-- The function `applyTableTags(table *schema.Table)`: the table after the call. -/
def applyTableTags (ToLower : String → String) (table : Table) : Table :=
  let tags : List String := []
  let tags := if table.IncomingForeignKeys.length ≥ 3 then tags ++ ["core"] else tags
  let tags := if table.IsJunction then tags ++ ["junction"] else tags
  let tags := if isLookupTable ToLower table then tags ++ ["lookup"] else tags
  let tags := if isAuditTable ToLower table then tags ++ ["audit"] else tags
  let tags := if isConfigTable ToLower table then tags ++ ["config"] else tags
  let tags := if isLogTable ToLower table then tags ++ ["log"] else tags
  { table with Tags := tags }

/-- The tag belongs to the table, as the specification words it. -/
def tagApplies (ToLower : String → String) (t : Table) (tag : String) : Bool :=
  (tag == "core" && decide (3 ≤ t.IncomingForeignKeys.length)) ||
  (tag == "junction" && t.IsJunction) ||
  (tag == "lookup" && isLookupTable ToLower t) ||
  (tag == "audit" && isAuditTable ToLower t) ||
  (tag == "config" && isConfigTable ToLower t) ||
  (tag == "log" && isLogTable ToLower t)

/-- The table of `TestApplyTableTags_Core`. -/
def sampleUsers : Table :=
  { TableName := "users",
    IncomingForeignKeys :=
      [{ FromTable := "orders" }, { FromTable := "posts" }, { FromTable := "comments" }] }

/-! ## Cardinality of a foreign key (`semantics.go`) -/

/-- The second loop of `columnsMatch`: `set` holds the keys of the map filled from
`cols1`, each stored with the value `true`. -/
def columnsMatchLoop (set : List String) : List String → Bool
  | [] => true
  | c :: rest => if !set.contains c then false else columnsMatchLoop set rest

/-- The function `columnsMatch(cols1, cols2 []string) bool`. -/
def columnsMatch (cols1 cols2 : List String) : Bool :=
  if cols1.length ≠ cols2.length then false
  else columnsMatchLoop cols1 cols2

/-- The function `hasFKUniqueConstraint(table *schema.Table, fkCols []string) bool`. -/
def hasFKUniqueConstraint (table : Table) (fkCols : List String) : Bool :=
  if fkCols.length = 0 then false
  else if table.Constraints.any fun con =>
      (con.ConstraintType == "PRIMARY KEY" || con.ConstraintType == "UNIQUE") &&
        columnsMatch con.Columns fkCols then true
  else if table.Indexes.any fun idx => idx.Unique && columnsMatch idx.Columns fkCols then true
  else false

/-- The function `determineCardinality(table *schema.Table, fk *schema.ForeignKey) string`. -/
def determineCardinality (table : Table) (fk : ForeignKey) : String :=
  let fkColsAreUnique := hasFKUniqueConstraint table fk.FromColumns
  if table.IsJunction then "many-to-many"
  else if fkColsAreUnique then "one-to-one"
  else if fk.Nullable then "many-to-one"
  else "many-to-one"

/-! ## Domains (`domains.go`) -/

/-- The bytes of a Go string that is well-formed UTF-8. -/
def utf8Bytes (s : String) : List Nat :=
  s.data.flatMap fun c => (String.utf8EncodeChar c).map UInt8.toNat

/-- The index expression `m[k]` of a `map[string][]string` whose keys are byte
strings: the nil slice when the key is absent. -/
def mapGet (m : List (List Nat × List String)) (k : List Nat) : List String :=
  match m with
  | [] => []
  | (k1, v1) :: rest => if k1 = k then v1 else mapGet rest k

/-- The assignment `m[k] = v`. -/
def mapSet (m : List (List Nat × List String)) (k : List Nat) (v : List String) :
    List (List Nat × List String) :=
  match m with
  | [] => [(k, v)]
  | (k1, v1) :: rest => if k1 = k then (k, v) :: rest else (k1, v1) :: mapSet rest k v

/-- The call `strings.Index(name, "_")` on the bytes of `name`, from the position
`i` on: -1 when there is no `_`. -/
def indexUnderscore : List Nat → Int → Int
  | [], _ => -1
  | b :: rest, i => if b = 0x5F then i else indexUnderscore rest (i + 1)

/-- The body of the loop of `groupByPrefix` for the table `t`. -/
def groupStep (ToLower : String → String) (groups : List (List Nat × List String))
    (t : Table) : List (List Nat × List String) :=
  let name := utf8Bytes (ToLower t.TableName)
  let idx := indexUnderscore name 0
  if idx > 0 ∧ idx < (name.length : Int) - 1 then
    let pre := name.take idx.toNat
    if pre.length ≥ 3 then mapSet groups pre (mapGet groups pre ++ [t.TableName])
    else groups
  else groups

/-- The function `groupByPrefix(tables []*schema.Table) map[string][]string`: the
entries of the map it returns. -/
def groupByPrefix (ToLower : String → String) (tables : List Table) :
    List (List Nat × List String) :=
  tables.foldl (groupStep ToLower) []

/-- The function `formatDomainName(prefix string) string` on the bytes of `prefix`.
`ToUpper` is `strings.ToUpper` of the Go standard library on byte strings. -/
def formatDomainName (ToUpper : List Nat → List Nat) (pre : List Nat) : List Nat :=
  if pre.length = 0 then utf8Bytes "Other"
  else ToUpper (pre.take 1) ++ pre.drop 1

/-- The map literal `domainPatterns` of `detectDomainByContent`, its entries in
the order of the source. -/
def domainPatterns : List (String × List String) :=
  [("Auth", ["user", "auth", "login", "session", "permission", "role", "token"]),
   ("Billing", ["payment", "invoice", "subscription", "billing", "charge", "refund"]),
   ("Commerce", ["order", "cart", "product", "catalog", "inventory", "price"]),
   ("Content", ["post", "article", "comment", "media", "attachment", "content"]),
   ("Messaging", ["message", "notification", "email", "sms", "chat"]),
   ("Analytics", ["metric", "analytics", "stat", "tracking", "event"])]

/-- The loop `for domain, patterns := range domainPatterns` of
`detectDomainByContent`: the domain it returns, if it returns. -/
def detectLoop (name : String) : List (String × List String) → Option String
  | [] => none
  | (domain, patterns) :: rest =>
    if patterns.any fun pattern => Contains name pattern then some domain
    else detectLoop name rest

/-- The function `detectDomainByContent(table *schema.Table) string`; `patterns` is
the map `domainPatterns` with its entries in the order `range` yields them in
this call. -/
def detectDomainByContent (ToLower : String → String)
    (patterns : List (String × List String)) (table : Table) : String :=
  let name := ToLower table.TableName
  match detectLoop name patterns with
  | some domain => domain
  | none =>
    if ["schema", "migration", "meta", "sys_", "pg_"].any fun pattern => Contains name pattern
    then "System"
    else "Other"

/-- The state of the first pass of `GroupIntoDomains`: the maps `domains` and
`assigned`, the latter as the list of its keys. -/
structure Pass where
  domains : List (List Nat × List String)
  assigned : List String

/-- The body of the loop `for prefix, tableNames := range prefixGroups`. -/
def prefixStep (ToUpper : List Nat → List Nat) (st : Pass)
    (entry : List Nat × List String) : Pass :=
  if entry.2.length ≥ 2 then
    { domains := mapSet st.domains (formatDomainName ToUpper entry.1) entry.2,
      assigned := st.assigned ++ entry.2 }
  else st

/-- The body of the loop `for _, t := range unassigned`. -/
def contentStep (ToLower : String → String)
    (patterns : Table → List (String × List String))
    (domains : List (List Nat × List String)) (t : Table) : List (List Nat × List String) :=
  let domain := utf8Bytes (detectDomainByContent ToLower (patterns t) t)
  mapSet domains domain (mapGet domains domain ++ [t.TableName])

/-- The function `GroupIntoDomains(tables []*schema.Table) map[string][]string`: the
entries of the map it returns.  `rangeOrder` gives the entries of
`prefixGroups` in the order `range` yields them, and `patterns t` the entries
of `domainPatterns` in the order `range` yields them in the call of
`detectDomainByContent` for `t`. -/
def GroupIntoDomains (ToLower : String → String) (ToUpper : List Nat → List Nat)
    (rangeOrder : List (List Nat × List String) → List (List Nat × List String))
    (patterns : Table → List (String × List String)) (tables : List Table) :
    List (List Nat × List String) :=
  let prefixGroups := groupByPrefix ToLower tables
  let st := (rangeOrder prefixGroups).foldl (prefixStep ToUpper) { domains := [], assigned := [] }
  let unassigned := tables.filter fun t => !st.assigned.contains t.TableName
  let domains := unassigned.foldl (contentStep ToLower patterns) st.domains
  domains.filter fun entry => !decide (entry.2.length = 0)

/-- Four tables whose names start with `éx_` and with `ĩx_`, in lower case. -/
def sampleAccented : List Table :=
  [{ TableName := "éx_a" }, { TableName := "éx_b" },
   { TableName := "ĩx_c" }, { TableName := "ĩx_d" }]

/-- What `strings.ToUpper` returns for a byte string of one byte: the upper-case
letter for a lower-case ASCII letter, the byte for another ASCII byte, and the
bytes of U+FFFD for a byte that is not ASCII, which is not well-formed UTF-8. -/
def toUpperOneByte (s : List Nat) : List Nat :=
  match s with
  | [b] => if 97 ≤ b ∧ b ≤ 122 then [b - 32] else if b < 128 then [b] else [0xEF, 0xBF, 0xBD]
  | _ => s

/-- A table that is no junction, with the primary key `(a, b)` and no index. -/
def sampleCompositeKey : Table :=
  { TableName := "t", Constraints := [{ ConstraintType := "PRIMARY KEY", Columns := ["a", "b"] }] }

/-- A foreign key that names the column `a` twice. -/
def sampleRepeatedColumn : ForeignKey :=
  { FromTable := "t", FromColumns := ["a", "a"], ToTable := "u" }

end Heuristics

namespace Postgres

/-! ## Routine arguments (`internal/introspector/postgres/routines.go`) -/

/-- The struct `schema.Argument`, with the fields `buildArguments` sets; `Default`
stays nil. -/
structure Argument where
  Name : String := ""
  DataType : String := ""
  Mode : String := ""
deriving DecidableEq

/-- The function `mapArgMode(mode string) string`.  `ToLower` is `strings.ToLower`
of the Go standard library. -/
def mapArgMode (ToLower : String → String) (mode : String) : String :=
  if ToLower mode = "i" then "IN"
  else if ToLower mode = "o" then "OUT"
  else if ToLower mode = "b" then "INOUT"
  else if ToLower mode = "v" then "VARIADIC"
  else if ToLower mode = "t" then "TABLE"
  else "IN"

/-- The loop `for i, t := range types` of `buildArguments` from index `i` on: the
elements `args[i]`, `args[i+1]`, ... it assigns. -/
def buildArgumentsLoop (ToLower : String → String) (names modes : List String) :
    List String → Nat → List Argument
  | [], _ => []
  | t :: rest, i =>
    let arg : Argument := { DataType := t }
    let arg :=
      if i < names.length ∧ names.getD i "" ≠ "" then { arg with Name := names.getD i "" }
      else arg
    let arg :=
      if i < modes.length then { arg with Mode := mapArgMode ToLower (modes.getD i "") }
      else { arg with Mode := "IN" }
    arg :: buildArgumentsLoop ToLower names modes rest (i + 1)

/-- The function `buildArguments(names, types, modes []string) []schema.Argument`;
the nil slice is the empty list. -/
def buildArguments (ToLower : String → String) (names types modes : List String) :
    List Argument :=
  if types.length = 0 then [] else buildArgumentsLoop ToLower names modes types 0

end Postgres

namespace Generator

/-! ## File names (`internal/generator/generator.go`) -/

/-- The call `strings.ReplaceAll(name, " ", "_")`. -/
def replaceSpaces (name : List Char) : List Char :=
  name.map fun c => if c = ' ' then '_' else c

/-- The character class `[a-z0-9_]`. -/
def isSafeChar (c : Char) : Bool :=
  (decide (97 ≤ c.toNat) && decide (c.toNat ≤ 122)) ||
  (decide (48 ≤ c.toNat) && decide (c.toNat ≤ 57)) || c == '_'

/-- The call `re.ReplaceAllString(name, "_")` for the expression `[^a-z0-9_]`: every
code point outside the class is replaced by one `_`. -/
def replaceUnsafe (name : List Char) : List Char :=
  name.map fun c => if isSafeChar c then c else '_'

/-- The call `strings.Contains(name, "__")`. -/
def containsDoubleUnderscore : List Char → Bool
  | [] => false
  | c :: rest =>
    (c == '_' && rest.head? == some '_') || containsDoubleUnderscore rest

/-- The call `strings.ReplaceAll(name, "__", "_")`: the occurrences of `__` that do not
overlap, from the left, are each replaced by `_`. -/
def replaceDoubleUnderscore : List Char → List Char
  | [] => []
  | [c] => [c]
  | c :: d :: rest =>
    if c = '_' ∧ d = '_' then '_' :: replaceDoubleUnderscore rest
    else c :: replaceDoubleUnderscore (d :: rest)

theorem length_replaceDoubleUnderscore_le :
    ∀ name : List Char, (replaceDoubleUnderscore name).length ≤ name.length
  | [] => Nat.le_refl _
  | [_] => Nat.le_refl _
  | c :: d :: rest => by
    unfold replaceDoubleUnderscore
    split_ifs
    · have := length_replaceDoubleUnderscore_le rest
      simp only [List.length_cons]
      omega
    · have := length_replaceDoubleUnderscore_le (d :: rest)
      simp only [List.length_cons] at this ⊢
      omega

theorem length_replaceDoubleUnderscore_lt :
    ∀ name : List Char, containsDoubleUnderscore name = true →
      (replaceDoubleUnderscore name).length < name.length
  | [], h => by simp [containsDoubleUnderscore] at h
  | [c], h => by simp [containsDoubleUnderscore] at h
  | c :: d :: rest, h => by
    unfold replaceDoubleUnderscore
    split_ifs with hcd
    · have := length_replaceDoubleUnderscore_le rest
      simp only [List.length_cons]
      omega
    · have h1 : containsDoubleUnderscore (d :: rest) = true := by
        unfold containsDoubleUnderscore at h
        simp only [List.head?_cons, Bool.or_eq_true, Bool.and_eq_true, beq_iff_eq,
          Option.some.injEq] at h
        rcases h with h | h
        · exact absurd h hcd
        · exact h
      have := length_replaceDoubleUnderscore_lt (d :: rest) h1
      simp only [List.length_cons] at this ⊢
      omega

/-- The loop `for strings.Contains(name, "__") { name = strings.ReplaceAll(name, "__", "_") }`:
the value of `name` when the loop ends. -/
def collapseLoop (name : List Char) : List Char :=
  if h : containsDoubleUnderscore name = true then collapseLoop (replaceDoubleUnderscore name)
  else name
termination_by name.length
decreasing_by exact length_replaceDoubleUnderscore_lt name h

/-- The call `strings.Trim(name, "_")`. -/
def trimUnderscores (name : List Char) : List Char :=
  (name.dropWhile fun c => c == '_').rdropWhile fun c => c == '_'

/-- The function `sanitizeName(name string) string`.  `ToLower` is `strings.ToLower`
of the Go standard library. -/
def sanitizeName (ToLower : String → String) (name : String) : String :=
  let name := ToLower name
  let name := String.mk (replaceSpaces name.data)
  let name := String.mk (replaceUnsafe name.data)
  let name := String.mk (collapseLoop name.data)
  let name := String.mk (trimUnderscores name.data)
  if name = "" then "unnamed" else name

/-- A lower-casing of the letters `A` to `Z` only, for examples. -/
def lowerASCII (s : String) : String :=
  String.mk (s.data.map fun c =>
    if 65 ≤ c.toNat ∧ c.toNat ≤ 90 then Char.ofNat (c.toNat + 32) else c)

/-! ## Recommended start tables (`internal/generator/index.go`) -/

/-- The local struct `tableScore` of `findRecommendedStartTables`. -/
structure tableScore where
  name : String
  score : Int
deriving DecidableEq

/-- The body of the loop `for _, t := range tables`: the score of the table `t`. -/
def scoreOf (t : Heuristics.Table) : Int :=
  let score : Int := 0
  let score := score + (t.IncomingForeignKeys.length : Int) * 2
  let score := t.Tags.foldl (fun score tag => if tag = "core" then score + 5 else score) score
  let score := if t.IsJunction then score - 3 else score
  let score := t.Tags.foldl (fun score tag => if tag = "lookup" then score - 2 else score) score
  score

/-- The loop `for i := 0; i < len(scores) && i < 5; i++` from index `i` on: the names
it appends to `result`. -/
def resultLoop : List tableScore → Nat → List String
  | [], _ => []
  | s :: rest, i =>
    if i < 5 then
      if s.score > 0 then s.name :: resultLoop rest (i + 1) else resultLoop rest (i + 1)
    else []

/-- The function `findRecommendedStartTables(tables []*schema.Table) []string`.
`sortSlice` is what `sort.Slice(scores, less)` of the Go standard library makes
of `scores` for the `less` of the source, `scores[i].score > scores[j].score`. -/
def findRecommendedStartTables (sortSlice : List tableScore → List tableScore)
    (tables : List Heuristics.Table) : List String :=
  let scores := tables.map fun t => ({ name := t.TableName, score := scoreOf t } : tableScore)
  let scores := sortSlice scores
  resultLoop scores 0

/-- The entry `s` put into a list sorted by decreasing score, before the first
entry with a smaller score. -/
def insertByScore (s : tableScore) : List tableScore → List tableScore
  | [] => [s]
  | a :: rest => if s.score > a.score then s :: a :: rest else a :: insertByScore s rest

/-- A sort by decreasing score, for examples. -/
def sortByScore : List tableScore → List tableScore
  | [] => []
  | s :: rest => insertByScore s (sortByScore rest)

/-- Three tables: two incoming foreign keys and the tag `core`; one incoming
foreign key; a junction table. -/
def sampleTables : List Heuristics.Table :=
  [{ TableName := "order_items", IsJunction := true },
   { TableName := "orders", IncomingForeignKeys := [{ FromTable := "order_items" }] },
   { TableName := "users", Tags := ["core"],
     IncomingForeignKeys := [{ FromTable := "orders" }, { FromTable := "posts" }] }]

end Generator

namespace Toon

mutual

/-- The nesting depth of a value: 0 for a scalar, and one more than the deepest
element or value for an array or an object. -/
def Value.depth : Value → Nat
  | .array val => depthList val + 1
  | .object val => depthEntries val + 1
  | _ => 0

/-- The nesting depth of the deepest element, 0 for the empty array. -/
def depthList : List Value → Nat
  | [] => 0
  | v :: rest => max v.depth (depthList rest)

/-- The nesting depth of the deepest value of the map, 0 for the empty map. -/
def depthEntries : List (String × Value) → Nat
  | [] => 0
  | (_, v) :: rest => max v.depth (depthEntries rest)

end

/-- The statement `if err != nil { return err }` after a step that may have run
out of stack frames, which is the result `none`. -/
def Result.andThenWithin (r : Option Result) (next : Encoder → Option Result) :
    Option Result :=
  match r with
  | none => none
  | some (e, some err) => some (e, some err)
  | some (e, none) => next e

mutual

/-- The method `encode` run with `frames` stack frames left: every call of
`encode`, `encodeArray`, `encodeArrayValue` or `encodeObject` takes one frame
for as long as it runs, and the result is `none` when a call finds no frame
left. -/
def Encoder.encodeWithin (env : GoEnv) (frames : Nat) (e : Encoder) (v : Value)
    (root : Bool) : Option Result :=
  match frames with
  | 0 => none
  | frames + 1 =>
    match v with
    | .null => some (e.WriteString "null", none)
    | .bool val =>
      if val then some (e.WriteString "true", none) else some (e.WriteString "false", none)
    | .int val => some (e.WriteString (FormatInt val), none)
    | .int64 val => some (e.WriteString (FormatInt val), none)
    | .float64 val => some (e.WriteString (formatNumber env val), none)
    | .string val => some (e.WriteString (quoteString val ','.toNat), none)
    | .array val => e.encodeArrayWithin env frames val
    | .object val => e.encodeObjectWithin env frames val root
    | .other typeName => some (e, some (.unsupportedType typeName))
termination_by (frames, 0, 0)

/-- The method `encodeObject` run with `frames` stack frames left. -/
def Encoder.encodeObjectWithin (env : GoEnv) (frames : Nat) (e : Encoder)
    (obj : List (String × Value)) (root : Bool) : Option Result :=
  match frames with
  | 0 => none
  | frames + 1 => e.encodeObjectLoopWithin env frames obj root (rangeKeys obj) 0
termination_by (frames, 0, 0)

/-- The loop `for i, k := range keys` of `encodeObject`, `frames` being the stack
frames left for the calls it makes. -/
def Encoder.encodeObjectLoopWithin (env : GoEnv) (frames : Nat) (e : Encoder)
    (obj : List (String × Value)) (root : Bool) (keys : List String) (i : Nat) :
    Option Result :=
  match keys with
  | [] => some (e, none)
  | k :: rest =>
    let e1 := if !root || decide (i > 0) then e.writeIndent else e
    let e2 := (e1.WriteString (formatKey k)).WriteString ":"
    Result.andThenWithin (match mapIndex obj k with
      | .object val =>
        if val.length = 0 then some (e2.WriteString " \x7b\x7d", none)
        else
          Result.andThenWithin
            ((e2.WriteString "\n").incIndent.encodeObjectWithin env frames val false)
            fun e3 => some (e3.decIndent, none)
      | .array val => e2.encodeArrayValueWithin env frames val
      | v => (e2.WriteString " ").encodeWithin env frames v false) fun e4 =>
    let e5 :=
      if (i : Int) < ((rangeKeys obj).length : Int) - 1 then e4.WriteString "\n" else e4
    e5.encodeObjectLoopWithin env frames obj root rest (i + 1)
termination_by (frames, 1, keys.length)

/-- The method `encodeArrayValue` run with `frames` stack frames left. -/
def Encoder.encodeArrayValueWithin (env : GoEnv) (frames : Nat) (e : Encoder)
    (arr : List Value) : Option Result :=
  match frames with
  | 0 => none
  | frames + 1 =>
    if arr.length = 0 then
      some (e.WriteString (lenHeader arr.length ++ ":"), none)
    else if allPrimitives arr then
      (e.WriteString (lenHeader arr.length ++ ": ")).inlineLoopWithin env frames arr 0
    else if (uniformObjectFields arr).2 && decide ((uniformObjectFields arr).1.length > 0) then
      let fields := (uniformObjectFields arr).1
      let e1 := e.WriteString
        (lenHeader arr.length ++ "\x7b" ++ ",".intercalate fields ++ "\x7d:\n")
      Result.andThenWithin (e1.incIndent.tabularLoopWithin env frames fields arr.length arr 0)
        fun e2 => some (e2.decIndent, none)
    else
      let e1 := e.WriteString (lenHeader arr.length ++ ":\n")
      Result.andThenWithin (e1.incIndent.listLoopWithin env frames arr.length arr 0)
        fun e2 => some (e2.decIndent, none)
termination_by (frames, 0, 0)

/-- The loop of the inline branch of `encodeArrayValue`, `frames` being the stack
frames left for the calls it makes. -/
def Encoder.inlineLoopWithin (env : GoEnv) (frames : Nat) (e : Encoder) (arr : List Value)
    (i : Nat) : Option Result :=
  match arr with
  | [] => some (e, none)
  | v :: rest =>
    let e1 := if i > 0 then e.WriteString "," else e
    Result.andThenWithin (e1.encodeWithin env frames v false) fun e2 =>
    e2.inlineLoopWithin env frames rest (i + 1)
termination_by (frames, 1, arr.length)

/-- The loop of the tabular branch of `encodeArrayValue`, `frames` being the stack
frames left for the calls it makes. -/
def Encoder.tabularLoopWithin (env : GoEnv) (frames : Nat) (e : Encoder)
    (fields : List String) (n : Nat) (arr : List Value) (i : Nat) : Option Result :=
  match arr with
  | [] => some (e, none)
  | v :: rest =>
    let e1 := e.writeIndent
    match v with
    | .object obj =>
      Result.andThenWithin (e1.fieldLoopWithin env frames obj fields 0) fun e2 =>
      let e3 := if (i : Int) < (n : Int) - 1 then e2.WriteString "\n" else e2
      e3.tabularLoopWithin env frames fields n rest (i + 1)
    | _ => some (e1, some .assertionPanic)
termination_by (frames, 2, arr.length)

/-- The loop over `fields` of the tabular branch, `frames` being the stack frames
left for the calls it makes. -/
def Encoder.fieldLoopWithin (env : GoEnv) (frames : Nat) (e : Encoder)
    (obj : List (String × Value)) (fields : List String) (j : Nat) : Option Result :=
  match fields with
  | [] => some (e, none)
  | f :: rest =>
    let e1 := if j > 0 then e.WriteString "," else e
    Result.andThenWithin (e1.encodeWithin env frames (mapIndex obj f) false) fun e2 =>
    e2.fieldLoopWithin env frames obj rest (j + 1)
termination_by (frames, 1, fields.length)

/-- The loop of the dash-notation branch of `encodeArrayValue`, `frames` being
the stack frames left for the calls it makes. -/
def Encoder.listLoopWithin (env : GoEnv) (frames : Nat) (e : Encoder) (n : Nat)
    (arr : List Value) (i : Nat) : Option Result :=
  match arr with
  | [] => some (e, none)
  | v :: rest =>
    let e1 := e.writeIndent.WriteString "- "
    Result.andThenWithin (match v with
      | .object val =>
        if val.length = 0 then some (e1.WriteString "\x7b\x7d", none)
        else
          Result.andThenWithin
            ((e1.WriteString "\n").incIndent.encodeObjectWithin env frames val false)
            fun e2 => some (e2.decIndent, none)
      | v1 => e1.encodeWithin env frames v1 false) fun e3 =>
    let e4 := if (i : Int) < (n : Int) - 1 then e3.WriteString "\n" else e3
    e4.listLoopWithin env frames n rest (i + 1)
termination_by (frames, 1, arr.length)

/-- The method `encodeArray` run with `frames` stack frames left. -/
def Encoder.encodeArrayWithin (env : GoEnv) (frames : Nat) (e : Encoder)
    (arr : List Value) : Option Result :=
  match frames with
  | 0 => none
  | frames + 1 => e.encodeArrayValueWithin env frames arr
termination_by (frames, 0, 0)

end

/-- With `frames` stack frames left, each of the four methods returns what it returns
without a bound on the stack, provided `frames` is at least three times the
nesting depth of its argument plus 1 for `encode`, plus 2 for `encodeObject`
and `encodeArrayValue`, and plus 3 for `encodeArray`. -/
def WithinOk (env : GoEnv) (frames : Nat) : Prop :=
  (∀ (e : Encoder) (v : Value) (root : Bool), 3 * v.depth + 1 ≤ frames →
    e.encodeWithin env frames v root = some (e.encode env v root)) ∧
  (∀ (e : Encoder) (obj : List (String × Value)) (root : Bool),
    3 * depthEntries obj + 2 ≤ frames →
    e.encodeObjectWithin env frames obj root = some (e.encodeObject env obj root)) ∧
  (∀ (e : Encoder) (arr : List Value), 3 * depthList arr + 2 ≤ frames →
    e.encodeArrayValueWithin env frames arr = some (e.encodeArrayValue env arr)) ∧
  (∀ (e : Encoder) (arr : List Value), 3 * depthList arr + 3 ≤ frames →
    e.encodeArrayWithin env frames arr = some (e.encodeArray env arr))

/-- An encoding step never leaves the indentation depth below the one it found,
whether it returns an error or not. -/
def NeverBelow (f : Encoder → Result) : Prop :=
  ∀ e : Encoder, e.indent ≤ (f e).1.indent

/-- The specification's plain decimal integer numeral: an optional leading `-`,
then decimal digits only, so no `.0` and no exponent. -/
def IsPlainInteger (s : String) : Prop :=
  ∃ digits : List Char, (∀ c ∈ digits, isDecimalDigit c = true) ∧
    (s = String.mk digits ∨ s = "-" ++ String.mk digits)

/-! ## Properties -/

/-! ### Strings -/

theorem foldl_append_eq (l : List String) (acc : String) :
    List.foldl (fun r s => r ++ s) acc l = acc ++ List.foldl (fun r s => r ++ s) "" l := by
  induction l generalizing acc with
  | nil => simp
  | cons a l ih =>
    simp only [List.foldl_cons]
    rw [ih, ih ("" ++ a), String.empty_append, String.append_assoc]

theorem join_cons (a : String) (l : List String) :
    String.join (a :: l) = a ++ String.join l := by
  simp only [String.join, List.foldl_cons]
  rw [foldl_append_eq, String.empty_append]

theorem join_nil : String.join [] = "" := rfl

theorem intercalate_go_eq (s : String) (l : List String) (acc : String) :
    String.intercalate.go acc s l = acc ++ String.join (l.map fun x => s ++ x) := by
  induction l generalizing acc with
  | nil => simp [String.intercalate.go, join_nil]
  | cons a l ih =>
    simp only [String.intercalate.go, List.map_cons, join_cons]
    rw [ih]
    simp only [String.append_assoc]

theorem push_eq_append (sb : String) (c : Char) : sb.push c = sb ++ String.singleton c := by
  apply String.ext
  simp [String.singleton]

theorem escapeStep_eq (sb : String) (r : Char) : escapeStep sb r = sb ++ escapeOf r := by
  unfold escapeStep escapeOf
  split_ifs <;> rfl

theorem foldl_escapeStep (l : List Char) (sb : String) :
    l.foldl escapeStep sb = sb ++ String.join (l.map escapeOf) := by
  induction l generalizing sb with
  | nil => simp [join_nil]
  | cons c l ih =>
    simp only [List.foldl_cons, List.map_cons, join_cons]
    rw [ih, escapeStep_eq, String.append_assoc]

theorem isStructuralRune_of_mem {c : Char}
    (h : c ∈ [':', '"', '\\', '[', ']', '\x7b', '\x7d', '\n', '\r', '\t']) :
    isStructuralRune c = true := by
  simp only [List.mem_cons, List.mem_singleton, List.not_mem_nil, or_false] at h
  rcases h with h | h | h | h | h | h | h | h | h | h <;> subst h <;> decide

theorem needsQuotingRunes_of_mem (d : Nat) :
    ∀ (l : List Char) (c : Char), c ∈ l →
      (isStructuralRune c = true ∨ c.toNat % 256 = d ∨ c.toNat < 32) →
      needsQuotingRunes d l = true
  | [], _, h, _ => by simp at h
  | r :: rest, c, h, hc => by
    unfold needsQuotingRunes
    split_ifs with h1 h2 h3
    · rfl
    · rfl
    · rfl
    · rcases List.mem_cons.mp h with h | h
      · subst h
        rcases hc with hc | hc | hc
        · exact absurd hc h1
        · exact absurd hc h2
        · exact absurd hc h3
      · exact needsQuotingRunes_of_mem d rest c h hc

theorem needsQuoting_of_rule (s : String) (d : Nat) (hd : d < 256)
    (h : MatchesQuotingRule s d) : needsQuoting s d = true := by
  unfold needsQuoting
  split_ifs with h1 h2 h3 h4 h5
  all_goals try rfl
  rcases h with h | h | h | h | ⟨c, hc, hc2⟩ | h | h | ⟨c, hc, hc2⟩
  · exact absurd h h1
  · exact absurd (Or.inl h) h2
  · exact absurd (Or.inr (Or.inl h)) h2
  · exact absurd (Or.inr (Or.inr h)) h2
  · rcases hc2 with hc2 | hc2
    · subst hc2
      exact absurd hc h5
    · exfalso
      apply h3
      unfold numericPatternRe
      cases hs : s.data with
      | nil => rw [hs] at hc; simp at hc
      | cons a rest =>
        rw [hs] at hc
        simp only [List.head?_cons, Option.some.injEq] at hc
        subst hc
        simp [hc2]
  · exact absurd (Or.inl h) h4
  · exact absurd (Or.inr h) h4
  · apply needsQuotingRunes_of_mem d s.data c hc
    rcases hc2 with hc2 | hc2 | hc2
    · exact Or.inl (isStructuralRune_of_mem hc2)
    · exact Or.inr (Or.inl (by rw [hc2]; exact Nat.mod_eq_of_lt hd))
    · exact Or.inr (Or.inr hc2)

theorem unquotedKeyRe_iff (k : String) : unquotedKeyRe k = true ↔ IsIdentifierKey k := by
  unfold unquotedKeyRe IsIdentifierKey
  cases hk : k.data with
  | nil => simp
  | cons c rest =>
    simp only [Bool.and_eq_true, List.all_eq_true, List.cons.injEq, isKeyStart, isKeyRest,
      Bool.or_eq_true, beq_iff_eq]
    constructor
    · rintro ⟨h1, h2⟩
      refine ⟨c, rest, ⟨rfl, rfl⟩, h1, ?_⟩
      intro x hx
      rcases h2 x hx with ((h | h) | h) | h
      · exact Or.inl h
      · exact Or.inr (Or.inl h)
      · exact Or.inr (Or.inr (Or.inl h))
      · exact Or.inr (Or.inr (Or.inr h))
    · rintro ⟨c1, rest1, ⟨rfl, rfl⟩, h1, h2⟩
      refine ⟨h1, ?_⟩
      intro x hx
      rcases h2 x hx with h | h | h | h
      · exact Or.inl (Or.inl (Or.inl h))
      · exact Or.inl (Or.inl (Or.inr h))
      · exact Or.inl (Or.inr h)
      · exact Or.inr h

/-- C2: for every delimiter byte `d` and every string `s` that matches one of the
quoting rules (empty; `true`, `false` or `null`; starts with `-` or a decimal
digit; leading or trailing space; contains one of the listed characters, the
delimiter or a code point below 0x20), `needsQuoting s d` is true and
`quoteString s d` is a double quote, `escapeString s`, and a double quote. -/
theorem quoteString_of_rule (s : String) (d : Nat) (hd : d < 256)
    (h : MatchesQuotingRule s d) :
    needsQuoting s d = true ∧ quoteString s d = "\"" ++ escapeString s ++ "\"" := by
  have hq := needsQuoting_of_rule s d hd h
  refine ⟨hq, ?_⟩
  unfold quoteString
  rw [if_pos hq]

theorem quoteString_of_rule_witness :
    ','.toNat < 256 ∧ MatchesQuotingRule "has,comma" ','.toNat ∧
    needsQuoting "has,comma" ','.toNat = true ∧
    quoteString "has,comma" ','.toNat = "\"" ++ escapeString "has,comma" ++ "\"" :=
  have hr : MatchesQuotingRule "has,comma" ','.toNat := by
    unfold MatchesQuotingRule; decide
  ⟨by decide, hr, quoteString_of_rule "has,comma" ','.toNat (by decide) hr⟩

/-- C4: `escapeString s` is the concatenation, code point by code point, of the
escapes of the code points of `s`: two characters for backslash, double quote,
newline, carriage return and tab, and the code point itself for every other
one. -/
theorem escapeString_eq_concat (s : String) :
    escapeString s = String.join (s.data.map escapeOf) ∧
    escapeOf '\\' = "\\\\" ∧ escapeOf '"' = "\\\"" ∧ escapeOf '\n' = "\\n" ∧
    escapeOf '\r' = "\\r" ∧ escapeOf '\t' = "\\t" ∧
    ∀ c : Char, c ≠ '\\' → c ≠ '"' → c ≠ '\n' → c ≠ '\r' → c ≠ '\t' →
      escapeOf c = String.singleton c := by
  refine ⟨?_, by decide, by decide, by decide, by decide, by decide, ?_⟩
  · unfold escapeString
    rw [foldl_escapeStep, String.empty_append]
  · intro c h1 h2 h3 h4 h5
    unfold escapeOf
    rw [if_neg h1, if_neg h2, if_neg h3, if_neg h4, if_neg h5]

/-- The two branches of `formatKey`: a key that matches the identifier pattern (an
ASCII letter or underscore, then ASCII letters, digits, underscores or dots) is
emitted as it is, also when it is `true`, `false` or `null`; every other key is
`quoteString k ','`, whose result follows `needsQuoting k ','`; `has space`
stays bare and `123numeric`, `with:colon` and a key with a leading space are
quoted. -/
theorem formatKey_spec (k : String) :
    (IsIdentifierKey k → formatKey k = k) ∧
    (¬ IsIdentifierKey k → formatKey k = quoteString k ','.toNat) ∧
    (¬ IsIdentifierKey k → needsQuoting k ','.toNat = true →
      formatKey k = "\"" ++ escapeString k ++ "\"") ∧
    (¬ IsIdentifierKey k → needsQuoting k ','.toNat = false → formatKey k = k) ∧
    formatKey "true" = "true" ∧ formatKey "false" = "false" ∧ formatKey "null" = "null" ∧
    formatKey "has space" = "has space" ∧ formatKey "123numeric" = "\"123numeric\"" ∧
    formatKey "with:colon" = "\"with:colon\"" ∧ formatKey " leading" = "\" leading\"" := by
  have hq : ¬ IsIdentifierKey k → formatKey k = quoteString k ','.toNat := by
    intro h
    unfold formatKey
    rw [if_neg (fun hk => h ((unquotedKeyRe_iff k).mp hk))]
  refine ⟨?_, hq, ?_, ?_, by decide, by decide, by decide, by decide, by decide, by decide,
    by decide⟩
  · intro h
    unfold formatKey
    rw [if_pos ((unquotedKeyRe_iff k).mpr h)]
  · intro h hn
    rw [hq h]
    unfold quoteString
    rw [if_pos hn]
  · intro h hn
    rw [hq h]
    unfold quoteString
    rw [hn]
    rfl

theorem formatKey_spec_witness :
    IsIdentifierKey "with_underscore" ∧ formatKey "with_underscore" = "with_underscore" ∧
    ¬ IsIdentifierKey "trailing " ∧
    formatKey "trailing " = quoteString "trailing " ','.toNat :=
  have h1 : IsIdentifierKey "with_underscore" :=
    (unquotedKeyRe_iff "with_underscore").mp (by decide)
  have h2 : ¬ IsIdentifierKey "trailing " :=
    fun h => absurd ((unquotedKeyRe_iff "trailing ").mpr h) (by decide)
  ⟨h1, (formatKey_spec "with_underscore").1 h1, h2, (formatKey_spec "trailing ").2.1 h2⟩

/-! ### Encoder states -/

theorem appends_id : Appends (fun e => e) := fun _ _ => ⟨rfl, rfl, rfl⟩

theorem appends_write (t : String) : Appends (fun e => e.WriteString t) := by
  intro e s
  refine ⟨?_, rfl, rfl⟩
  simp only [Encoder.WriteString, Encoder.prepend, String.append_assoc]

theorem appends_writeIndent : Appends (fun e => e.writeIndent) := by
  intro e s
  refine ⟨?_, rfl, rfl⟩
  simp only [Encoder.writeIndent, Encoder.WriteString, Encoder.prepend, String.append_assoc]

theorem appends_comp {p q : Encoder → Encoder} (hp : Appends p) (hq : Appends q) :
    Appends (fun e => q (p e)) := by
  intro e s
  obtain ⟨h1, h2, h3⟩ := hp e s
  obtain ⟨k1, k2, k3⟩ := hq (p e) s
  refine ⟨?_, ?_, ?_⟩
  · simp only [h1, k1]
  · rw [k2, h2]
  · rw [k3, h3]

theorem appends_ite (c : Prop) [Decidable c] {p q : Encoder → Encoder} (hp : Appends p)
    (hq : Appends q) : Appends (fun e => if c then p e else q e) := by
  by_cases hc : c
  · simpa only [if_pos hc] using hp
  · simpa only [if_neg hc] using hq

theorem wb_congr {f g : Encoder → Result} (hf : WellBehaved f) (h : ∀ e, g e = f e) :
    WellBehaved g := by
  have : g = f := funext h
  rw [this]; exact hf

theorem wb_pure {p : Encoder → Encoder} (hp : Appends p) :
    WellBehaved (fun e => (p e, none)) := by
  intro e s
  obtain ⟨h1, h2, h3⟩ := hp e s
  exact ⟨by simp only [h1], h2, fun _ => h3⟩

theorem wb_fail (err : EncodeError) {p : Encoder → Encoder} (hp : Appends p) :
    WellBehaved (fun e => (p e, some err)) := by
  intro e s
  obtain ⟨h1, h2, _⟩ := hp e s
  exact ⟨by simp only [h1], h2, fun h => by simp at h⟩

theorem wb_pre {f : Encoder → Result} {p : Encoder → Encoder} (hf : WellBehaved f)
    (hp : Appends p) : WellBehaved (fun e => f (p e)) := by
  intro e s
  obtain ⟨h1, h2, h3⟩ := hp e s
  obtain ⟨k1, k2, k3⟩ := hf (p e) s
  refine ⟨?_, ?_, ?_⟩
  · simp only [h1, k1]
  · rw [k2, h2]
  · intro h; rw [k3 h, h3]

theorem wb_andThen {f g : Encoder → Result} (hf : WellBehaved f) (hg : WellBehaved g) :
    WellBehaved (fun e => (f e).andThen g) := by
  intro e s
  obtain ⟨k1, k2, k3⟩ := hf e s
  beta_reduce
  rw [k1]
  rcases hfe : f e with ⟨e1, _ | err⟩
  · rw [hfe] at k2 k3
    simp only [Result.andThen]
    obtain ⟨m1, m2, m3⟩ := hg e1 s
    refine ⟨m1, ?_, ?_⟩
    · rw [m2, k2]
    · intro h; rw [m3 h, k3 rfl]
  · rw [hfe] at k2
    simp only [Result.andThen]
    exact ⟨trivial, k2, fun h => by simp at h⟩

theorem wb_indented {f : Encoder → Result} (hf : WellBehaved f) :
    WellBehaved (fun e => (f e.incIndent).andThen fun e2 => (e2.decIndent, none)) := by
  intro e s
  obtain ⟨k1, k2, k3⟩ := hf e.incIndent s
  have hpre : (e.prepend s).incIndent = e.incIndent.prepend s := rfl
  beta_reduce
  rw [hpre, k1]
  rcases hfe : f e.incIndent with ⟨e1, _ | err⟩
  · rw [hfe] at k2 k3
    simp only [Result.andThen]
    refine ⟨rfl, k2, ?_⟩
    intro _
    have hk := k3 rfl
    simp only [Encoder.incIndent] at hk
    simp only [Encoder.decIndent]
    omega
  · rw [hfe] at k2
    simp only [Result.andThen]
    exact ⟨trivial, k2, fun h => by simp at h⟩

theorem appends_sep (c : Prop) [Decidable c] (t : String) :
    Appends (fun e => if c then e.WriteString t else e) :=
  appends_ite c (appends_write t) appends_id

theorem encodeObjectLoop_nil (env : GoEnv) (e : Encoder) (obj : List (String × Value))
    (root : Bool) (i : Nat) : e.encodeObjectLoop env obj root [] i = (e, none) := by
  rw [Encoder.encodeObjectLoop]

theorem encodeObjectLoop_cons (env : GoEnv) (e : Encoder) (obj : List (String × Value))
    (root : Bool) (k : String) (rest : List String) (i : Nat) :
    e.encodeObjectLoop env obj root (k :: rest) i =
      ((((if !root || decide (i > 0) then e.writeIndent else e).WriteString
          (formatKey k)).WriteString ":").encodeValueOf env (mapIndex obj k)).andThen
        fun e4 =>
          (if (i : Int) < ((rangeKeys obj).length : Int) - 1 then e4.WriteString "\n"
            else e4).encodeObjectLoop env obj root rest (i + 1) := by
  rw [Encoder.encodeObjectLoop]
  dsimp only
  congr 1
  unfold Encoder.encodeValueOf
  split
  · rename_i val heq
    rw [heq]
  · rename_i val heq
    rw [heq]
  · rename_i h1 h2
    cases hv : mapIndex obj k with
    | object val => exact absurd hv (h1 val)
    | array val => exact absurd hv (h2 val)
    | _ => rfl

theorem listLoop_nil (env : GoEnv) (e : Encoder) (n i : Nat) :
    e.listLoop env n [] i = (e, none) := by
  rw [Encoder.listLoop]

theorem listLoop_cons (env : GoEnv) (e : Encoder) (n : Nat) (v : Value) (rest : List Value)
    (i : Nat) :
    e.listLoop env n (v :: rest) i =
      ((e.writeIndent.WriteString "- ").encodeListElem env v).andThen fun e3 =>
        (if (i : Int) < (n : Int) - 1 then e3.WriteString "\n" else e3).listLoop env n rest
          (i + 1) := by
  rw [Encoder.listLoop.eq_def]
  rfl

theorem inlineLoop_nil (env : GoEnv) (e : Encoder) (i : Nat) :
    e.inlineLoop env [] i = (e, none) := by
  rw [Encoder.inlineLoop]

theorem inlineLoop_cons (env : GoEnv) (e : Encoder) (v : Value) (rest : List Value)
    (i : Nat) :
    e.inlineLoop env (v :: rest) i =
      ((if i > 0 then e.WriteString "," else e).encode env v false).andThen fun e2 =>
        e2.inlineLoop env rest (i + 1) := by
  rw [Encoder.inlineLoop]

theorem fieldLoop_nil (env : GoEnv) (e : Encoder) (obj : List (String × Value)) (j : Nat) :
    e.fieldLoop env obj [] j = (e, none) := by
  rw [Encoder.fieldLoop]

theorem fieldLoop_cons (env : GoEnv) (e : Encoder) (obj : List (String × Value))
    (f : String) (rest : List String) (j : Nat) :
    e.fieldLoop env obj (f :: rest) j =
      ((if j > 0 then e.WriteString "," else e).encode env (mapIndex obj f) false).andThen
        fun e2 => e2.fieldLoop env obj rest (j + 1) := by
  rw [Encoder.fieldLoop]

theorem tabularLoop_nil (env : GoEnv) (e : Encoder) (fields : List String) (n i : Nat) :
    e.tabularLoop env fields n [] i = (e, none) := by
  rw [Encoder.tabularLoop]

theorem tabularLoop_object (env : GoEnv) (e : Encoder) (fields : List String) (n : Nat)
    (obj : List (String × Value)) (rest : List Value) (i : Nat) :
    e.tabularLoop env fields n (.object obj :: rest) i =
      (e.writeIndent.fieldLoop env obj fields 0).andThen fun e2 =>
        (if (i : Int) < (n : Int) - 1 then e2.WriteString "\n" else e2).tabularLoop env
          fields n rest (i + 1) := by
  rw [Encoder.tabularLoop]

theorem tabularLoop_panic (env : GoEnv) (e : Encoder) (fields : List String) (n : Nat)
    (v : Value) (rest : List Value) (i : Nat) (hv : ∀ obj, v ≠ .object obj) :
    e.tabularLoop env fields n (v :: rest) i = (e.writeIndent, some .assertionPanic) := by
  rw [Encoder.tabularLoop.eq_def]
  cases v with
  | object obj => exact absurd rfl (hv obj)
  | _ => rfl

theorem encodeArrayValue_unfold (env : GoEnv) (e : Encoder) (arr : List Value) :
    e.encodeArrayValue env arr =
      if arr.length = 0 then (e.WriteString (lenHeader arr.length ++ ":"), none)
      else if allPrimitives arr then
        (e.WriteString (lenHeader arr.length ++ ": ")).inlineLoop env arr 0
      else if (uniformObjectFields arr).2 &&
          decide ((uniformObjectFields arr).1.length > 0) then
        (((e.WriteString (lenHeader arr.length ++ "\x7b" ++
            ",".intercalate (uniformObjectFields arr).1 ++ "\x7d:\n")).incIndent.tabularLoop
            env (uniformObjectFields arr).1 arr.length arr 0).andThen fun e2 =>
          (e2.decIndent, none))
      else
        (((e.WriteString (lenHeader arr.length ++ ":\n")).incIndent.listLoop env arr.length
            arr 0).andThen fun e2 => (e2.decIndent, none)) := by
  rw [Encoder.encodeArrayValue]

theorem wb_indented_pre {f : Encoder → Result} (hf : WellBehaved f) (t : String) :
    WellBehaved (fun e => (f (e.WriteString t).incIndent).andThen fun e2 =>
      (e2.decIndent, none)) :=
  wb_pre (wb_indented hf) (appends_write t)

mutual

theorem encode_wb (env : GoEnv) (v : Value) (root : Bool) :
    WellBehaved (fun e => e.encode env v root) :=
  match v with
  | .null => wb_congr (wb_pure (appends_write "null")) (fun e => by rw [Encoder.encode])
  | .bool true =>
    wb_congr (wb_pure (appends_write "true")) (fun e => by rw [Encoder.encode]; rfl)
  | .bool false =>
    wb_congr (wb_pure (appends_write "false")) (fun e => by rw [Encoder.encode]; rfl)
  | .int val => wb_congr (wb_pure (appends_write _)) (fun e => by rw [Encoder.encode])
  | .int64 val => wb_congr (wb_pure (appends_write _)) (fun e => by rw [Encoder.encode])
  | .float64 val => wb_congr (wb_pure (appends_write _)) (fun e => by rw [Encoder.encode])
  | .string val => wb_congr (wb_pure (appends_write _)) (fun e => by rw [Encoder.encode])
  | .array val => wb_congr (encodeArray_wb env val) (fun e => by rw [Encoder.encode])
  | .object val => wb_congr (encodeObject_wb env val root) (fun e => by rw [Encoder.encode])
  | .other t => wb_congr (wb_fail _ appends_id) (fun e => by rw [Encoder.encode])
termination_by (sizeOf v, 0)

theorem encodeObject_wb (env : GoEnv) (obj : List (String × Value)) (root : Bool) :
    WellBehaved (fun e => e.encodeObject env obj root) :=
  wb_congr (encodeObjectLoop_wb env obj root (rangeKeys obj) 0)
    (fun e => by rw [Encoder.encodeObject])
termination_by (sizeOf obj, (rangeKeys obj).length + 2)

theorem encodeValueOf_wb (env : GoEnv) (obj : List (String × Value)) (k : String)
    (rank : Nat) : WellBehaved (fun e => e.encodeValueOf env (mapIndex obj k)) :=
  match h : mapIndex obj k with
  | .object val => by
    unfold Encoder.encodeValueOf
    by_cases hl : val.length = 0
    · simp only [hl, if_true]
      exact wb_pure (appends_write _)
    · simp only [hl, if_false]
      exact wb_indented_pre (encodeObject_wb env val false) "\n"
  | .array val => encodeArrayValue_wb env val
  | .null => wb_pre (encode_wb env .null false) (appends_write " ")
  | .bool b => wb_pre (encode_wb env (.bool b) false) (appends_write " ")
  | .int b => wb_pre (encode_wb env (.int b) false) (appends_write " ")
  | .int64 b => wb_pre (encode_wb env (.int64 b) false) (appends_write " ")
  | .float64 b => wb_pre (encode_wb env (.float64 b) false) (appends_write " ")
  | .string b => wb_pre (encode_wb env (.string b) false) (appends_write " ")
  | .other b => wb_pre (encode_wb env (.other b) false) (appends_write " ")
termination_by (sizeOf obj, rank + 1)
decreasing_by
  all_goals simp_wf
  all_goals simp only [Prod.lex_def, true_and]
  · have := sizeOf_mapIndex_object h; omega
  · have := sizeOf_mapIndex_array h; omega
  all_goals first
    | omega
    | (have hle := sizeOf_mapIndex_le obj k; rw [h] at hle; simp at hle; omega)

theorem encodeObjectLoop_wb (env : GoEnv) (obj : List (String × Value)) (root : Bool)
    (keys : List String) (i : Nat) :
    WellBehaved (fun e => e.encodeObjectLoop env obj root keys i) :=
  match keys with
  | [] => wb_congr (wb_pure appends_id) (fun e => encodeObjectLoop_nil env e obj root i)
  | k :: rest =>
    wb_congr
      (wb_andThen
        (wb_pre (encodeValueOf_wb env obj k rest.length)
          (appends_comp (appends_comp (appends_ite _ appends_writeIndent appends_id)
            (appends_write (formatKey k))) (appends_write ":")))
        (wb_pre (encodeObjectLoop_wb env obj root rest (i + 1))
          (appends_sep ((i : Int) < ((rangeKeys obj).length : Int) - 1) "\n")))
      (fun e => encodeObjectLoop_cons env e obj root k rest i)
termination_by (sizeOf obj, keys.length + 1)

theorem encodeArrayValue_wb (env : GoEnv) (arr : List Value) :
    WellBehaved (fun e => e.encodeArrayValue env arr) := by
  by_cases h0 : arr.length = 0
  · exact wb_congr (wb_pure (appends_write (lenHeader arr.length ++ ":")))
      (fun e => by rw [encodeArrayValue_unfold, if_pos h0])
  by_cases h1 : allPrimitives arr = true
  · exact wb_congr (wb_pre (inlineLoop_wb env arr 0) (appends_write _))
      (fun e => by rw [encodeArrayValue_unfold, if_neg h0, if_pos h1])
  by_cases h2 : ((uniformObjectFields arr).2 &&
      decide ((uniformObjectFields arr).1.length > 0)) = true
  · exact wb_congr
      (wb_indented_pre (tabularLoop_wb env (uniformObjectFields arr).1 arr.length arr 0) _)
      (fun e => by rw [encodeArrayValue_unfold, if_neg h0, if_neg h1, if_pos h2])
  · exact wb_congr (wb_indented_pre (listLoop_wb env arr.length arr 0) _)
      (fun e => by rw [encodeArrayValue_unfold, if_neg h0, if_neg h1, if_neg h2])
termination_by (sizeOf arr, 2)

theorem inlineLoop_wb (env : GoEnv) (arr : List Value) (i : Nat) :
    WellBehaved (fun e => e.inlineLoop env arr i) :=
  match arr with
  | [] => wb_congr (wb_pure appends_id) (fun e => inlineLoop_nil env e i)
  | v :: rest =>
    wb_congr
      (wb_andThen (wb_pre (encode_wb env v false) (appends_sep (i > 0) ","))
        (inlineLoop_wb env rest (i + 1)))
      (fun e => inlineLoop_cons env e v rest i)
termination_by (sizeOf arr, 1)

theorem tabularLoop_wb (env : GoEnv) (fields : List String) (n : Nat) (arr : List Value)
    (i : Nat) : WellBehaved (fun e => e.tabularLoop env fields n arr i) :=
  match arr with
  | [] => wb_congr (wb_pure appends_id) (fun e => tabularLoop_nil env e fields n i)
  | .object obj :: rest =>
    wb_congr
      (wb_andThen (wb_pre (fieldLoop_wb env obj fields 0) appends_writeIndent)
        (wb_pre (tabularLoop_wb env fields n rest (i + 1))
          (appends_sep ((i : Int) < (n : Int) - 1) "\n")))
      (fun e => tabularLoop_object env e fields n obj rest i)
  | .null :: rest => wb_congr (wb_fail _ appends_writeIndent)
      (fun e => tabularLoop_panic env e fields n _ rest i (by simp))
  | .bool _ :: rest => wb_congr (wb_fail _ appends_writeIndent)
      (fun e => tabularLoop_panic env e fields n _ rest i (by simp))
  | .int _ :: rest => wb_congr (wb_fail _ appends_writeIndent)
      (fun e => tabularLoop_panic env e fields n _ rest i (by simp))
  | .int64 _ :: rest => wb_congr (wb_fail _ appends_writeIndent)
      (fun e => tabularLoop_panic env e fields n _ rest i (by simp))
  | .float64 _ :: rest => wb_congr (wb_fail _ appends_writeIndent)
      (fun e => tabularLoop_panic env e fields n _ rest i (by simp))
  | .string _ :: rest => wb_congr (wb_fail _ appends_writeIndent)
      (fun e => tabularLoop_panic env e fields n _ rest i (by simp))
  | .array _ :: rest => wb_congr (wb_fail _ appends_writeIndent)
      (fun e => tabularLoop_panic env e fields n _ rest i (by simp))
  | .other _ :: rest => wb_congr (wb_fail _ appends_writeIndent)
      (fun e => tabularLoop_panic env e fields n _ rest i (by simp))
termination_by (sizeOf arr, 1)

theorem fieldLoop_wb (env : GoEnv) (obj : List (String × Value)) (fields : List String)
    (j : Nat) : WellBehaved (fun e => e.fieldLoop env obj fields j) :=
  match fields with
  | [] => wb_congr (wb_pure appends_id) (fun e => fieldLoop_nil env e obj j)
  | f :: rest =>
    wb_congr
      (wb_andThen (wb_pre (encode_wb env (mapIndex obj f) false) (appends_sep (j > 0) ","))
        (fieldLoop_wb env obj rest (j + 1)))
      (fun e => fieldLoop_cons env e obj f rest j)
termination_by (sizeOf obj, fields.length)
decreasing_by
  all_goals simp_wf
  all_goals simp only [Prod.lex_def, true_and]
  all_goals first
    | omega
    | (have hle := sizeOf_mapIndex_le obj ‹String›; omega)

theorem encodeListElem_wb (env : GoEnv) (v : Value) :
    WellBehaved (fun e => e.encodeListElem env v) :=
  match v with
  | .object val => by
    unfold Encoder.encodeListElem
    by_cases hl : val.length = 0
    · simp only [hl, if_true]
      exact wb_pure (appends_write _)
    · simp only [hl, if_false]
      exact wb_indented_pre (encodeObject_wb env val false) "\n"
  | .array val => encode_wb env (.array val) false
  | .null => encode_wb env .null false
  | .bool b => encode_wb env (.bool b) false
  | .int b => encode_wb env (.int b) false
  | .int64 b => encode_wb env (.int64 b) false
  | .float64 b => encode_wb env (.float64 b) false
  | .string b => encode_wb env (.string b) false
  | .other b => encode_wb env (.other b) false
termination_by (sizeOf v, 1)

theorem listLoop_wb (env : GoEnv) (n : Nat) (arr : List Value) (i : Nat) :
    WellBehaved (fun e => e.listLoop env n arr i) :=
  match arr with
  | [] => wb_congr (wb_pure appends_id) (fun e => listLoop_nil env e n i)
  | v :: rest =>
    wb_congr
      (wb_andThen
        (wb_pre (encodeListElem_wb env v)
          (appends_comp appends_writeIndent (appends_write "- ")))
        (wb_pre (listLoop_wb env n rest (i + 1))
          (appends_sep ((i : Int) < (n : Int) - 1) "\n")))
      (fun e => listLoop_cons env e n v rest i)
termination_by (sizeOf arr, 1)

theorem encodeArray_wb (env : GoEnv) (arr : List Value) :
    WellBehaved (fun e => e.encodeArray env arr) :=
  wb_congr (encodeArrayValue_wb env arr) (fun e => by rw [Encoder.encodeArray])
termination_by (sizeOf arr, 3)

end

theorem writeString_writeString (e : Encoder) (a b : String) :
    (e.WriteString a).WriteString b = e.WriteString (a ++ b) := by
  simp only [Encoder.WriteString, String.append_assoc]

theorem writeString_empty (e : Encoder) : e.WriteString "" = e := by
  simp only [Encoder.WriteString, String.append_empty]

theorem andThen_ok (e : Encoder) (g : Encoder → Result) :
    Result.andThen (e, none) g = g e := rfl

theorem andThen_err (e : Encoder) (err : EncodeError) (g : Encoder → Result) :
    Result.andThen (e, some err) g = (e, some err) := rfl

theorem writeIndent_eq (e : Encoder) (d : Nat) (hd : e.indent = (d : Int))
    (hs : e.indentSize = 2) : e.writeIndent = e.WriteString (spaces (2 * d)) := by
  unfold Encoder.writeIndent spaces
  rw [hd, hs]
  have : ((d : Int) * 2).toNat = 2 * d := by omega
  rw [this]

/-- A well-behaved step that succeeds at depth `d` appends its text to whatever the
builder holds and leaves the depth unchanged. -/
theorem wb_run {f : Encoder → Result} (hf : WellBehaved f) (e : Encoder) (d : Nat)
    (hd : e.indent = (d : Int)) (hs : e.indentSize = 2) (hok : Succeeds f d) :
    f e = (e.WriteString (emitted f d), none) := by
  obtain ⟨h1, h2, h3⟩ := hf (Encoder.atDepth d) e.sb
  have he : (Encoder.atDepth d).prepend e.sb = e := by
    cases e
    simp only [Encoder.atDepth, Encoder.prepend, String.append_empty] at hd hs ⊢
    rw [hd, hs]
  rw [he] at h1
  unfold Succeeds at hok
  rw [h1, hok]
  have h3 := h3 hok
  unfold emitted
  rcases hr : (f (Encoder.atDepth d)).1 with ⟨t, ind, sz⟩
  rw [hr] at h2 h3
  simp only [Encoder.atDepth] at h2 h3
  simp only [Encoder.prepend, Encoder.WriteString, h2, h3, hd, hs]

theorem wb_run_fail {f : Encoder → Result} (hf : WellBehaved f) (e : Encoder) (d : Nat)
    (hd : e.indent = (d : Int)) (hs : e.indentSize = 2) (hfail : ¬ Succeeds f d) :
    (f e).2 ≠ none := by
  obtain ⟨h1, _, _⟩ := hf (Encoder.atDepth d) e.sb
  have he : (Encoder.atDepth d).prepend e.sb = e := by
    cases e
    simp only [Encoder.atDepth, Encoder.prepend, String.append_empty] at hd hs ⊢
    rw [hd, hs]
  rw [he] at h1
  rw [h1]
  exact hfail

theorem encode_primitive (env : GoEnv) (e : Encoder) (v : Value) (root : Bool)
    (hv : isPrimitive v = true) :
    e.encode env v root = (e.WriteString (scalarText env v), none) := by
  cases v with
  | bool b => cases b <;> (rw [Encoder.encode]; rfl)
  | array val => simp [isPrimitive] at hv
  | object val => simp [isPrimitive] at hv
  | other t => simp [isPrimitive] at hv
  | _ => rw [Encoder.encode]; rfl

theorem intercalate_cons (s a : String) (l : List String) :
    s.intercalate (a :: l) = a ++ String.join (l.map fun x => s ++ x) := by
  simp only [String.intercalate]
  exact intercalate_go_eq s l a

/-- The inline loop on scalars, entered at an index `i > 0`: every element is
written after a comma. -/
theorem inlineLoop_tail (env : GoEnv) :
    ∀ (arr : List Value) (e : Encoder) (i : Nat), 0 < i →
      (∀ v ∈ arr, isPrimitive v = true) →
      e.inlineLoop env arr i =
        (e.WriteString (String.join (arr.map fun v => "," ++ scalarText env v)), none)
  | [], e, i, _, _ => by
    rw [inlineLoop_nil]; simp only [List.map_nil, join_nil, writeString_empty]
  | v :: rest, e, i, hi, h => by
    rw [inlineLoop_cons, if_pos hi,
      encode_primitive env _ v false (h v (List.mem_cons_self _ _)), andThen_ok,
      inlineLoop_tail env rest _ (i + 1) (Nat.succ_pos i)
        (fun x hx => h x (List.mem_cons_of_mem _ hx))]
    simp only [writeString_writeString, List.map_cons, join_cons, String.append_assoc]

theorem inlineLoop_scalars (env : GoEnv) (arr : List Value) (e : Encoder)
    (h : ∀ v ∈ arr, isPrimitive v = true) :
    e.inlineLoop env arr 0 =
      (e.WriteString (",".intercalate (arr.map (scalarText env))), none) := by
  cases arr with
  | nil => rw [inlineLoop_nil]; simp [String.intercalate, writeString_empty]
  | cons v rest =>
    rw [inlineLoop_cons, if_neg (by omega),
      encode_primitive env _ v false (h v (List.mem_cons_self _ _)), andThen_ok,
      inlineLoop_tail env rest _ 1 (by omega) (fun x hx => h x (List.mem_cons_of_mem _ hx))]
    simp only [writeString_writeString, List.map_cons, intercalate_cons, List.map_map]
    rfl

theorem fieldLoop_tail (env : GoEnv) (obj : List (String × Value)) :
    ∀ (fields : List String) (e : Encoder) (j : Nat), 0 < j →
      (∀ f ∈ fields, isPrimitive (mapIndex obj f) = true) →
      e.fieldLoop env obj fields j =
        (e.WriteString
          (String.join (fields.map fun f => "," ++ scalarText env (mapIndex obj f))), none)
  | [], e, j, _, _ => by
    rw [fieldLoop_nil]; simp only [List.map_nil, join_nil, writeString_empty]
  | f :: rest, e, j, hj, h => by
    rw [fieldLoop_cons, if_pos hj,
      encode_primitive env _ _ false (h f (List.mem_cons_self _ _)), andThen_ok,
      fieldLoop_tail env obj rest _ (j + 1) (Nat.succ_pos j)
        (fun x hx => h x (List.mem_cons_of_mem _ hx))]
    simp only [writeString_writeString, List.map_cons, join_cons, String.append_assoc]

theorem fieldLoop_scalars (env : GoEnv) (obj : List (String × Value)) (fields : List String)
    (e : Encoder) (h : ∀ f ∈ fields, isPrimitive (mapIndex obj f) = true) :
    e.fieldLoop env obj fields 0 = (e.WriteString (rowText env fields (.object obj)), none) := by
  unfold rowText
  simp only [Value.entries]
  cases fields with
  | nil => rw [fieldLoop_nil]; simp [String.intercalate, writeString_empty]
  | cons f rest =>
    rw [fieldLoop_cons, if_neg (by omega),
      encode_primitive env _ _ false (h f (List.mem_cons_self _ _)), andThen_ok,
      fieldLoop_tail env obj rest _ 1 (by omega) (fun x hx => h x (List.mem_cons_of_mem _ hx))]
    simp only [writeString_writeString, List.map_cons, intercalate_cons, List.map_map]
    rfl

/-! ### Array strategy selector -/

theorem lookup_isSome_iff (f : String) :
    ∀ obj : List (String × Value), (obj.lookup f).isSome = true ↔ f ∈ rangeKeys obj
  | [] => by simp [rangeKeys]
  | (k, v) :: rest => by
    by_cases hk : f = k
    · subst hk
      simp [List.lookup, rangeKeys]
    · have hk2 : (f == k) = false := by simpa using hk
      have ih := lookup_isSome_iff f rest
      simp only [rangeKeys] at ih
      simp only [List.lookup, hk2, rangeKeys, List.map_cons, List.mem_cons, hk, false_or]
      exact ih

theorem isPrimitive_mapIndex (obj : List (String × Value)) (f : String)
    (h : ∀ kv ∈ obj, isPrimitive kv.2 = true) : isPrimitive (mapIndex obj f) = true := by
  unfold mapIndex
  cases hl : obj.lookup f with
  | none => rfl
  | some v =>
    have hmem : (f, v) ∈ obj := by
      clear h
      induction obj with
      | nil => simp at hl
      | cons a rest ih =>
        obtain ⟨k, w⟩ := a
        by_cases hk : f = k
        · subst hk
          simp only [List.lookup, beq_self_eq_true, Option.some.injEq] at hl
          subst hl
          exact List.mem_cons_self _ _
        · have hk2 : (f == k) = false := by simpa using hk
          simp only [List.lookup, hk2] at hl
          exact List.mem_cons_of_mem _ (ih hl)
    exact h (f, v) hmem

theorem uniformLoop_of_rowsMatch (fields : List String) :
    ∀ (arr : List Value) (i : Nat), 0 < i → RowsMatch fields arr →
      uniformObjectFieldsLoop fields i arr = (fields, true)
  | [], _, _, _ => by simp [uniformObjectFieldsLoop]
  | v :: rest, i, hi, h => by
    obtain ⟨obj, hv, hp, hl, hf⟩ := h v (List.mem_cons_self _ _)
    subst hv
    have hall : (obj.all fun kv => isPrimitive kv.2) = true := by
      simpa [List.all_eq_true] using fun a b hab => hp (a, b) hab
    have hfl : (fields.all fun f => (obj.lookup f).isSome) = true := by
      rw [List.all_eq_true]
      intro f hfm
      exact (lookup_isSome_iff f obj).mpr (hf f hfm)
    have hi0 : i ≠ 0 := by omega
    simp only [uniformObjectFieldsLoop, hall, Bool.not_true, Bool.false_eq_true, if_false, hi0,
      hl, ne_eq, not_true_eq_false, hfl]
    exact uniformLoop_of_rowsMatch fields rest (i + 1) (Nat.succ_pos i)
      (fun x hx => h x (List.mem_cons_of_mem _ hx))

theorem rowsMatch_of_uniformLoop (fields : List String) :
    ∀ (arr : List Value) (i : Nat), 0 < i →
      (uniformObjectFieldsLoop fields i arr).2 = true →
      uniformObjectFieldsLoop fields i arr = (fields, true) ∧ RowsMatch fields arr
  | [], _, _, _ => by simp [uniformObjectFieldsLoop, RowsMatch]
  | v :: rest, i, hi, h => by
    have hi0 : i ≠ 0 := by omega
    cases v with
    | object obj =>
      simp only [uniformObjectFieldsLoop, hi0, if_false] at h ⊢
      by_cases hall : (obj.all fun kv => isPrimitive kv.2) = true
      · simp only [hall, Bool.not_true, Bool.false_eq_true, if_false] at h ⊢
        by_cases hl : obj.length = fields.length
        · simp only [hl, ne_eq, not_true_eq_false, if_false] at h ⊢
          by_cases hfl : (fields.all fun f => (obj.lookup f).isSome) = true
          · simp only [hfl, Bool.not_true, Bool.false_eq_true, if_false] at h ⊢
            obtain ⟨h1, h2⟩ := rowsMatch_of_uniformLoop fields rest (i + 1) (Nat.succ_pos i) h
            refine ⟨h1, ?_⟩
            intro x hx
            rcases List.mem_cons.mp hx with hx | hx
            · subst hx
              refine ⟨obj, rfl, ?_, hl, ?_⟩
              · intro kv hkv
                exact (List.all_eq_true.mp hall) kv hkv
              · intro f hfm
                exact (lookup_isSome_iff f obj).mp ((List.all_eq_true.mp hfl) f hfm)
            · exact h2 x hx
          · simp [hfl] at h
        · simp [hl] at h
      · simp [hall] at h
    | _ => simp [uniformObjectFieldsLoop] at h

theorem uniformObjectFields_head (first : List (String × Value)) (rest : List Value) :
    uniformObjectFields (.object first :: rest) =
      if (first.all fun kv => isPrimitive kv.2) = true then
        uniformObjectFieldsLoop (rangeKeys first) 1 rest
      else ([], false) := by
  simp only [uniformObjectFields, List.length_cons, Nat.succ_ne_zero, if_false,
    uniformObjectFieldsLoop, if_true, Nat.zero_add]
  split_ifs <;> simp_all

theorem uniformObjectFields_nonobject (v : Value) (rest : List Value)
    (hv : ∀ obj, v ≠ .object obj) : uniformObjectFields (v :: rest) = ([], false) := by
  cases v with
  | object obj => exact absurd rfl (hv obj)
  | _ => simp [uniformObjectFields, uniformObjectFieldsLoop]

theorem arrayMode_tabular_iff (arr : List Value) :
    arrayMode arr = .tabular ↔
      arr.length ≠ 0 ∧ allPrimitives arr = false ∧
      (uniformObjectFields arr).2 = true ∧ 0 < (uniformObjectFields arr).1.length := by
  unfold arrayMode
  split_ifs with h0 h1 h2
  · simp [h0]
  · simp [h1]
  · simp only [Bool.and_eq_true, decide_eq_true_eq] at h2
    simp [h0, h1, h2]
  · simp only [Bool.and_eq_true, decide_eq_true_eq] at h2
    simp only [reduceCtorEq, false_iff]
    intro h
    exact h2 ⟨h.2.2.1, h.2.2.2⟩

/-- What tabular mode means for the code: the first element is an object with
scalar values and at least one key, and the other rows match its keys. -/
theorem arrayMode_tabular_cons (first : List (String × Value)) (rest : List Value) :
    arrayMode (.object first :: rest) = .tabular ↔
      (∀ kv ∈ first, isPrimitive kv.2 = true) ∧ first ≠ [] ∧
      RowsMatch (rangeKeys first) rest := by
  rw [arrayMode_tabular_iff, uniformObjectFields_head]
  have hnp : allPrimitives (.object first :: rest) = false := by
    simp [allPrimitives, isPrimitive]
  constructor
  · rintro ⟨_, _, h3, h4⟩
    by_cases hall : (first.all fun kv => isPrimitive kv.2) = true
    · rw [if_pos hall] at h3 h4
      obtain ⟨h5, h6⟩ := rowsMatch_of_uniformLoop (rangeKeys first) rest 1 (by omega) h3
      rw [h5] at h4
      refine ⟨fun kv hkv => (List.all_eq_true.mp hall) kv hkv, ?_, h6⟩
      intro hf
      subst hf
      simp [rangeKeys] at h4
    · rw [if_neg hall] at h3
      simp at h3
  · rintro ⟨h1, h2, h3⟩
    have hall : (first.all fun kv => isPrimitive kv.2) = true :=
      List.all_eq_true.mpr (fun kv hkv => h1 kv hkv)
    rw [if_pos hall, uniformLoop_of_rowsMatch (rangeKeys first) rest 1 (by omega) h3]
    refine ⟨by simp, hnp, rfl, ?_⟩
    cases first with
    | nil => exact absurd rfl h2
    | cons a l => simp [rangeKeys]

theorem arrayMode_tabular_head (v : Value) (rest : List Value)
    (h : arrayMode (v :: rest) = .tabular) : ∃ first, v = .object first := by
  cases v with
  | object obj => exact ⟨obj, rfl⟩
  | _ =>
    rw [arrayMode_tabular_iff, uniformObjectFields_nonobject _ _ (by simp)] at h
    simp at h

theorem lenHeader_zero : lenHeader 0 ++ ":" = "[0]:" := by decide

theorem encodeArrayValue_nil (env : GoEnv) (e : Encoder) :
    e.encodeArrayValue env [] = (e.WriteString "[0]:", none) := by
  rw [encodeArrayValue_unfold, if_pos (List.length_nil)]
  rfl

theorem sb_newEncoder_write (t : String) : (NewEncoder.WriteString t).sb = t := by
  simp only [NewEncoder, Encoder.WriteString, String.empty_append]

theorem Encode_of_encode (env : GoEnv) (v : Value) (t : String)
    (h : NewEncoder.encode env v true = (NewEncoder.WriteString t, none)) :
    Encode env v = (t, none) := by
  unfold Encode
  rw [h]
  simp only [sb_newEncoder_write]

theorem encode_array (env : GoEnv) (e : Encoder) (arr : List Value) (root : Bool) :
    e.encode env (.array arr) root = e.encodeArrayValue env arr := by
  rw [Encoder.encode, Encoder.encodeArray]

theorem encode_object (env : GoEnv) (e : Encoder) (obj : List (String × Value))
    (root : Bool) : e.encode env (.object obj) root = e.encodeObject env obj root := by
  rw [Encoder.encode]

theorem arrayMode_list_iff (arr : List Value) :
    arrayMode arr = .list ↔
      arr.length ≠ 0 ∧ allPrimitives arr = false ∧
      ¬ (((uniformObjectFields arr).2 &&
        decide ((uniformObjectFields arr).1.length > 0)) = true) := by
  unfold arrayMode
  split_ifs with h0 h1 h2
  · simp [h0]
  · simp [h1]
  · simp only [reduceCtorEq, false_iff]
    intro h
    exact h.2.2 h2
  · simp only [true_iff]
    exact ⟨h0, by simpa using h1, h2⟩

/-- The tabular loop over rows of scalars, entered at the index of the row `v`: the
row, then every later row on a line of its own. -/
theorem tabularLoop_rows (env : GoEnv) (fields : List String) (n d : Nat) :
    ∀ (rest : List Value) (v : Value) (e : Encoder) (i : Nat),
      e.indent = (d : Int) → e.indentSize = 2 → i + rest.length + 1 = n →
      (∀ x ∈ v :: rest, ∃ obj, x = .object obj ∧ ∀ kv ∈ obj, isPrimitive kv.2 = true) →
      e.tabularLoop env fields n (v :: rest) i =
        (e.WriteString (spaces (2 * d) ++ rowText env fields v ++
          String.join (rest.map fun x => "\n" ++ spaces (2 * d) ++ rowText env fields x)),
          none)
  | [], v, e, i, hd, hs, hn, h => by
    obtain ⟨obj, hv, hp⟩ := h v (List.mem_cons_self _ _)
    subst hv
    have hlast : ¬ ((i : Int) < (n : Int) - 1) := by
      simp only [List.length_nil] at hn; omega
    rw [tabularLoop_object, writeIndent_eq e d hd hs,
      fieldLoop_scalars env obj fields _ (fun f _ => isPrimitive_mapIndex obj f hp),
      andThen_ok, if_neg hlast, tabularLoop_nil]
    simp only [writeString_writeString, List.map_nil, join_nil, String.append_empty]
  | w :: rest, v, e, i, hd, hs, hn, h => by
    obtain ⟨obj, hv, hp⟩ := h v (List.mem_cons_self _ _)
    subst hv
    have hmore : (i : Int) < (n : Int) - 1 := by
      simp only [List.length_cons] at hn; omega
    rw [tabularLoop_object, writeIndent_eq e d hd hs,
      fieldLoop_scalars env obj fields _ (fun f _ => isPrimitive_mapIndex obj f hp),
      andThen_ok, if_pos hmore,
      tabularLoop_rows env fields n d rest w _ (i + 1) ?_ ?_
        (by simp only [List.length_cons] at hn; omega)
        (fun x hx => h x (List.mem_cons_of_mem _ hx))]
    · simp only [writeString_writeString, List.map_cons, join_cons, String.append_assoc]
    · exact hd
    · exact hs

/-- The dash-notation loop, entered at the index of the element `v`, when every
element `x` is written as the text `t x`. -/
theorem listLoop_rows (env : GoEnv) (n d : Nat) (t : Value → String) :
    ∀ (rest : List Value) (v : Value) (e : Encoder) (i : Nat),
      e.indent = (d : Int) → e.indentSize = 2 → i + rest.length + 1 = n →
      (∀ x ∈ v :: rest, ∀ e1 : Encoder, e1.indent = (d : Int) → e1.indentSize = 2 →
        e1.encodeListElem env x = (e1.WriteString (t x), none)) →
      e.listLoop env n (v :: rest) i =
        (e.WriteString (spaces (2 * d) ++ "- " ++ t v ++
          String.join (rest.map fun x => "\n" ++ spaces (2 * d) ++ "- " ++ t x)), none)
  | [], v, e, i, hd, hs, hn, h => by
    have hlast : ¬ ((i : Int) < (n : Int) - 1) := by
      simp only [List.length_nil] at hn; omega
    rw [listLoop_cons, writeIndent_eq e d hd hs,
      h v (List.mem_cons_self _ _) _ ?_ ?_, andThen_ok, if_neg hlast, listLoop_nil]
    · simp only [writeString_writeString, List.map_nil, join_nil, String.append_empty,
        String.append_assoc]
    · exact hd
    · exact hs
  | w :: rest, v, e, i, hd, hs, hn, h => by
    have hmore : (i : Int) < (n : Int) - 1 := by
      simp only [List.length_cons] at hn; omega
    rw [listLoop_cons, writeIndent_eq e d hd hs,
      h v (List.mem_cons_self _ _) _ ?_ ?_, andThen_ok, if_pos hmore,
      listLoop_rows env n d t rest w _ (i + 1) ?_ ?_
        (by simp only [List.length_cons] at hn; omega)
        (fun x hx => h x (List.mem_cons_of_mem _ hx))]
    · simp only [writeString_writeString, List.map_cons, join_cons, String.append_assoc]
    · exact hd
    · exact hs
    · exact hd
    · exact hs

/-- What the dash-notation branch writes for an element that is encoded without
error. -/
theorem encodeListElem_text (env : GoEnv) (d : Nat) (x : Value) (hx : ListElemOk env d x)
    (e1 : Encoder) (hd : e1.indent = ((d + 1 : Nat) : Int)) (hs : e1.indentSize = 2) :
    e1.encodeListElem env x = (e1.WriteString (listElemText env d x), none) := by
  cases x with
  | object val =>
    unfold Encoder.encodeListElem listElemText
    by_cases hl : val.length = 0
    · simp only [hl, if_true]
    · simp only [hl, if_false]
      have hrun := wb_run (encodeObject_wb env val false)
        (e1.WriteString "\n").incIndent (d + 2)
        (by simp only [Encoder.incIndent, Encoder.WriteString, hd]; omega)
        (by simp only [Encoder.incIndent, Encoder.WriteString, hs]) (hx hl)
      simp only at hrun
      rw [hrun, andThen_ok]
      simp only [Encoder.decIndent, Encoder.incIndent, Encoder.WriteString,
        String.append_assoc, add_sub_cancel_right]
  | array val =>
    have h1 : e1.encodeListElem env (.array val) = e1.encode env (.array val) false := rfl
    have hrun := wb_run (encodeArrayValue_wb env val) e1 (d + 1) hd hs hx
    simp only at hrun
    rw [h1, encode_array, hrun]
    rfl
  | other t => exact absurd hx (by simp [ListElemOk])
  | null => exact encode_primitive env e1 _ false rfl
  | bool b => exact encode_primitive env e1 _ false rfl
  | int n => exact encode_primitive env e1 _ false rfl
  | int64 n => exact encode_primitive env e1 _ false rfl
  | float64 f => exact encode_primitive env e1 _ false rfl
  | string t => exact encode_primitive env e1 _ false rfl

/-! ### Claims on the array strategy selector and the array forms -/

/-- C6: for a non-empty array whose maps have pairwise distinct keys, tabular mode
is chosen if and only if every element is a non-empty object, all elements have
the key set of the first element, and every value under every key is a
scalar. -/
theorem tabular_iff_uniform (arr : List Value) (hne : arr ≠ [])
    (hk : ElementKeysDistinct arr) : arrayMode arr = .tabular ↔ IsUniformTable arr := by
  cases arr with
  | nil => exact absurd rfl hne
  | cons v rest =>
    constructor
    · intro h
      obtain ⟨first, hv⟩ := arrayMode_tabular_head v rest h
      subst hv
      obtain ⟨hp, hne1, hrows⟩ := (arrayMode_tabular_cons first rest).mp h
      have hnd : (rangeKeys first).Nodup := hk _ (List.mem_cons_self _ _) first rfl
      intro x hx
      rcases List.mem_cons.mp hx with hx | hx
      · subst hx
        refine ⟨first, rfl, hne1, hp, ?_⟩
        intro first1 hhead
        simp only [List.head?_cons, Option.some.injEq, Value.object.injEq] at hhead
        subst hhead
        exact fun k => Iff.rfl
      · obtain ⟨obj, hxo, hpo, hlen, hsub⟩ := hrows x hx
        refine ⟨obj, hxo, ?_, hpo, ?_⟩
        · intro hobj
          subst hobj
          cases first with
          | nil => exact hne1 rfl
          | cons a l => simp [rangeKeys] at hlen
        · intro first1 hhead
          simp only [List.head?_cons, Option.some.injEq, Value.object.injEq] at hhead
          subst hhead
          have hperm : (rangeKeys first).Perm (rangeKeys obj) :=
            (List.subperm_of_subset hnd hsub).perm_of_length_le
              (by simp only [rangeKeys, List.length_map] at hlen ⊢; omega)
          exact fun k => (hperm.mem_iff).symm
    · intro h
      obtain ⟨first, hv, hne1, hp, _⟩ := h v (List.mem_cons_self _ _)
      subst hv
      refine (arrayMode_tabular_cons first rest).mpr ⟨hp, hne1, ?_⟩
      have hnd : (rangeKeys first).Nodup := hk _ (List.mem_cons_self _ _) first rfl
      intro x hx
      obtain ⟨obj, hxo, _, hpo, hkeys⟩ := h x (List.mem_cons_of_mem _ hx)
      have hkeys := hkeys first rfl
      have hndo : (rangeKeys obj).Nodup := hk x (List.mem_cons_of_mem _ hx) obj hxo
      have hperm : (rangeKeys obj).Perm (rangeKeys first) :=
        (List.perm_ext_iff_of_nodup hndo hnd).mpr hkeys
      refine ⟨obj, hxo, hpo, ?_, fun f hf => (hkeys f).mpr hf⟩
      have := hperm.length_eq
      simp only [rangeKeys, List.length_map] at this ⊢
      exact this

theorem tabular_iff_uniform_witness :
    sampleTable ≠ [] ∧ ElementKeysDistinct sampleTable ∧
    arrayMode sampleTable = .tabular ∧ IsUniformTable sampleTable :=
  have hne : sampleTable ≠ [] := List.cons_ne_nil _ _
  have hk : ElementKeysDistinct sampleTable := by
    intro v hv obj ho
    simp only [sampleTable, List.mem_cons, List.mem_singleton, List.not_mem_nil,
      or_false] at hv
    rcases hv with hv | hv <;>
      (subst hv; simp only [Value.object.injEq] at ho; subst ho; decide)
  ⟨hne, hk, by decide, (tabular_iff_uniform sampleTable hne hk).mp (by decide)⟩

theorem header_colon_newline (n : Nat) : lenHeader n ++ ":\n" = lenHeader n ++ ":" ++ "\n" := by
  rw [String.append_assoc]; rfl

theorem allPrimitives_of_forall (arr : List Value) (h : ∀ v ∈ arr, isPrimitive v = true) :
    allPrimitives arr = true := by
  unfold allPrimitives
  exact List.all_eq_true.mpr h

/-- C7: a non-empty array whose elements are all scalars, of whatever kinds, is in
inline mode, and the text written for it is `[N]: ` followed by the scalar
encodings of the elements joined by `,`. -/
theorem encode_inline_array (env : GoEnv) (e : Encoder) (arr : List Value) (hne : arr ≠ [])
    (h : ∀ v ∈ arr, isPrimitive v = true) :
    arrayMode arr = .inline ∧
    e.encodeArrayValue env arr =
      (e.WriteString (lenHeader arr.length ++ ": " ++
        ",".intercalate (arr.map (scalarText env))), none) ∧
    Encode env (.array arr) =
      (lenHeader arr.length ++ ": " ++ ",".intercalate (arr.map (scalarText env)), none) := by
  have h0 : ¬ arr.length = 0 := by
    cases arr with
    | nil => exact absurd rfl hne
    | cons a l => simp
  have h1 := allPrimitives_of_forall arr h
  have key : ∀ e1 : Encoder, e1.encodeArrayValue env arr =
      (e1.WriteString (lenHeader arr.length ++ ": " ++
        ",".intercalate (arr.map (scalarText env))), none) := by
    intro e1
    rw [encodeArrayValue_unfold, if_neg h0, if_pos h1, inlineLoop_scalars env arr _ h,
      writeString_writeString]
  refine ⟨?_, key e, ?_⟩
  · unfold arrayMode
    rw [if_neg h0, if_pos h1]
  · apply Encode_of_encode
    rw [encode_array, key]

theorem encode_inline_array_witness :
    arrayMode [.string "a", .int 1, .bool true, .null] = .inline ∧
    NewEncoder.encodeArrayValue exampleEnv [.string "a", .int 1, .bool true, .null] =
      (NewEncoder.WriteString "[4]: a,1,true,null", none) ∧
    Encode exampleEnv (.array [.string "a", .int 1, .bool true, .null]) =
      ("[4]: a,1,true,null", none) :=
  encode_inline_array exampleEnv NewEncoder [.string "a", .int 1, .bool true, .null]
    (by simp) (by decide)

/-- C8: for the empty array the text written is exactly `[0]:`, whatever the
encoder holds and at whatever depth: as the root value, as the value of an object
key, and as an element of a dash-notation array; `Encode` of the empty array
returns `[0]:`. -/
theorem encode_empty_array (env : GoEnv) (e : Encoder) (root : Bool) :
    e.encodeArrayValue env [] = (e.WriteString "[0]:", none) ∧
    e.encode env (.array []) root = (e.WriteString "[0]:", none) ∧
    e.encodeValueOf env (.array []) = (e.WriteString "[0]:", none) ∧
    e.encodeListElem env (.array []) = (e.WriteString "[0]:", none) ∧
    Encode env (.array []) = ("[0]:", none) := by
  have key : ∀ e1 : Encoder, e1.encodeArrayValue env [] = (e1.WriteString "[0]:", none) :=
    encodeArrayValue_nil env
  refine ⟨key e, ?_, ?_, ?_, ?_⟩
  · rw [encode_array, key]
  · unfold Encoder.encodeValueOf
    exact key e
  · have hl : e.encodeListElem env (.array []) = e.encode env (.array []) false := rfl
    rw [hl, encode_array, key]
  · apply Encode_of_encode
    rw [encode_array, key]

/-- C9: an array of `N` elements in tabular mode, written at depth `d`, gives
`[N]` and the first element's keys in its order between braces, joined by `,`
and not quoted, then `:`, then for each element in order a newline, `2 * (d + 1)`
spaces and the element's values under those keys, scalar-encoded and joined by
`,`; nothing follows the last row. -/
theorem encode_tabular_array (env : GoEnv) (e : Encoder) (first : List (String × Value))
    (rest : List Value) (d : Nat) (hd : e.indent = (d : Int)) (hs : e.indentSize = 2)
    (hm : arrayMode (.object first :: rest) = .tabular) :
    e.encodeArrayValue env (.object first :: rest) =
      (e.WriteString (lenHeader (rest.length + 1) ++ "\x7b" ++
        ",".intercalate (rangeKeys first) ++ "\x7d:" ++
        String.join ((.object first :: rest).map fun v =>
          "\n" ++ spaces (2 * (d + 1)) ++ rowText env (rangeKeys first) v)), none) := by
  obtain ⟨h0, h1, h2, h3⟩ := (arrayMode_tabular_iff _).mp hm
  obtain ⟨hp, _, hrows⟩ := (arrayMode_tabular_cons first rest).mp hm
  have hall : (first.all fun kv => isPrimitive kv.2) = true :=
    List.all_eq_true.mpr (fun kv hkv => hp kv hkv)
  have hf : uniformObjectFields (.object first :: rest) = (rangeKeys first, true) := by
    rw [uniformObjectFields_head, if_pos hall,
      uniformLoop_of_rowsMatch (rangeKeys first) rest 1 (by omega) hrows]
  have hguard : ((uniformObjectFields (.object first :: rest)).2 &&
      decide ((uniformObjectFields (.object first :: rest)).1.length > 0)) = true := by
    simp only [Bool.and_eq_true, decide_eq_true_eq]
    exact ⟨h2, h3⟩
  have hobjs : ∀ x ∈ Value.object first :: rest,
      ∃ obj, x = .object obj ∧ ∀ kv ∈ obj, isPrimitive kv.2 = true := by
    intro x hx
    rcases List.mem_cons.mp hx with hx | hx
    · exact ⟨first, hx, hp⟩
    · obtain ⟨obj, hxo, hpo, _, _⟩ := hrows x hx
      exact ⟨obj, hxo, hpo⟩
  rw [encodeArrayValue_unfold, if_neg h0, if_neg (by simp [h1]), if_pos hguard, hf]
  simp only [List.length_cons]
  rw [tabularLoop_rows env (rangeKeys first) (rest.length + 1) (d + 1) rest (.object first)
      _ 0 ?_ ?_ (by omega) hobjs, andThen_ok]
  · have hnl : "\x7d:\n" = "\x7d:" ++ "\n" := by decide
    simp only [Encoder.decIndent, Encoder.incIndent, Encoder.WriteString, List.map_cons,
      join_cons, String.append_assoc, add_sub_cancel_right, hnl]
  · simp only [Encoder.incIndent, Encoder.WriteString, hd]; omega
  · exact hs

theorem encode_tabular_array_witness :
    NewEncoder.indent = ((0 : Nat) : Int) ∧ arrayMode sampleTable = .tabular ∧
    NewEncoder.encodeArrayValue exampleEnv sampleTable =
      (NewEncoder.WriteString "[2]\x7bid,name\x7d:\n  1,Alice\n  2,Bob", none) :=
  ⟨rfl, by decide,
    (encode_tabular_array exampleEnv NewEncoder [("id", .int 1), ("name", .string "Alice")]
      [.object [("id", .int 2), ("name", .string "Bob")]] 0 rfl rfl (by decide)).trans
      (by decide)⟩

/-- C10: a non-empty array of `N` elements that is neither all-scalar nor tabular,
whose elements encode without error, written at depth `d`, gives `[N]:` and then
for each element in order a newline, `2 * (d + 1)` spaces, `- ` and: the scalar
encoding of a scalar, a pair of braces for an empty object, and for a non-empty
object a newline and its pairs encoded at depth `d + 2`; nothing follows the
last element. -/
theorem encode_list_array (env : GoEnv) (e : Encoder) (arr : List Value) (d : Nat)
    (hd : e.indent = (d : Int)) (hs : e.indentSize = 2) (hm : arrayMode arr = .list)
    (helems : ∀ x ∈ arr, ListElemOk env d x) :
    e.encodeArrayValue env arr =
      (e.WriteString (lenHeader arr.length ++ ":" ++
        String.join (arr.map fun v =>
          "\n" ++ spaces (2 * (d + 1)) ++ "- " ++ listElemText env d v)), none) := by
  obtain ⟨h0, h1, h2⟩ := (arrayMode_list_iff arr).mp hm
  cases arr with
  | nil => simp at h0
  | cons v rest =>
    rw [encodeArrayValue_unfold, if_neg h0, if_neg (by simp [h1]), if_neg h2]
    simp only [List.length_cons]
    rw [listLoop_rows env (rest.length + 1) (d + 1) (listElemText env d) rest v _ 0 ?_ ?_
        (by omega) ?_, andThen_ok]
    · simp only [Encoder.decIndent, Encoder.incIndent, Encoder.WriteString, List.map_cons,
        join_cons, String.append_assoc, add_sub_cancel_right, header_colon_newline]
    · simp only [Encoder.incIndent, Encoder.WriteString, hd]; omega
    · exact hs
    · intro x hx e1 hd1 hs1
      exact encodeListElem_text env d x (helems x hx) e1 hd1 hs1

theorem encode_list_array_witness :
    NewEncoder.indent = ((0 : Nat) : Int) ∧ arrayMode sampleMixed = .list ∧
    NewEncoder.encodeArrayValue exampleEnv sampleMixed =
      (NewEncoder.WriteString "[4]:\n  - a\n  - \x7b\x7d\n  - \n    k: 1\n  - [0]:", none) :=
  have hobj : (Encoder.atDepth 2).encodeObject exampleEnv [("k", .int 1)] false =
      ((Encoder.atDepth 2).WriteString "    k: 1", none) := by
    simp [Encoder.encodeObject, encodeObjectLoop_cons, encodeObjectLoop_nil,
      Encoder.encodeValueOf, mapIndex, List.lookup, rangeKeys, Encoder.encode, andThen_ok,
      Encoder.atDepth, Encoder.WriteString, Encoder.writeIndent]
    decide
  have hok : Succeeds (fun e1 => e1.encodeObject exampleEnv [("k", .int 1)] false) 2 := by
    unfold Succeeds
    beta_reduce
    rw [hobj]
  have htext : emitted (fun e1 => e1.encodeObject exampleEnv [("k", .int 1)] false) 2 =
      "    k: 1" := by
    unfold emitted
    beta_reduce
    rw [hobj]
    rfl
  have harr : (Encoder.atDepth 1).encodeArrayValue exampleEnv [] =
      ((Encoder.atDepth 1).WriteString "[0]:", none) :=
    encodeArrayValue_nil exampleEnv (Encoder.atDepth 1)
  have hok2 : Succeeds (fun e1 => e1.encodeArrayValue exampleEnv []) 1 := by
    unfold Succeeds
    beta_reduce
    rw [harr]
  have htext2 : emitted (fun e1 => e1.encodeArrayValue exampleEnv []) 1 = "[0]:" := by
    unfold emitted
    beta_reduce
    rw [harr]
    rfl
  ⟨rfl, by decide,
    (encode_list_array exampleEnv NewEncoder sampleMixed 0 rfl rfl (by decide)
      (by
        intro x hx
        simp only [sampleMixed, List.mem_cons, List.mem_singleton, List.not_mem_nil,
          or_false] at hx
        rcases hx with hx | hx | hx | hx
        · subst hx; exact trivial
        · subst hx; exact fun h => absurd rfl h
        · subst hx; exact fun _ => hok
        · subst hx; exact hok2)).trans
      (by
        simp only [sampleMixed, List.map_cons, List.map_nil, listElemText, htext, htext2,
          List.length_cons, List.length_nil, List.length_singleton]
        decide)⟩

/-! ### Claims on determinism and on the delimiter test -/

theorem mem_of_isStructuralRune {c : Char} (h : isStructuralRune c = true) :
    c ∈ [':', '"', '\\', '[', ']', '\x7b', '\x7d', '\n', '\r', '\t'] := by
  simp only [isStructuralRune, Bool.or_eq_true, beq_iff_eq] at h
  simp only [List.mem_cons, List.mem_singleton, List.not_mem_nil, or_false]
  tauto

theorem exists_of_needsQuotingRunes (d : Nat) :
    ∀ l : List Char, needsQuotingRunes d l = true →
      ∃ c ∈ l, isStructuralRune c = true ∨ c.toNat % 256 = d ∨ c.toNat < 32
  | [], h => by simp [needsQuotingRunes] at h
  | r :: rest, h => by
    unfold needsQuotingRunes at h
    split_ifs at h with h1 h2 h3
    · exact ⟨r, List.mem_cons_self _ _, Or.inl h1⟩
    · exact ⟨r, List.mem_cons_self _ _, Or.inr (Or.inl h2)⟩
    · exact ⟨r, List.mem_cons_self _ _, Or.inr (Or.inr h3)⟩
    · obtain ⟨c, hc, hc2⟩ := exists_of_needsQuotingRunes d rest h
      exact ⟨c, List.mem_cons_of_mem _ hc, hc2⟩

/-- A string that matches none of the quoting rules under `d`, and none of whose
code points has `d` as its low eight bits, is returned as it is. -/
theorem quoteString_verbatim (s : String) (d : Nat) (h : ¬ MatchesQuotingRule s d)
    (hb : ∀ c ∈ s.data, c.toNat % 256 ≠ d) :
    needsQuoting s d = false ∧ quoteString s d = s := by
  have hq : needsQuoting s d = false := by
    unfold MatchesQuotingRule at h
    unfold needsQuoting
    split_ifs with h1 h2 h3 h4 h5
    · exact absurd (Or.inl h1) h
    · rcases h2 with h2 | h2 | h2
      · exact absurd (Or.inr (Or.inl h2)) h
      · exact absurd (Or.inr (Or.inr (Or.inl h2))) h
      · exact absurd (Or.inr (Or.inr (Or.inr (Or.inl h2)))) h
    · exfalso
      apply h
      refine Or.inr (Or.inr (Or.inr (Or.inr (Or.inl ?_))))
      unfold numericPatternRe at h3
      cases hs : s.data with
      | nil => rw [hs] at h3; simp at h3
      | cons a rest =>
        rw [hs] at h3
        simp only [Bool.or_eq_true, Bool.and_eq_true, beq_iff_eq] at h3
        refine ⟨a, rfl, ?_⟩
        rcases h3 with h3 | ⟨h3, _⟩
        · exact Or.inr h3
        · exact Or.inl h3
    · rcases h4 with h4 | h4
      · exact absurd (Or.inr (Or.inr (Or.inr (Or.inr (Or.inr (Or.inl h4)))))) h
      · exact absurd (Or.inr (Or.inr (Or.inr (Or.inr (Or.inr (Or.inr (Or.inl h4))))))) h
    · exact absurd (Or.inr (Or.inr (Or.inr (Or.inr (Or.inl ⟨'-', h5, Or.inl rfl⟩))))) h
    · cases hr : needsQuotingRunes d s.data with
      | false => rfl
      | true =>
        exfalso
        obtain ⟨c, hc, hc2⟩ := exists_of_needsQuotingRunes d s.data hr
        rcases hc2 with hc2 | hc2 | hc2
        · exact h (Or.inr (Or.inr (Or.inr (Or.inr (Or.inr (Or.inr (Or.inr
            ⟨c, hc, Or.inl (mem_of_isStructuralRune hc2)⟩)))))))
        · exact hb c hc hc2
        · exact h (Or.inr (Or.inr (Or.inr (Or.inr (Or.inr (Or.inr (Or.inr
            ⟨c, hc, Or.inr (Or.inr hc2)⟩)))))))
  refine ⟨hq, ?_⟩
  unfold quoteString
  rw [hq]
  rfl

/-- C1 (the code at the failing input): the map with the keys `a` and `b` is encoded
as `a: 1`, `b: 2` when `range` yields `a` first and as `b: 2`, `a: 1` when it
yields `b` first, and the same holds for the header and the row of a tabular
array of that one map; so two calls of `Encode` on the same value need not
return the same text. -/
theorem Encode_follows_range_order (env : GoEnv) :
    sampleMapAB.Perm sampleMapBA ∧
    Encode env (.object sampleMapAB) = ("a: 1\nb: 2", none) ∧
    Encode env (.object sampleMapBA) = ("b: 2\na: 1", none) ∧
    Encode env (.array [.object sampleMapAB]) = ("[1]\x7ba,b\x7d:\n  1,2", none) ∧
    Encode env (.array [.object sampleMapBA]) = ("[1]\x7bb,a\x7d:\n  2,1", none) := by
  refine ⟨List.Perm.swap _ _ _, ?_, ?_, ?_, ?_⟩
  · simp [Encode, sampleMapAB, Encoder.encode, Encoder.encodeObject, encodeObjectLoop_cons,
      encodeObjectLoop_nil, Encoder.encodeValueOf, mapIndex, List.lookup, rangeKeys,
      andThen_ok, NewEncoder, Encoder.WriteString, Encoder.writeIndent]
    decide
  · simp [Encode, sampleMapBA, Encoder.encode, Encoder.encodeObject, encodeObjectLoop_cons,
      encodeObjectLoop_nil, Encoder.encodeValueOf, mapIndex, List.lookup, rangeKeys,
      andThen_ok, NewEncoder, Encoder.WriteString, Encoder.writeIndent]
    decide
  · simp [Encode, sampleMapAB, Encoder.encode, Encoder.encodeArray, encodeArrayValue_unfold,
      allPrimitives, isPrimitive, uniformObjectFields, uniformObjectFieldsLoop, rangeKeys,
      tabularLoop_object, tabularLoop_nil, fieldLoop_cons, fieldLoop_nil, mapIndex,
      List.lookup, andThen_ok, NewEncoder, Encoder.WriteString, Encoder.writeIndent,
      Encoder.incIndent, Encoder.decIndent]
    decide
  · simp [Encode, sampleMapBA, Encoder.encode, Encoder.encodeArray, encodeArrayValue_unfold,
      allPrimitives, isPrimitive, uniformObjectFields, uniformObjectFieldsLoop, rangeKeys,
      tabularLoop_object, tabularLoop_nil, fieldLoop_cons, fieldLoop_nil, mapIndex,
      List.lookup, andThen_ok, NewEncoder, Encoder.WriteString, Encoder.writeIndent,
      Encoder.incIndent, Encoder.decIndent]
    decide

/-- C3 (the code at the failing input): the one-letter string U+012C matches none of
the quoting rules under the delimiter `,`, yet `needsQuoting` holds for it,
because `byte(r)` keeps the low eight bits 0x2C of the rune; `quoteString` and
`Encode` return it between double quotes. -/
theorem quoteString_low_byte_comma (env : GoEnv) :
    ¬ MatchesQuotingRule "\u012C" ','.toNat ∧
    needsQuoting "\u012C" ','.toNat = true ∧
    quoteString "\u012C" ','.toNat = "\"\u012C\"" ∧
    Encode env (.string "\u012C") = ("\"\u012C\"", none) := by
  refine ⟨?_, by decide, by decide, ?_⟩
  · unfold MatchesQuotingRule
    decide
  · apply Encode_of_encode
    rw [encode_primitive env NewEncoder (.string "\u012C") true rfl]
    have : scalarText env (.string "\u012C") = "\"\u012C\"" := by
      simp only [scalarText]
      decide
    rw [this]

/-- C5 (the code at the failing input): the key U+012C is not an identifier key
and matches none of the scalar-string quoting rules under the delimiter `,`,
so the rules do not require quoting it; yet `formatKey` returns it between
double quotes, because `needsQuoting` compares `byte(r)`, the low eight bits
0x2C of the rune, with the delimiter. -/
theorem formatKey_low_byte_comma :
    ¬ IsIdentifierKey "\u012C" ∧ ¬ MatchesQuotingRule "\u012C" ','.toNat ∧
    formatKey "\u012C" = quoteString "\u012C" ','.toNat ∧
    formatKey "\u012C" = "\"\u012C\"" ∧ formatKey "\u012C" ≠ "\u012C" := by
  refine ⟨?_, ?_, by decide, by decide, by decide⟩
  · intro h
    exact absurd ((unquotedKeyRe_iff "\u012C").mpr h) (by decide)
  · unfold MatchesQuotingRule
    decide

/-- For a key none of whose code points other than `,` itself has the low eight
bits of `,`: an identifier key is emitted as it is, and every other key is
quoted and escaped exactly when it matches one of the scalar-string quoting
rules under the delimiter `,`. -/
theorem formatKey_rules (k : String)
    (hb : ∀ c ∈ k.data, c.toNat % 256 = ','.toNat → c.toNat = ','.toNat) :
    (IsIdentifierKey k → formatKey k = k) ∧
    (¬ IsIdentifierKey k → MatchesQuotingRule k ','.toNat →
      formatKey k = "\"" ++ escapeString k ++ "\"") ∧
    (¬ IsIdentifierKey k → ¬ MatchesQuotingRule k ','.toNat → formatKey k = k) := by
  have hq : ¬ IsIdentifierKey k → formatKey k = quoteString k ','.toNat := by
    intro h
    unfold formatKey
    rw [if_neg (fun hk => h ((unquotedKeyRe_iff k).mp hk))]
  refine ⟨?_, ?_, ?_⟩
  · intro h
    unfold formatKey
    rw [if_pos ((unquotedKeyRe_iff k).mpr h)]
  · intro h hr
    rw [hq h]
    unfold quoteString
    rw [if_pos (needsQuoting_of_rule k ','.toNat (by decide) hr)]
  · intro h hr
    rw [hq h]
    refine (quoteString_verbatim k ','.toNat hr ?_).2
    intro c hc hm
    apply hr
    unfold MatchesQuotingRule
    exact Or.inr (Or.inr (Or.inr (Or.inr (Or.inr (Or.inr (Or.inr
      ⟨c, hc, Or.inr (Or.inl (hb c hc hm))⟩))))))

theorem formatKey_rules_witness :
    (∀ c ∈ "with:colon".data, c.toNat % 256 = ','.toNat → c.toNat = ','.toNat) ∧
    ¬ IsIdentifierKey "with:colon" ∧ MatchesQuotingRule "with:colon" ','.toNat ∧
    formatKey "with:colon" = "\"" ++ escapeString "with:colon" ++ "\"" :=
  have hb : ∀ c ∈ "with:colon".data, c.toNat % 256 = ','.toNat → c.toNat = ','.toNat := by
    decide
  have h2 : ¬ IsIdentifierKey "with:colon" :=
    fun h => absurd ((unquotedKeyRe_iff "with:colon").mpr h) (by decide)
  have h3 : MatchesQuotingRule "with:colon" ','.toNat := by
    unfold MatchesQuotingRule; decide
  ⟨hb, h2, h3, (formatKey_rules "with:colon" hb).2.1 h2 h3⟩

/-! ### Base-10 numerals -/

theorem isDecimalDigit_digitChar (x : Nat) (hx : x < 10) :
    isDecimalDigit (Nat.digitChar x) = true := by
  interval_cases x <;> decide

theorem digitChar_value (x : Nat) (hx : x < 10) : (Nat.digitChar x).toNat - 48 = x := by
  interval_cases x <;> decide

theorem digitChar_ne_zero (x : Nat) (hx : x < 10) (h0 : x ≠ 0) : Nat.digitChar x ≠ '0' := by
  interval_cases x <;> first | exact absurd rfl h0 | decide

theorem toDigitsCore_append (fuel : Nat) :
    ∀ (n : Nat) (ds : List Char),
      Nat.toDigitsCore 10 fuel n ds = Nat.toDigitsCore 10 fuel n [] ++ ds := by
  induction fuel with
  | zero => intro n ds; simp [Nat.toDigitsCore]
  | succ fuel ih =>
    intro n ds
    simp only [Nat.toDigitsCore]
    split_ifs with h0
    · rfl
    · rw [ih (n / 10) (Nat.digitChar (n % 10) :: ds), ih (n / 10) [Nat.digitChar (n % 10)]]
      simp

theorem numeralValue_append_single (xs : List Char) (c : Char) :
    numeralValue (xs ++ [c]) = numeralValue xs * 10 + (c.toNat - 48) := by
  simp [numeralValue, List.foldl_append]

/-- The digits `Nat.toDigits 10 n`: decimal digits only, denoting `n`, and not
starting with `0` unless `n` is zero. -/
theorem toDigitsCore_spec (fuel : Nat) :
    ∀ n : Nat, n < fuel →
      (∀ c ∈ Nat.toDigitsCore 10 fuel n [], isDecimalDigit c = true) ∧
      numeralValue (Nat.toDigitsCore 10 fuel n []) = n ∧
      (n ≠ 0 → (Nat.toDigitsCore 10 fuel n []).head? ≠ some '0') := by
  induction fuel with
  | zero => intro n h; omega
  | succ fuel ih =>
    intro n hn
    have hd : isDecimalDigit (Nat.digitChar (n % 10)) = true :=
      isDecimalDigit_digitChar _ (Nat.mod_lt _ (by omega))
    simp only [Nat.toDigitsCore]
    split_ifs with h0
    · have hlt : n < 10 := by omega
      have hmod : n % 10 = n := Nat.mod_eq_of_lt hlt
      refine ⟨?_, ?_, ?_⟩
      · intro c hc
        simp only [List.mem_singleton] at hc
        subst hc
        exact hd
      · simp only [numeralValue, List.foldl_cons, List.foldl_nil, Nat.zero_mul, Nat.zero_add]
        rw [digitChar_value _ (Nat.mod_lt _ (by omega)), hmod]
      · intro hne
        simp only [List.head?_cons, ne_eq, Option.some.injEq]
        rw [hmod]
        exact digitChar_ne_zero n hlt hne
    · obtain ⟨h1, h2, h3⟩ := ih (n / 10) (by omega)
      rw [toDigitsCore_append fuel (n / 10) [Nat.digitChar (n % 10)]]
      refine ⟨?_, ?_, ?_⟩
      · intro c hc
        rcases List.mem_append.mp hc with hc | hc
        · exact h1 c hc
        · simp only [List.mem_singleton] at hc
          subst hc
          exact hd
      · rw [numeralValue_append_single, h2, digitChar_value _ (Nat.mod_lt _ (by omega))]
        omega
      · intro _
        have h3 := h3 h0
        cases hl : Nat.toDigitsCore 10 fuel (n / 10) [] with
        | nil =>
          exfalso
          rw [hl] at h2
          simp only [numeralValue, List.foldl_nil] at h2
          exact h0 h2.symm
        | cons c rest =>
          rw [hl] at h3
          simpa using h3

theorem natRepr_spec (n : Nat) :
    (∀ c ∈ (Nat.repr n).data, isDecimalDigit c = true) ∧
    numeralValue (Nat.repr n).data = n ∧
    (n ≠ 0 → (Nat.repr n).data.head? ≠ some '0') :=
  toDigitsCore_spec (n + 1) n (by omega)

/-! ### Claims on root scalars -/

theorem toDigitsCore_head (fuel : Nat) :
    ∀ (n : Nat) (ds : List Char),
      (0 < fuel ∨ ∃ c rest, ds = c :: rest ∧ isDecimalDigit c = true) →
      ∃ c rest, Nat.toDigitsCore 10 fuel n ds = c :: rest ∧ isDecimalDigit c = true := by
  induction fuel with
  | zero =>
    intro n ds h
    rcases h with h | ⟨c, rest, h1, h2⟩
    · omega
    · exact ⟨c, rest, by simp [Nat.toDigitsCore, h1], h2⟩
  | succ fuel ih =>
    intro n ds _
    have hd : isDecimalDigit (Nat.digitChar (n % 10)) = true :=
      isDecimalDigit_digitChar _ (Nat.mod_lt _ (by omega))
    simp only [Nat.toDigitsCore]
    split_ifs with h0
    · exact ⟨_, _, rfl, hd⟩
    · exact ih _ _ (Or.inr ⟨_, _, rfl, hd⟩)

/-- The numeral of an integer starts with `-` or with a decimal digit. -/
theorem FormatInt_head (n : Int) :
    ∃ c rest, (FormatInt n).data = c :: rest ∧ (c = '-' ∨ isDecimalDigit c = true) := by
  unfold FormatInt
  split_ifs with h
  · exact ⟨'-', (Nat.repr n.natAbs).data, rfl, Or.inl rfl⟩
  · obtain ⟨c, rest, h1, h2⟩ := toDigitsCore_head (n.toNat + 1) n.toNat [] (Or.inl (by omega))
    refine ⟨c, rest, ?_, Or.inr h2⟩
    simp only [Nat.repr, Nat.toDigits, List.asString]
    exact h1

theorem Encode_primitive (env : GoEnv) (v : Value) (hv : isPrimitive v = true) :
    Encode env v = (scalarText env v, none) :=
  Encode_of_encode env v _ (encode_primitive env NewEncoder v true hv)

/-- C16: at the root, `nil` is encoded as `null`, `true` as `true`, `false` as `false`,
and every `int` or `int64` as its base-10 numeral, each without error: a `-` for a
negative number, then decimal digits that denote the absolute value and do not
start with `0` unless the number is zero. -/
theorem Encode_root_scalars (env : GoEnv) :
    Encode env .null = ("null", none) ∧
    Encode env (.bool true) = ("true", none) ∧
    Encode env (.bool false) = ("false", none) ∧
    (∀ n : Int, Encode env (.int n) = (FormatInt n, none) ∧
      Encode env (.int64 n) = (FormatInt n, none)) ∧
    (∀ n : Int, ∃ digits : List Char,
      FormatInt n = (if n < 0 then "-" else "") ++ String.mk digits ∧
      (∀ c ∈ digits, isDecimalDigit c = true) ∧ numeralValue digits = n.natAbs ∧
      (n ≠ 0 → digits.head? ≠ some '0')) ∧
    FormatInt 42 = "42" ∧ FormatInt 123456789 = "123456789" ∧ FormatInt 0 = "0" ∧
    FormatInt (-5) = "-5" := by
  refine ⟨Encode_primitive env _ rfl, Encode_primitive env _ rfl, Encode_primitive env _ rfl,
    fun n => ⟨Encode_primitive env _ rfl, Encode_primitive env _ rfl⟩, ?_,
    by decide, by decide, by decide, by decide⟩
  intro n
  unfold FormatInt
  by_cases hn : n < 0
  · obtain ⟨h1, h2, h3⟩ := natRepr_spec n.natAbs
    refine ⟨(Nat.repr n.natAbs).data, by rw [if_pos hn, if_pos hn], h1, h2, ?_⟩
    intro hne
    exact h3 (by omega)
  · obtain ⟨h1, h2, h3⟩ := natRepr_spec n.toNat
    refine ⟨(Nat.repr n.toNat).data, ?_, h1, ?_, ?_⟩
    · rw [if_neg hn, if_neg hn, String.empty_append]
    · rw [h2]; omega
    · intro hne
      exact h3 (by omega)

theorem needsQuoting_false_head (s : String) (d : Nat) (h : needsQuoting s d = false) :
    s ≠ "" ∧ s ≠ "true" ∧ s ≠ "false" ∧ s ≠ "null" ∧
    ∀ c rest, s.data = c :: rest → c ≠ '-' ∧ isDecimalDigit c = false := by
  unfold needsQuoting at h
  split_ifs at h with h1 h2 h3 h4 h5
  refine ⟨h1, fun e => h2 (Or.inl e), fun e => h2 (Or.inr (Or.inl e)),
    fun e => h2 (Or.inr (Or.inr e)), ?_⟩
  intro c rest hs
  rw [hs] at h5
  simp only [List.head?_cons, Option.some.injEq] at h5
  refine ⟨h5, ?_⟩
  unfold numericPatternRe at h3
  rw [hs] at h3
  simp only [Bool.or_eq_true, not_or] at h3
  simpa using h3.1

/-- C18: the encoding of a string differs from the encoding of `nil`, of a `bool`
and of an `int` or `int64`, whatever the string. -/
theorem Encode_string_ne_literal (env : GoEnv) (s : String) (v : Value)
    (hv : v = .null ∨ (∃ b, v = .bool b) ∨ (∃ n, v = .int n) ∨ (∃ n, v = .int64 n)) :
    Encode env (.string s) ≠ Encode env v := by
  have hs : Encode env (.string s) = (quoteString s ','.toNat, none) :=
    Encode_primitive env _ rfl
  have key : ∀ t : String, (t = "null" ∨ t = "true" ∨ t = "false" ∨ ∃ n, t = FormatInt n) →
      quoteString s ','.toNat ≠ t := by
    intro t ht heq
    have hhead : ∃ c rest, t.data = c :: rest ∧ c ≠ '"' := by
      rcases ht with ht | ht | ht | ⟨n, ht⟩
      · subst ht; exact ⟨'n', _, rfl, by decide⟩
      · subst ht; exact ⟨'t', _, rfl, by decide⟩
      · subst ht; exact ⟨'f', _, rfl, by decide⟩
      · subst ht
        obtain ⟨c, rest, h1, h2⟩ := FormatInt_head n
        refine ⟨c, rest, h1, ?_⟩
        rcases h2 with h2 | h2
        · subst h2; decide
        · intro hc; subst hc; simp [isDecimalDigit] at h2
    unfold quoteString at heq
    split_ifs at heq with hq
    · obtain ⟨c, rest, h1, h2⟩ := hhead
      rw [← heq] at h1
      simp only [String.data_append] at h1
      have hh : (['"'] : List Char) ++ (escapeString s).data ++ ['"'] = c :: rest := h1
      simp only [List.cons_append, List.nil_append, List.cons.injEq] at hh
      exact h2 hh.1.symm
    · have hq2 : needsQuoting s ','.toNat = false := by simpa using hq
      obtain ⟨_, k2, k3, k4, k5⟩ := needsQuoting_false_head s _ hq2
      rcases ht with ht | ht | ht | ⟨n, ht⟩
      · exact k4 (heq.trans ht)
      · exact k2 (heq.trans ht)
      · exact k3 (heq.trans ht)
      · obtain ⟨c, rest, h1, h2⟩ := FormatInt_head n
        rw [← ht, ← heq] at h1
        obtain ⟨m1, m2⟩ := k5 c rest h1
        rcases h2 with h2 | h2
        · exact m1 h2
        · rw [m2] at h2; exact absurd h2 (by decide)
  rw [hs]
  rcases hv with hv | ⟨b, hv⟩ | ⟨n, hv⟩ | ⟨n, hv⟩
  · subst hv
    rw [Encode_primitive env .null rfl]
    intro h
    exact key "null" (Or.inl rfl) (congrArg Prod.fst h)
  · subst hv
    rw [Encode_primitive env (.bool b) rfl]
    intro h
    cases b
    · exact key "false" (Or.inr (Or.inr (Or.inl rfl))) (congrArg Prod.fst h)
    · exact key "true" (Or.inr (Or.inl rfl)) (congrArg Prod.fst h)
  · subst hv
    rw [Encode_primitive env (.int n) rfl]
    intro h
    exact key (FormatInt n) (Or.inr (Or.inr (Or.inr ⟨n, rfl⟩))) (congrArg Prod.fst h)
  · subst hv
    rw [Encode_primitive env (.int64 n) rfl]
    intro h
    exact key (FormatInt n) (Or.inr (Or.inr (Or.inr ⟨n, rfl⟩))) (congrArg Prod.fst h)

theorem Encode_string_ne_literal_witness :
    Encode exampleEnv (.string "true") ≠ Encode exampleEnv (.bool true) ∧
    Encode exampleEnv (.string "12") ≠ Encode exampleEnv (.int 12) :=
  ⟨Encode_string_ne_literal exampleEnv "true" (.bool true) (Or.inr (Or.inl ⟨true, rfl⟩)),
   Encode_string_ne_literal exampleEnv "12" (.int 12) (Or.inr (Or.inr (Or.inl ⟨12, rfl⟩)))⟩

/-! ### Claims on nested arrays and on objects -/

theorem wb_sb {f : Encoder → Result} (hf : WellBehaved f) (e : Encoder) :
    ∃ t, (f e).1.sb = e.sb ++ t := by
  have he : ({ e with sb := "" } : Encoder).prepend e.sb = e := by
    cases e
    simp only [Encoder.prepend, String.append_empty]
  obtain ⟨h1, _, _⟩ := hf { e with sb := "" } e.sb
  rw [he] at h1
  refine ⟨(f { e with sb := "" }).1.sb, ?_⟩
  rw [h1]
  rfl

theorem andThen_decIndent_sb (r : Result) :
    (r.andThen fun e2 => (e2.decIndent, none)).1.sb = r.1.sb := by
  rcases r with ⟨e1, _ | err⟩ <;> rfl

/-- Every branch of `encodeArrayValue` starts by writing the `[N]` header. -/
theorem encodeArrayValue_header (env : GoEnv) (e : Encoder) (arr : List Value) :
    ∃ t, (e.encodeArrayValue env arr).1.sb = e.sb ++ lenHeader arr.length ++ t := by
  rw [encodeArrayValue_unfold]
  split_ifs with h0 h1 h2
  · exact ⟨":", by simp only [Encoder.WriteString, String.append_assoc]⟩
  · obtain ⟨t, ht⟩ := wb_sb (inlineLoop_wb env arr 0) (e.WriteString (lenHeader arr.length ++ ": "))
    refine ⟨": " ++ t, ?_⟩
    rw [ht]
    simp only [Encoder.WriteString, String.append_assoc]
  · obtain ⟨t, ht⟩ := wb_sb
      (tabularLoop_wb env (uniformObjectFields arr).1 arr.length arr 0)
      (e.WriteString (lenHeader arr.length ++ "\x7b" ++
        ",".intercalate (uniformObjectFields arr).1 ++ "\x7d:\n")).incIndent
    refine ⟨"\x7b" ++ ",".intercalate (uniformObjectFields arr).1 ++ "\x7d:\n" ++ t, ?_⟩
    rw [andThen_decIndent_sb, ht]
    simp only [Encoder.WriteString, Encoder.incIndent, String.append_assoc]
  · obtain ⟨t, ht⟩ := wb_sb (listLoop_wb env arr.length arr 0)
      (e.WriteString (lenHeader arr.length ++ ":\n")).incIndent
    refine ⟨":\n" ++ t, ?_⟩
    rw [andThen_decIndent_sb, ht]
    simp only [Encoder.WriteString, Encoder.incIndent, String.append_assoc]

/-- C11 (counterexample): the array with the single element `[1]` is in list mode and
is encoded with the header `[1]: 1` of the nested array on the line of the dash;
what follows `- ` does not start with a newline. -/
theorem list_elem_array_same_line :
    arrayMode [.array [.int 1]] = .list ∧
    Encode exampleEnv (.array [.array [.int 1]]) = ("[1]:\n  - [1]: 1", none) ∧
    emitted (fun e => e.encodeListElem exampleEnv (.array [.int 1])) 1 = "[1]: 1" ∧
    ¬ ∃ t, emitted (fun e => e.encodeListElem exampleEnv (.array [.int 1])) 1 = "\n" ++ t := by
  have hel : emitted (fun e => e.encodeListElem exampleEnv (.array [.int 1])) 1 = "[1]: 1" := by
    simp [emitted, Encoder.encodeListElem, Encoder.encode, Encoder.encodeArray,
      encodeArrayValue_unfold, allPrimitives, isPrimitive, inlineLoop_cons, inlineLoop_nil,
      andThen_ok, Encoder.atDepth, Encoder.WriteString]
    decide
  refine ⟨by decide, ?_, hel, ?_⟩
  · simp [Encode, Encoder.encode, Encoder.encodeArray, encodeArrayValue_unfold, allPrimitives,
      isPrimitive, uniformObjectFields, uniformObjectFieldsLoop, listLoop_cons, listLoop_nil,
      Encoder.encodeListElem, inlineLoop_cons, inlineLoop_nil, andThen_ok, NewEncoder,
      Encoder.WriteString, Encoder.writeIndent, Encoder.incIndent, Encoder.decIndent]
    decide
  · rintro ⟨t, ht⟩
    rw [hel] at ht
    have hd := congrArg String.data ht
    simp only [String.data_append] at hd
    have hh : ("[1]: 1" : String).data = ['\n'] ++ t.data := hd
    have h1 : ("[1]: 1" : String).data.head? = some '[' := rfl
    rw [hh] at h1
    simp at h1

/-- C11 (amended): in the dash-notation loop an element that is an array, empty or
not, is written by `encodeArrayValue` right after `- `, on the line of the dash
and at the depth of the elements; what it writes starts with the `[N]` header
of the nested array. -/
theorem listLoop_array_elem (env : GoEnv) (e : Encoder) (n : Nat) (val : List Value)
    (rest : List Value) (i : Nat) :
    e.listLoop env n (.array val :: rest) i =
      ((e.writeIndent.WriteString "- ").encodeArrayValue env val).andThen (fun e3 =>
        (if (i : Int) < (n : Int) - 1 then e3.WriteString "\n" else e3).listLoop env n rest
          (i + 1)) ∧
    ∀ e1 : Encoder, ∃ t,
      (e1.encodeArrayValue env val).1.sb = e1.sb ++ lenHeader val.length ++ t := by
  refine ⟨?_, fun e1 => encodeArrayValue_header env e1 val⟩
  rw [listLoop_cons]
  have h : (e.writeIndent.WriteString "- ").encodeListElem env (.array val) =
      (e.writeIndent.WriteString "- ").encodeArrayValue env val := by
    have h1 : (e.writeIndent.WriteString "- ").encodeListElem env (.array val) =
        (e.writeIndent.WriteString "- ").encode env (.array val) false := rfl
    rw [h1, encode_array]
  rw [h]

theorem encodeValueOf_text (env : GoEnv) (d : Nat) (x : Value) (hx : ObjectValueOk env d x)
    (e1 : Encoder) (hd : e1.indent = (d : Int)) (hs : e1.indentSize = 2) :
    e1.encodeValueOf env x = (e1.WriteString (objectValueText env d x), none) := by
  cases x with
  | object val =>
    unfold Encoder.encodeValueOf objectValueText
    by_cases hl : val.length = 0
    · simp only [hl, if_true]
    · simp only [hl, if_false]
      have hrun := wb_run (encodeObject_wb env val false)
        (e1.WriteString "\n").incIndent (d + 1)
        (by simp only [Encoder.incIndent, Encoder.WriteString, hd]; omega)
        (by simp only [Encoder.incIndent, Encoder.WriteString, hs]) (hx hl)
      simp only at hrun
      rw [hrun, andThen_ok]
      simp only [Encoder.decIndent, Encoder.incIndent, Encoder.WriteString,
        String.append_assoc, add_sub_cancel_right]
  | array val =>
    have hrun := wb_run (encodeArrayValue_wb env val) e1 d hd hs hx
    simp only at hrun
    have h1 : e1.encodeValueOf env (.array val) = e1.encodeArrayValue env val := rfl
    rw [h1, hrun]
    rfl
  | other t => exact absurd hx (by simp [ObjectValueOk])
  | null =>
    have h1 : e1.encodeValueOf env .null = (e1.WriteString " ").encode env .null false := rfl
    rw [h1, encode_primitive env _ .null false rfl, writeString_writeString]; rfl
  | bool b =>
    have h1 : e1.encodeValueOf env (.bool b) = (e1.WriteString " ").encode env (.bool b) false := rfl
    rw [h1, encode_primitive env _ (.bool b) false rfl, writeString_writeString]; rfl
  | int n =>
    have h1 : e1.encodeValueOf env (.int n) = (e1.WriteString " ").encode env (.int n) false := rfl
    rw [h1, encode_primitive env _ (.int n) false rfl, writeString_writeString]; rfl
  | int64 n =>
    have h1 : e1.encodeValueOf env (.int64 n) = (e1.WriteString " ").encode env (.int64 n) false := rfl
    rw [h1, encode_primitive env _ (.int64 n) false rfl, writeString_writeString]; rfl
  | float64 f =>
    have h1 : e1.encodeValueOf env (.float64 f) = (e1.WriteString " ").encode env (.float64 f) false := rfl
    rw [h1, encode_primitive env _ (.float64 f) false rfl, writeString_writeString]; rfl
  | string t =>
    have h1 : e1.encodeValueOf env (.string t) = (e1.WriteString " ").encode env (.string t) false := rfl
    rw [h1, encode_primitive env _ (.string t) false rfl, writeString_writeString]; rfl

theorem spaces_zero : spaces 0 = "" := rfl

/-- The indentation written before a key: `2 * d` spaces, which is nothing for the
first key of the root object. -/
theorem keyIndent_eq (e : Encoder) (root : Bool) (i d : Nat) (hd : e.indent = (d : Int))
    (hs : e.indentSize = 2) (hroot : root = true → d = 0) :
    (if (!root || decide (i > 0)) = true then e.writeIndent else e) =
      e.WriteString (spaces (2 * d)) := by
  split_ifs with hc
  · exact writeIndent_eq e d hd hs
  · have hr : root = true := by
      cases root
      · simp at hc
      · rfl
    rw [hroot hr]
    exact (writeString_empty e).symm

/-- The loop of `encodeObject`, entered at the index of the key `k`: the pair of `k`,
then the pair of every later key on a line of its own. -/
theorem encodeObjectLoop_rows (env : GoEnv) (obj : List (String × Value)) (root : Bool)
    (d : Nat) (hroot : root = true → d = 0) :
    ∀ (rest : List String) (k : String) (e : Encoder) (i : Nat),
      e.indent = (d : Int) → e.indentSize = 2 →
      i + rest.length + 1 = (rangeKeys obj).length →
      (∀ x ∈ k :: rest, ObjectValueOk env d (mapIndex obj x)) →
      e.encodeObjectLoop env obj root (k :: rest) i =
        (e.WriteString (pairText env d k (mapIndex obj k) ++
          String.join (rest.map fun x => "\n" ++ pairText env d x (mapIndex obj x))), none)
  | [], k, e, i, hd, hs, hn, h => by
    have hlast : ¬ ((i : Int) < ((rangeKeys obj).length : Int) - 1) := by
      simp only [List.length_nil] at hn; omega
    rw [encodeObjectLoop_cons, keyIndent_eq e root i d hd hs hroot,
      encodeValueOf_text env d _ (h k (List.mem_cons_self _ _)) _ ?_ ?_, andThen_ok,
      if_neg hlast, encodeObjectLoop_nil]
    · simp only [writeString_writeString, List.map_nil, join_nil, String.append_empty,
        String.append_assoc, pairText]
    · exact hd
    · exact hs
  | w :: rest, k, e, i, hd, hs, hn, h => by
    have hmore : (i : Int) < ((rangeKeys obj).length : Int) - 1 := by
      simp only [List.length_cons] at hn; omega
    rw [encodeObjectLoop_cons, keyIndent_eq e root i d hd hs hroot,
      encodeValueOf_text env d _ (h k (List.mem_cons_self _ _)) _ ?_ ?_, andThen_ok,
      if_pos hmore,
      encodeObjectLoop_rows env obj root d hroot rest w _ (i + 1) ?_ ?_
        (by simp only [List.length_cons] at hn; omega)
        (fun x hx => h x (List.mem_cons_of_mem _ hx))]
    · simp only [writeString_writeString, List.map_cons, join_cons, String.append_assoc,
        pairText]
    · exact hd
    · exact hs
    · exact hd
    · exact hs

theorem mapIndex_of_mem (obj : List (String × Value)) (hnd : (rangeKeys obj).Nodup)
    (k : String) (v : Value) (hmem : (k, v) ∈ obj) : mapIndex obj k = v := by
  induction obj with
  | nil => simp at hmem
  | cons a rest ih =>
    obtain ⟨k1, v1⟩ := a
    simp only [rangeKeys, List.map_cons, List.nodup_cons] at hnd
    rcases List.mem_cons.mp hmem with h | h
    · simp only [Prod.mk.injEq] at h
      obtain ⟨h1, h2⟩ := h
      subst h1 h2
      simp [mapIndex, List.lookup]
    · have hne : k ≠ k1 := by
        intro hk
        subst hk
        exact hnd.1 (List.mem_map.mpr ⟨(k, v), h, rfl⟩)
      have hk2 : (k == k1) = false := by simpa using hne
      have := ih hnd.2 h
      simp only [mapIndex, List.lookup, hk2] at this ⊢
      exact this

theorem map_keys_eq_map_entries {β : Type} (obj : List (String × Value))
    (hnd : (rangeKeys obj).Nodup) (g : String → Value → β) :
    (rangeKeys obj).map (fun k => g k (mapIndex obj k)) = obj.map (fun kv => g kv.1 kv.2) := by
  simp only [rangeKeys, List.map_map]
  apply List.map_congr_left
  intro kv hkv
  simp only [Function.comp]
  rw [mapIndex_of_mem obj hnd kv.1 kv.2 hkv]

/-- The text of `encodeObject`, over the keys in the order `range` yields them. -/
theorem encodeObject_keys_text (env : GoEnv) (e : Encoder) (obj : List (String × Value))
    (root : Bool) (d : Nat) (hd : e.indent = (d : Int)) (hs : e.indentSize = 2)
    (hroot : root = true → d = 0)
    (hok : ∀ k ∈ rangeKeys obj, ObjectValueOk env d (mapIndex obj k)) :
    e.encodeObject env obj root =
      (e.WriteString ("\n".intercalate
        ((rangeKeys obj).map fun k => pairText env d k (mapIndex obj k))), none) := by
  rw [Encoder.encodeObject]
  cases hkeys : rangeKeys obj with
  | nil =>
    rw [encodeObjectLoop_nil]
    simp only [List.map_nil, String.intercalate, writeString_empty]
  | cons k rest =>
    rw [hkeys] at hok
    rw [encodeObjectLoop_rows env obj root d hroot rest k e 0 hd hs
      (by rw [hkeys]; simp) hok]
    simp only [List.map_cons, intercalate_cons, List.map_map]
    rfl

/-- C12: an object written at depth `d` (the root object at depth 0) gives its
key-value pairs in stored order joined by single newlines, each pair being
`2 * d` spaces, the formatted key, `:` and then a space and the scalar encoding
for a scalar, ` {}` for an empty object, a newline and the nested pairs at depth
`d + 1` for a non-empty object, and the array text right after the `:` for an
array; the object with the one pair `name`, `test` is encoded as `name: test`. -/
theorem encode_object_text (env : GoEnv) (e : Encoder) (obj : List (String × Value))
    (root : Bool) (d : Nat) (hd : e.indent = (d : Int)) (hs : e.indentSize = 2)
    (hroot : root = true → d = 0) (hnd : (rangeKeys obj).Nodup)
    (hok : ∀ kv ∈ obj, ObjectValueOk env d kv.2) :
    e.encodeObject env obj root =
      (e.WriteString ("\n".intercalate
        (obj.map fun kv => pairText env d kv.1 kv.2)), none) ∧
    Encode env (.object [("name", .string "test")]) = ("name: test", none) := by
  constructor
  · rw [encodeObject_keys_text env e obj root d hd hs hroot ?_,
      map_keys_eq_map_entries obj hnd (pairText env d)]
    intro k hk
    obtain ⟨kv, hkv, hkk⟩ := List.mem_map.mp hk
    rw [← hkk, mapIndex_of_mem obj hnd kv.1 kv.2 hkv]
    exact hok kv hkv
  · apply Encode_of_encode
    rw [encode_object, encodeObject_keys_text env NewEncoder _ true 0 rfl rfl (fun _ => rfl)]
    · simp [rangeKeys, mapIndex, List.lookup, pairText, objectValueText, scalarText,
        String.intercalate]
      decide
    · intro k hk
      simp only [rangeKeys, List.map_cons, List.map_nil, List.mem_singleton] at hk
      subst hk
      simp [mapIndex, List.lookup, ObjectValueOk]

theorem encode_object_text_witness :
    NewEncoder.indent = ((0 : Nat) : Int) ∧ (rangeKeys sampleObject).Nodup ∧
    NewEncoder.encodeObject exampleEnv sampleObject true =
      (NewEncoder.WriteString "a: 1\ne: \x7b\x7d\no:\n  k: 1\nl:[0]:", none) :=
  have hobj : (Encoder.atDepth 1).encodeObject exampleEnv [("k", .int 1)] false =
      ((Encoder.atDepth 1).WriteString "  k: 1", none) := by
    simp [Encoder.encodeObject, encodeObjectLoop_cons, encodeObjectLoop_nil,
      Encoder.encodeValueOf, mapIndex, List.lookup, rangeKeys, Encoder.encode, andThen_ok,
      Encoder.atDepth, Encoder.WriteString, Encoder.writeIndent]
    decide
  have hok : Succeeds (fun e1 => e1.encodeObject exampleEnv [("k", .int 1)] false) 1 := by
    unfold Succeeds
    beta_reduce
    rw [hobj]
  have htext : emitted (fun e1 => e1.encodeObject exampleEnv [("k", .int 1)] false) 1 =
      "  k: 1" := by
    unfold emitted
    beta_reduce
    rw [hobj]
    rfl
  have harr : (Encoder.atDepth 0).encodeArrayValue exampleEnv [] =
      ((Encoder.atDepth 0).WriteString "[0]:", none) :=
    encodeArrayValue_nil exampleEnv (Encoder.atDepth 0)
  have hok2 : Succeeds (fun e1 => e1.encodeArrayValue exampleEnv []) 0 := by
    unfold Succeeds
    beta_reduce
    rw [harr]
  have htext2 : emitted (fun e1 => e1.encodeArrayValue exampleEnv []) 0 = "[0]:" := by
    unfold emitted
    beta_reduce
    rw [harr]
    rfl
  ⟨rfl, by decide,
    (encode_object_text exampleEnv NewEncoder sampleObject true 0 rfl rfl (fun _ => rfl)
      (by decide)
      (by
        intro x hx
        simp only [sampleObject, List.mem_cons, List.mem_singleton, List.not_mem_nil,
          or_false] at hx
        rcases hx with hx | hx | hx | hx
        · subst hx; exact trivial
        · subst hx; exact fun h => absurd rfl h
        · subst hx; exact fun _ => hok
        · subst hx; exact hok2)).1.trans
      (by
        simp only [sampleObject, List.map_cons, List.map_nil, pairText, objectValueText,
          htext, htext2, List.length_cons, List.length_nil, List.length_singleton]
        decide)⟩

/-! ### Which values are encoded without error -/

theorem dec_congr {f g : Encoder → Result} {S T : Prop} (h : Decides f S)
    (hfg : ∀ e, g e = f e) (hST : S ↔ T) : Decides g T := by
  intro e
  rw [hfg e, h e, hST]

theorem dec_pure (p : Encoder → Encoder) : Decides (fun e => (p e, none)) True :=
  fun _ => ⟨fun _ => trivial, fun _ => rfl⟩

theorem dec_fail (err : EncodeError) (p : Encoder → Encoder) :
    Decides (fun e => (p e, some err)) False :=
  fun _ => ⟨fun h => by simp at h, fun h => h.elim⟩

theorem dec_pre {f : Encoder → Result} {S : Prop} (h : Decides f S) (p : Encoder → Encoder) :
    Decides (fun e => f (p e)) S :=
  fun e => h (p e)

theorem dec_andThen {f g : Encoder → Result} {S1 S2 : Prop} (hf : Decides f S1)
    (hg : Decides g S2) : Decides (fun e => (f e).andThen g) (S1 ∧ S2) := by
  intro e
  have h1 := hf e
  beta_reduce
  rcases hfe : f e with ⟨e1, _ | err⟩
  · rw [hfe] at h1
    simp only [Result.andThen]
    rw [hg e1]
    exact ⟨fun h => ⟨h1.mp rfl, h⟩, fun h => h.2⟩
  · rw [hfe] at h1
    simp only [Result.andThen]
    constructor
    · intro h; simp at h
    · intro h
      have := h1.mpr h.1
      simp at this

theorem dec_indented_pre {f : Encoder → Result} {S : Prop} (hf : Decides f S) (t : String) :
    Decides (fun e => (f (e.WriteString t).incIndent).andThen fun e2 =>
      (e2.decIndent, none)) S := by
  have h := dec_andThen (dec_pre hf fun e => (e.WriteString t).incIndent)
    (dec_pure fun e2 => e2.decIndent)
  exact dec_congr h (fun _ => rfl) (by simp)

theorem supported_of_isPrimitive (v : Value) (h : isPrimitive v = true) :
    v.supported = true := by
  cases v <;> first | rfl | simp [isPrimitive] at h

theorem supportedList_iff (arr : List Value) :
    supportedList arr = true ↔ ∀ v ∈ arr, v.supported = true := by
  induction arr with
  | nil => simp [supportedList]
  | cons a rest ih => simp [supportedList, ih]

theorem supportedEntries_iff (obj : List (String × Value)) :
    supportedEntries obj = true ↔ ∀ kv ∈ obj, kv.2.supported = true := by
  induction obj with
  | nil => simp [supportedEntries]
  | cons a rest ih =>
    obtain ⟨k, v⟩ := a
    simp [supportedEntries, ih]

theorem keysDistinctList_iff (arr : List Value) :
    keysDistinctList arr = true ↔ ∀ v ∈ arr, v.keysDistinct = true := by
  induction arr with
  | nil => simp [keysDistinctList]
  | cons a rest ih => simp [keysDistinctList, ih]

theorem keysDistinctEntries_iff (obj : List (String × Value)) :
    keysDistinctEntries obj = true ↔ ∀ kv ∈ obj, kv.2.keysDistinct = true := by
  induction obj with
  | nil => simp [keysDistinctEntries]
  | cons a rest ih =>
    obtain ⟨k, v⟩ := a
    simp [keysDistinctEntries, ih]

/-- The value found under a key is one of the values of the map, or `nil`. -/
theorem mapIndex_mem_or_null (obj : List (String × Value)) (k : String) :
    (∃ kv ∈ obj, kv.2 = mapIndex obj k) ∨ mapIndex obj k = .null := by
  induction obj with
  | nil => exact Or.inr rfl
  | cons a rest ih =>
    obtain ⟨k1, v1⟩ := a
    by_cases hk : k = k1
    · subst hk
      exact Or.inl ⟨(k, v1), List.mem_cons_self _ _, by simp [mapIndex, List.lookup]⟩
    · have hk2 : (k == k1) = false := by simpa using hk
      have hm : mapIndex ((k1, v1) :: rest) k = mapIndex rest k := by
        simp [mapIndex, List.lookup, hk2]
      rw [hm]
      rcases ih with ⟨kv, h1, h2⟩ | h
      · exact Or.inl ⟨kv, List.mem_cons_of_mem _ h1, h2⟩
      · exact Or.inr h

theorem keysDistinct_mapIndex (obj : List (String × Value)) (k : String)
    (h : keysDistinctEntries obj = true) : (mapIndex obj k).keysDistinct = true := by
  rcases mapIndex_mem_or_null obj k with ⟨kv, h1, h2⟩ | h0
  · rw [← h2]
    exact (keysDistinctEntries_iff obj).mp h kv h1
  · rw [h0]; rfl

theorem supported_mapIndex (obj : List (String × Value)) (k : String)
    (h : supportedEntries obj = true) : (mapIndex obj k).supported = true := by
  rcases mapIndex_mem_or_null obj k with ⟨kv, h1, h2⟩ | h0
  · rw [← h2]
    exact (supportedEntries_iff obj).mp h kv h1
  · rw [h0]; rfl

theorem supportedEntries_iff_keys (obj : List (String × Value)) (hnd : (rangeKeys obj).Nodup) :
    (∀ k ∈ rangeKeys obj, (mapIndex obj k).supported = true) ↔ supportedEntries obj = true := by
  constructor
  · intro h
    rw [supportedEntries_iff]
    intro kv hkv
    have := h kv.1 (List.mem_map.mpr ⟨kv, hkv, rfl⟩)
    rw [mapIndex_of_mem obj hnd kv.1 kv.2 hkv] at this
    exact this
  · intro h k _
    exact supported_mapIndex obj k h

/-- In tabular mode every element is an object whose values are scalars. -/
theorem tabular_elements (arr : List Value) (hm : arrayMode arr = .tabular) :
    ∀ x ∈ arr, ∃ obj, x = .object obj ∧ ∀ kv ∈ obj, isPrimitive kv.2 = true := by
  cases arr with
  | nil => simp [arrayMode] at hm
  | cons v rest =>
    obtain ⟨first, hv⟩ := arrayMode_tabular_head v rest hm
    subst hv
    obtain ⟨hp, _, hrows⟩ := (arrayMode_tabular_cons first rest).mp hm
    intro x hx
    rcases List.mem_cons.mp hx with hx | hx
    · exact ⟨first, hx, hp⟩
    · obtain ⟨obj, hxo, hpo, _, _⟩ := hrows x hx
      exact ⟨obj, hxo, hpo⟩

theorem keysDistinct_object {val : List (String × Value)}
    (h : (Value.object val).keysDistinct = true) :
    (rangeKeys val).Nodup ∧ keysDistinctEntries val = true := by
  simp only [Value.keysDistinct, Bool.and_eq_true, decide_eq_true_eq] at h
  exact h

theorem arrayMode_tabular_of_guards (arr : List Value) (h0 : ¬ arr.length = 0)
    (h1 : ¬ allPrimitives arr = true)
    (h2 : ((uniformObjectFields arr).2 &&
      decide ((uniformObjectFields arr).1.length > 0)) = true) :
    arrayMode arr = .tabular := by
  unfold arrayMode
  rw [if_neg h0, if_neg h1, if_pos h2]

mutual

theorem encode_dec (env : GoEnv) (v : Value) (root : Bool) (hk : v.keysDistinct = true) :
    Decides (fun e => e.encode env v root) (v.supported = true) :=
  match v with
  | .null => dec_congr (dec_pure _) (fun e => by rw [Encoder.encode]) (by simp [Value.supported])
  | .bool true =>
    dec_congr (dec_pure fun e => e.WriteString "true") (fun e => by rw [Encoder.encode]; rfl)
      (by simp [Value.supported])
  | .bool false =>
    dec_congr (dec_pure fun e => e.WriteString "false") (fun e => by rw [Encoder.encode]; rfl)
      (by simp [Value.supported])
  | .int val =>
    dec_congr (dec_pure _) (fun e => by rw [Encoder.encode]) (by simp [Value.supported])
  | .int64 val =>
    dec_congr (dec_pure _) (fun e => by rw [Encoder.encode]) (by simp [Value.supported])
  | .float64 val =>
    dec_congr (dec_pure _) (fun e => by rw [Encoder.encode]) (by simp [Value.supported])
  | .string val =>
    dec_congr (dec_pure _) (fun e => by rw [Encoder.encode]) (by simp [Value.supported])
  | .array val =>
    dec_congr (encodeArray_dec env val (by simpa [Value.keysDistinct] using hk))
      (fun e => by rw [Encoder.encode]) (by simp [Value.supported])
  | .object val =>
    dec_congr
      (encodeObject_dec env val root (keysDistinct_object hk).1 (keysDistinct_object hk).2)
      (fun e => by rw [Encoder.encode]) (by simp [Value.supported])
  | .other t =>
    dec_congr (dec_fail _ fun e => e) (fun e => by rw [Encoder.encode])
      (by simp [Value.supported])
termination_by (sizeOf v, 0)

theorem encodeObject_dec (env : GoEnv) (obj : List (String × Value)) (root : Bool)
    (hnd : (rangeKeys obj).Nodup) (hk : keysDistinctEntries obj = true) :
    Decides (fun e => e.encodeObject env obj root) (supportedEntries obj = true) :=
  dec_congr (encodeObjectLoop_dec env obj root (rangeKeys obj) 0 hk)
    (fun e => by rw [Encoder.encodeObject]) (supportedEntries_iff_keys obj hnd)
termination_by (sizeOf obj, (rangeKeys obj).length + 2)

theorem encodeValueOf_dec (env : GoEnv) (obj : List (String × Value)) (k : String)
    (rank : Nat) (hk : keysDistinctEntries obj = true) :
    Decides (fun e => e.encodeValueOf env (mapIndex obj k))
      ((mapIndex obj k).supported = true) :=
  have hkv := keysDistinct_mapIndex obj k hk
  match h : mapIndex obj k with
  | .object val => by
    rw [h] at hkv
    unfold Encoder.encodeValueOf
    by_cases hl : val.length = 0
    · simp only [hl, if_true]
      have hv : val = [] := List.length_eq_zero.mp hl
      exact dec_congr (dec_pure fun e => e.WriteString " \x7b\x7d") (fun _ => rfl)
        (by simp [Value.supported, hv, supportedEntries])
    · simp only [hl, if_false]
      exact dec_congr
        (dec_indented_pre (encodeObject_dec env val false (keysDistinct_object hkv).1
          (keysDistinct_object hkv).2) "\n")
        (fun _ => rfl) (by simp [Value.supported])
  | .array val => by
    rw [h] at hkv
    exact dec_congr (encodeArrayValue_dec env val (by simpa [Value.keysDistinct] using hkv))
      (fun _ => rfl) (by simp [Value.supported])
  | .null => dec_pre (encode_dec env .null false rfl) _
  | .bool b => dec_pre (encode_dec env (.bool b) false rfl) _
  | .int b => dec_pre (encode_dec env (.int b) false rfl) _
  | .int64 b => dec_pre (encode_dec env (.int64 b) false rfl) _
  | .float64 b => dec_pre (encode_dec env (.float64 b) false rfl) _
  | .string b => dec_pre (encode_dec env (.string b) false rfl) _
  | .other b => dec_pre (encode_dec env (.other b) false rfl) _
termination_by (sizeOf obj, rank + 1)
decreasing_by
  all_goals simp_wf
  all_goals simp only [Prod.lex_def, true_and]
  · have hlt := sizeOf_mapIndex_object h; omega
  · have hlt := sizeOf_mapIndex_array h; omega
  all_goals first
    | omega
    | (have hle := sizeOf_mapIndex_le obj k; rw [h] at hle; simp at hle; omega)

theorem encodeObjectLoop_dec (env : GoEnv) (obj : List (String × Value)) (root : Bool)
    (keys : List String) (i : Nat) (hk : keysDistinctEntries obj = true) :
    Decides (fun e => e.encodeObjectLoop env obj root keys i)
      (∀ k ∈ keys, (mapIndex obj k).supported = true) :=
  match keys with
  | [] =>
    dec_congr (dec_pure fun e => e) (fun e => encodeObjectLoop_nil env e obj root i) (by simp)
  | k :: rest =>
    dec_congr
      (dec_andThen
        (dec_pre (encodeValueOf_dec env obj k rest.length hk) fun e =>
          ((if (!root || decide (i > 0)) = true then e.writeIndent else e).WriteString
            (formatKey k)).WriteString ":")
        (dec_pre (encodeObjectLoop_dec env obj root rest (i + 1) hk) fun e4 =>
          if (i : Int) < ((rangeKeys obj).length : Int) - 1 then e4.WriteString "\n" else e4))
      (fun e => encodeObjectLoop_cons env e obj root k rest i) (by simp)
termination_by (sizeOf obj, keys.length + 1)

theorem encodeArrayValue_dec (env : GoEnv) (arr : List Value)
    (hk : keysDistinctList arr = true) :
    Decides (fun e => e.encodeArrayValue env arr) (supportedList arr = true) := by
  by_cases h0 : arr.length = 0
  · have hv : arr = [] := List.length_eq_zero.mp h0
    exact dec_congr (dec_pure fun e => e.WriteString (lenHeader arr.length ++ ":"))
      (fun e => by rw [encodeArrayValue_unfold, if_pos h0]) (by simp [hv, supportedList])
  by_cases h1 : allPrimitives arr = true
  · exact dec_congr
      (dec_pre (inlineLoop_dec env arr 0 hk) fun e =>
        e.WriteString (lenHeader arr.length ++ ": "))
      (fun e => by rw [encodeArrayValue_unfold, if_neg h0, if_pos h1]) Iff.rfl
  by_cases h2 : ((uniformObjectFields arr).2 &&
      decide ((uniformObjectFields arr).1.length > 0)) = true
  · have hel := tabular_elements arr (arrayMode_tabular_of_guards arr h0 h1 h2)
    refine dec_congr
      (dec_indented_pre (tabularLoop_dec env (uniformObjectFields arr).1 arr.length arr 0 hk)
        (lenHeader arr.length ++ "\x7b" ++ ",".intercalate (uniformObjectFields arr).1 ++
          "\x7d:\n"))
      (fun e => by rw [encodeArrayValue_unfold, if_neg h0, if_neg h1, if_pos h2]) ?_
    constructor
    · intro _
      rw [supportedList_iff]
      intro v hv
      obtain ⟨obj, hvo, hp⟩ := hel v hv
      subst hvo
      simp only [Value.supported]
      rw [supportedEntries_iff]
      exact fun kv hkv => supported_of_isPrimitive _ (hp kv hkv)
    · intro _ v hv
      obtain ⟨obj, hvo, hp⟩ := hel v hv
      exact ⟨obj, hvo, fun f _ => supported_of_isPrimitive _ (isPrimitive_mapIndex obj f hp)⟩
  · exact dec_congr
      (dec_indented_pre (listLoop_dec env arr.length arr 0 hk) (lenHeader arr.length ++ ":\n"))
      (fun e => by rw [encodeArrayValue_unfold, if_neg h0, if_neg h1, if_neg h2]) Iff.rfl
termination_by (sizeOf arr, 2)

theorem inlineLoop_dec (env : GoEnv) (arr : List Value) (i : Nat)
    (hk : keysDistinctList arr = true) :
    Decides (fun e => e.inlineLoop env arr i) (supportedList arr = true) :=
  match arr with
  | [] => dec_congr (dec_pure fun e => e) (fun e => inlineLoop_nil env e i)
      (by simp [supportedList])
  | v :: rest =>
    have hk1 : v.keysDistinct = true ∧ keysDistinctList rest = true := by
      simpa [keysDistinctList] using hk
    dec_congr
      (dec_andThen
        (dec_pre (encode_dec env v false hk1.1) fun e =>
          if i > 0 then e.WriteString "," else e)
        (inlineLoop_dec env rest (i + 1) hk1.2))
      (fun e => inlineLoop_cons env e v rest i) (by simp [supportedList])
termination_by (sizeOf arr, 1)

theorem tabularLoop_dec (env : GoEnv) (fields : List String) (n : Nat) (arr : List Value)
    (i : Nat) (hk : keysDistinctList arr = true) :
    Decides (fun e => e.tabularLoop env fields n arr i)
      (∀ v ∈ arr, ∃ obj, v = .object obj ∧ ∀ f ∈ fields, (mapIndex obj f).supported = true) :=
  match arr with
  | [] => dec_congr (dec_pure fun e => e) (fun e => tabularLoop_nil env e fields n i) (by simp)
  | .object obj :: rest =>
    have hk1 : (Value.object obj).keysDistinct = true ∧ keysDistinctList rest = true := by
      simpa [keysDistinctList] using hk
    dec_congr
      (dec_andThen
        (dec_pre (fieldLoop_dec env obj fields 0 (keysDistinct_object hk1.1).2) fun e =>
          e.writeIndent)
        (dec_pre (tabularLoop_dec env fields n rest (i + 1) hk1.2) fun e2 =>
          if (i : Int) < (n : Int) - 1 then e2.WriteString "\n" else e2))
      (fun e => tabularLoop_object env e fields n obj rest i) (by simp)
  | .null :: rest => dec_congr (dec_fail _ fun e => e.writeIndent)
      (fun e => tabularLoop_panic env e fields n _ rest i (by simp)) (by simp)
  | .bool _ :: rest => dec_congr (dec_fail _ fun e => e.writeIndent)
      (fun e => tabularLoop_panic env e fields n _ rest i (by simp)) (by simp)
  | .int _ :: rest => dec_congr (dec_fail _ fun e => e.writeIndent)
      (fun e => tabularLoop_panic env e fields n _ rest i (by simp)) (by simp)
  | .int64 _ :: rest => dec_congr (dec_fail _ fun e => e.writeIndent)
      (fun e => tabularLoop_panic env e fields n _ rest i (by simp)) (by simp)
  | .float64 _ :: rest => dec_congr (dec_fail _ fun e => e.writeIndent)
      (fun e => tabularLoop_panic env e fields n _ rest i (by simp)) (by simp)
  | .string _ :: rest => dec_congr (dec_fail _ fun e => e.writeIndent)
      (fun e => tabularLoop_panic env e fields n _ rest i (by simp)) (by simp)
  | .array _ :: rest => dec_congr (dec_fail _ fun e => e.writeIndent)
      (fun e => tabularLoop_panic env e fields n _ rest i (by simp)) (by simp)
  | .other _ :: rest => dec_congr (dec_fail _ fun e => e.writeIndent)
      (fun e => tabularLoop_panic env e fields n _ rest i (by simp)) (by simp)
termination_by (sizeOf arr, 1)

theorem fieldLoop_dec (env : GoEnv) (obj : List (String × Value)) (fields : List String)
    (j : Nat) (hk : keysDistinctEntries obj = true) :
    Decides (fun e => e.fieldLoop env obj fields j)
      (∀ f ∈ fields, (mapIndex obj f).supported = true) :=
  match fields with
  | [] => dec_congr (dec_pure fun e => e) (fun e => fieldLoop_nil env e obj j) (by simp)
  | f :: rest =>
    dec_congr
      (dec_andThen
        (dec_pre (encode_dec env (mapIndex obj f) false (keysDistinct_mapIndex obj f hk))
          fun e => if j > 0 then e.WriteString "," else e)
        (fieldLoop_dec env obj rest (j + 1) hk))
      (fun e => fieldLoop_cons env e obj f rest j) (by simp)
termination_by (sizeOf obj, fields.length)
decreasing_by
  all_goals simp_wf
  all_goals simp only [Prod.lex_def, true_and]
  all_goals first
    | omega
    | (have hle := sizeOf_mapIndex_le obj ‹String›; omega)

theorem encodeListElem_dec (env : GoEnv) (v : Value) (hk : v.keysDistinct = true) :
    Decides (fun e => e.encodeListElem env v) (v.supported = true) :=
  match v with
  | .object val => by
    unfold Encoder.encodeListElem
    by_cases hl : val.length = 0
    · simp only [hl, if_true]
      have hv : val = [] := List.length_eq_zero.mp hl
      exact dec_congr (dec_pure fun e => e.WriteString "\x7b\x7d") (fun _ => rfl)
        (by simp [Value.supported, hv, supportedEntries])
    · simp only [hl, if_false]
      exact dec_congr
        (dec_indented_pre (encodeObject_dec env val false (keysDistinct_object hk).1
          (keysDistinct_object hk).2) "\n")
        (fun _ => rfl) (by simp [Value.supported])
  | .array val => encode_dec env (.array val) false hk
  | .null => encode_dec env .null false rfl
  | .bool b => encode_dec env (.bool b) false rfl
  | .int b => encode_dec env (.int b) false rfl
  | .int64 b => encode_dec env (.int64 b) false rfl
  | .float64 b => encode_dec env (.float64 b) false rfl
  | .string b => encode_dec env (.string b) false rfl
  | .other b => encode_dec env (.other b) false rfl
termination_by (sizeOf v, 1)

theorem listLoop_dec (env : GoEnv) (n : Nat) (arr : List Value) (i : Nat)
    (hk : keysDistinctList arr = true) :
    Decides (fun e => e.listLoop env n arr i) (supportedList arr = true) :=
  match arr with
  | [] => dec_congr (dec_pure fun e => e) (fun e => listLoop_nil env e n i)
      (by simp [supportedList])
  | v :: rest =>
    have hk1 : v.keysDistinct = true ∧ keysDistinctList rest = true := by
      simpa [keysDistinctList] using hk
    dec_congr
      (dec_andThen
        (dec_pre (encodeListElem_dec env v hk1.1) fun e => e.writeIndent.WriteString "- ")
        (dec_pre (listLoop_dec env n rest (i + 1) hk1.2) fun e3 =>
          if (i : Int) < (n : Int) - 1 then e3.WriteString "\n" else e3))
      (fun e => listLoop_cons env e n v rest i) (by simp [supportedList])
termination_by (sizeOf arr, 1)

theorem encodeArray_dec (env : GoEnv) (arr : List Value) (hk : keysDistinctList arr = true) :
    Decides (fun e => e.encodeArray env arr) (supportedList arr = true) :=
  dec_congr (encodeArrayValue_dec env arr hk) (fun e => by rw [Encoder.encodeArray]) Iff.rfl
termination_by (sizeOf arr, 3)

end

/-- C14: for a value whose maps have pairwise distinct keys, `Encode` returns an error
if and only if some node of the value is of an unsupported type, and then the
text it returns is empty. -/
theorem Encode_fails_iff (env : GoEnv) (v : Value) (hk : v.keysDistinct = true) :
    ((Encode env v).2 ≠ none ↔ v.supported = false) ∧
    ((Encode env v).2 ≠ none → (Encode env v).1 = "") := by
  have hd := encode_dec env v true hk NewEncoder
  simp only at hd
  unfold Encode
  rcases hr : NewEncoder.encode env v true with ⟨e1, _ | err⟩
  · rw [hr] at hd
    have hs : v.supported = true := hd.mp rfl
    simp [hs]
  · rw [hr] at hd
    have hs : v.supported = false := by
      cases h : v.supported with
      | false => rfl
      | true => exact absurd (hd.mpr h) (by simp)
    simp [hs]

theorem Encode_fails_iff_witness :
    sampleUnsupported.keysDistinct = true ∧ sampleUnsupported.supported = false ∧
    (Encode exampleEnv sampleUnsupported).2 ≠ none ∧
    (Encode exampleEnv sampleUnsupported).1 = "" ∧
    (NewEncoder.encode exampleEnv sampleUnsupported true).1.sb = "[2]:\n  - 1\n  - " :=
  have h := Encode_fails_iff exampleEnv sampleUnsupported rfl
  have hf : (Encode exampleEnv sampleUnsupported).2 ≠ none := h.1.mpr rfl
  ⟨rfl, rfl, hf, h.2 hf, by
    simp [sampleUnsupported, Encoder.encode, Encoder.encodeArray, encodeArrayValue_unfold,
      allPrimitives, isPrimitive, uniformObjectFields, uniformObjectFieldsLoop, listLoop_cons,
      listLoop_nil, Encoder.encodeListElem, andThen_ok, andThen_err, NewEncoder,
      Encoder.WriteString, Encoder.writeIndent, Encoder.incIndent, Encoder.decIndent]
    decide⟩

/-! ### Trailing newlines -/

theorem mem_of_getLast_eq {l : List Char} {c : Char} (h : l.getLast? = some c) : c ∈ l := by
  induction l with
  | nil => simp at h
  | cons a rest ih =>
    rw [List.getLast?_cons] at h
    cases hr : rest.getLast? with
    | none =>
      rw [hr] at h
      simp only [Option.getD_none, Option.some.injEq] at h
      subst h
      exact List.mem_cons_self _ _
    | some x =>
      rw [hr] at h
      simp only [Option.getD_some, Option.some.injEq] at h
      subst h
      exact List.mem_cons_of_mem _ (ih hr)

theorem noTrail_of_ends {t : String} (h : EndsInText t) : NoTrailingNewline t := by
  obtain ⟨c, h1, h2⟩ := h
  unfold NoTrailingNewline
  rw [h1]
  simpa using h2

theorem noTrail_empty : NoTrailingNewline "" := by
  simp [NoTrailingNewline]

theorem noTrail_of_forall {t : String} (h : ∀ c ∈ t.data, c ≠ '\n') : NoTrailingNewline t := by
  intro hl
  exact h _ (mem_of_getLast_eq hl) rfl

theorem ends_append_right (a : String) {b : String} (h : EndsInText b) :
    EndsInText (a ++ b) := by
  obtain ⟨c, h1, h2⟩ := h
  refine ⟨c, ?_, h2⟩
  simp only [String.data_append, List.getLast?_append, h1]
  rfl

theorem ends_append_left {a b : String} (ha : EndsInText a) (hb : NoTrailingNewline b) :
    EndsInText (a ++ b) := by
  cases hl : b.data.getLast? with
  | none =>
    obtain ⟨c, h1, h2⟩ := ha
    refine ⟨c, ?_, h2⟩
    simp only [String.data_append, List.getLast?_append, hl, h1]
    rfl
  | some x =>
    refine ends_append_right a ⟨x, hl, ?_⟩
    intro hx
    subst hx
    exact hb hl

theorem noTrail_append {a b : String} (ha : NoTrailingNewline a) (hb : NoTrailingNewline b) :
    NoTrailingNewline (a ++ b) := by
  unfold NoTrailingNewline at *
  simp only [String.data_append, List.getLast?_append]
  cases hl : b.data.getLast? with
  | none => simpa using ha
  | some x =>
    rw [hl] at hb
    simpa using hb

theorem noTrail_join (l : List String) (h : ∀ x ∈ l, NoTrailingNewline x) :
    NoTrailingNewline (String.join l) := by
  induction l with
  | nil => exact noTrail_empty
  | cons a rest ih =>
    rw [join_cons]
    exact noTrail_append (h a (List.mem_cons_self _ _))
      (ih fun x hx => h x (List.mem_cons_of_mem _ hx))

theorem ends_join (l : List String) (hne : l ≠ []) (h : ∀ x ∈ l, EndsInText x) :
    EndsInText (String.join l) := by
  induction l with
  | nil => exact absurd rfl hne
  | cons a rest ih =>
    rw [join_cons]
    cases rest with
    | nil =>
      rw [join_nil, String.append_empty]
      exact h a (List.mem_cons_self _ _)
    | cons b rest2 =>
      exact ends_append_right a
        (ih (List.cons_ne_nil _ _) fun x hx => h x (List.mem_cons_of_mem _ hx))

theorem noTrail_intercalate (s : String) (l : List String) (hs : NoTrailingNewline s)
    (h : ∀ x ∈ l, NoTrailingNewline x) : NoTrailingNewline (s.intercalate l) := by
  cases l with
  | nil => exact noTrail_empty
  | cons a rest =>
    rw [intercalate_cons]
    refine noTrail_append (h a (List.mem_cons_self _ _)) (noTrail_join _ ?_)
    intro x hx
    obtain ⟨y, hy, hxy⟩ := List.mem_map.mp hx
    rw [← hxy]
    exact noTrail_append hs (h y (List.mem_cons_of_mem _ hy))

theorem ends_intercalate (s : String) (l : List String) (hne : l ≠ [])
    (h : ∀ x ∈ l, EndsInText x) : EndsInText (s.intercalate l) := by
  cases l with
  | nil => exact absurd rfl hne
  | cons a rest =>
    rw [intercalate_cons]
    cases rest with
    | nil =>
      simp only [List.map_nil, join_nil, String.append_empty]
      exact h a (List.mem_cons_self _ _)
    | cons b rest2 =>
      refine ends_append_right a (ends_join _ (by simp) ?_)
      intro x hx
      obtain ⟨y, hy, hxy⟩ := List.mem_map.mp hx
      rw [← hxy]
      exact ends_append_right s (h y (List.mem_cons_of_mem _ hy))

theorem ends_literal (t : String) (c : Char) (h : t.data.getLast? = some c) (hc : c ≠ '\n') :
    EndsInText t := ⟨c, h, hc⟩

theorem needsQuotingRunes_false (d : Nat) :
    ∀ l : List Char, needsQuotingRunes d l = false → ∀ c ∈ l, isStructuralRune c = false
  | [], _, c, hc => by simp at hc
  | r :: rest, h, c, hc => by
    unfold needsQuotingRunes at h
    split_ifs at h with h1 h2 h3
    rcases List.mem_cons.mp hc with hc | hc
    · subst hc; simpa using h1
    · exact needsQuotingRunes_false d rest h c hc

theorem noTrail_quoteString (s : String) (d : Nat) : NoTrailingNewline (quoteString s d) := by
  unfold quoteString
  split_ifs with hq
  · exact noTrail_of_ends (ends_append_right _ (ends_literal "\"" '"' rfl (by decide)))
  · apply noTrail_of_forall
    intro c hc hcn
    subst hcn
    have hq2 : needsQuoting s d = false := by simpa using hq
    unfold needsQuoting at hq2
    split_ifs at hq2
    have := needsQuotingRunes_false d s.data hq2 '\n' hc
    simp [isStructuralRune] at this

theorem noTrail_FormatInt (n : Int) : NoTrailingNewline (FormatInt n) := by
  have hrepr : ∀ k : Nat, NoTrailingNewline (Nat.repr k) := by
    intro k
    apply noTrail_of_forall
    intro c hc hcn
    subst hcn
    have := (natRepr_spec k).1 '\n' hc
    simp [isDecimalDigit] at this
  unfold FormatInt
  split_ifs
  · exact noTrail_append (noTrail_of_ends (ends_literal "-" '-' rfl (by decide))) (hrepr _)
  · exact hrepr _

theorem noTrail_scalarText (env : GoEnv)
    (hf : ∀ f, NoTrailingNewline (env.FormatFloat f)) (v : Value) :
    NoTrailingNewline (scalarText env v) := by
  cases v with
  | null => exact noTrail_of_ends (ends_literal "null" 'l' rfl (by decide))
  | bool b =>
    cases b
    · exact noTrail_of_ends (ends_literal "false" 'e' rfl (by decide))
    · exact noTrail_of_ends (ends_literal "true" 'e' rfl (by decide))
  | int n => exact noTrail_FormatInt n
  | int64 n => exact noTrail_FormatInt n
  | float64 f =>
    simp only [scalarText, formatNumber]
    split_ifs
    · exact noTrail_of_ends (ends_literal "0" '0' rfl (by decide))
    · exact noTrail_FormatInt _
    · exact hf f
  | string s => exact noTrail_quoteString s _
  | array a => exact noTrail_empty
  | object o => exact noTrail_empty
  | other t => exact noTrail_empty

theorem ends_lenHeader (n : Nat) : EndsInText (lenHeader n) := by
  unfold lenHeader
  exact ends_append_right _ (ends_literal "]" ']' rfl (by decide))

theorem ends_spaces (n : Nat) (hn : 0 < n) : EndsInText (spaces n) := by
  refine ⟨' ', ?_, by decide⟩
  unfold spaces
  cases n with
  | zero => omega
  | succ m =>
    have : List.replicate (m + 1) ' ' = List.replicate m ' ' ++ [' '] := by
      rw [← List.replicate_succ']
    simp only [this, List.getLast?_concat]

theorem emitted_of_run {f : Encoder → Result} {d : Nat} {t : String}
    (h : f (Encoder.atDepth d) = ((Encoder.atDepth d).WriteString t, none)) :
    emitted f d = t := by
  unfold emitted
  rw [h]
  simp only [Encoder.WriteString, Encoder.atDepth, String.empty_append]

theorem succeeds_of_dec {f : Encoder → Result} {S : Prop} (h : Decides f S) (hS : S)
    (d : Nat) : Succeeds f d :=
  (h (Encoder.atDepth d)).mpr hS

theorem encodeArrayValue_inline_run (env : GoEnv) (e : Encoder) (arr : List Value)
    (h0 : ¬ arr.length = 0) (h1 : allPrimitives arr = true) :
    e.encodeArrayValue env arr =
      (e.WriteString (lenHeader arr.length ++ ": " ++
        ",".intercalate (arr.map (scalarText env))), none) := by
  have h : ∀ v ∈ arr, isPrimitive v = true := List.all_eq_true.mp h1
  rw [encodeArrayValue_unfold, if_neg h0, if_pos h1, inlineLoop_scalars env arr _ h,
    writeString_writeString]

theorem encodeArrayValue_tabular_run (env : GoEnv) (e : Encoder) (arr : List Value) (d : Nat)
    (hd : e.indent = (d : Int)) (hs : e.indentSize = 2) (hm : arrayMode arr = .tabular) :
    e.encodeArrayValue env arr =
      (e.WriteString (lenHeader arr.length ++ "\x7b" ++
        ",".intercalate (uniformObjectFields arr).1 ++ "\x7d:" ++
        String.join (arr.map fun v =>
          "\n" ++ spaces (2 * (d + 1)) ++ rowText env (uniformObjectFields arr).1 v)),
        none) := by
  obtain ⟨h0, h1, h2, h3⟩ := (arrayMode_tabular_iff _).mp hm
  have hguard : ((uniformObjectFields arr).2 &&
      decide ((uniformObjectFields arr).1.length > 0)) = true := by
    simp only [Bool.and_eq_true, decide_eq_true_eq]
    exact ⟨h2, h3⟩
  have hobjs := tabular_elements arr hm
  cases arr with
  | nil => simp at h0
  | cons v rest =>
    rw [encodeArrayValue_unfold, if_neg h0, if_neg (by simp [h1]), if_pos hguard]
    simp only [List.length_cons]
    rw [tabularLoop_rows env _ (rest.length + 1) (d + 1) rest v _ 0 ?_ ?_ (by omega) hobjs,
      andThen_ok]
    · have hnl : "\x7d:\n" = "\x7d:" ++ "\n" := by decide
      simp only [Encoder.decIndent, Encoder.incIndent, Encoder.WriteString, List.map_cons,
        join_cons, String.append_assoc, add_sub_cancel_right, hnl]
    · simp only [Encoder.incIndent, Encoder.WriteString, hd]; omega
    · exact hs

theorem encodeArrayValue_list_run (env : GoEnv) (e : Encoder) (arr : List Value) (d : Nat)
    (hd : e.indent = (d : Int)) (hs : e.indentSize = 2) (hm : arrayMode arr = .list)
    (helems : ∀ x ∈ arr, ListElemOk env d x) :
    e.encodeArrayValue env arr =
      (e.WriteString (lenHeader arr.length ++ ":" ++
        String.join (arr.map fun v =>
          "\n" ++ spaces (2 * (d + 1)) ++ "- " ++ listElemText env d v)), none) := by
  obtain ⟨h0, h1, h2⟩ := (arrayMode_list_iff arr).mp hm
  cases arr with
  | nil => simp at h0
  | cons v rest =>
    rw [encodeArrayValue_unfold, if_neg h0, if_neg (by simp [h1]), if_neg h2]
    simp only [List.length_cons]
    rw [listLoop_rows env (rest.length + 1) (d + 1) (listElemText env d) rest v _ 0 ?_ ?_
        (by omega) ?_, andThen_ok]
    · simp only [Encoder.decIndent, Encoder.incIndent, Encoder.WriteString, List.map_cons,
        join_cons, String.append_assoc, add_sub_cancel_right, header_colon_newline]
    · simp only [Encoder.incIndent, Encoder.WriteString, hd]; omega
    · exact hs
    · intro x hx e1 hd1 hs1
      exact encodeListElem_text env d x (helems x hx) e1 hd1 hs1

theorem arrayMode_cases (arr : List Value) :
    (arr.length = 0) ∨ (¬ arr.length = 0 ∧ allPrimitives arr = true) ∨
    arrayMode arr = .tabular ∨ arrayMode arr = .list := by
  unfold arrayMode
  split_ifs with h0 h1 h2
  · exact Or.inl h0
  · exact Or.inr (Or.inl ⟨h0, h1⟩)
  · exact Or.inr (Or.inr (Or.inl rfl))
  · exact Or.inr (Or.inr (Or.inr rfl))

theorem noTrail_space : NoTrailingNewline " " := by
  unfold NoTrailingNewline
  decide

theorem noTrail_objectValueText (env : GoEnv)
    (hf : ∀ f, NoTrailingNewline (env.FormatFloat f)) (d : Nat) (v : Value)
    (hobj : ∀ val, v = .object val → val.length ≠ 0 →
      EndsInText (emitted (fun e => e.encodeObject env val false) (d + 1)))
    (harr : ∀ val, v = .array val →
      EndsInText (emitted (fun e => e.encodeArrayValue env val) d)) :
    NoTrailingNewline (objectValueText env d v) := by
  cases v with
  | object val =>
    show NoTrailingNewline (if val.length = 0 then " \x7b\x7d"
      else "\n" ++ emitted (fun e => e.encodeObject env val false) (d + 1))
    split_ifs with hl
    · exact noTrail_of_ends (ends_literal " \x7b\x7d" '\x7d' rfl (by decide))
    · exact noTrail_of_ends (ends_append_right _ (hobj val rfl hl))
  | array val => exact noTrail_of_ends (harr val rfl)
  | null => exact noTrail_append noTrail_space (noTrail_scalarText env hf _)
  | bool b => exact noTrail_append noTrail_space (noTrail_scalarText env hf _)
  | int n => exact noTrail_append noTrail_space (noTrail_scalarText env hf _)
  | int64 n => exact noTrail_append noTrail_space (noTrail_scalarText env hf _)
  | float64 f => exact noTrail_append noTrail_space (noTrail_scalarText env hf _)
  | string s => exact noTrail_append noTrail_space (noTrail_scalarText env hf _)
  | other t => exact noTrail_append noTrail_space (noTrail_scalarText env hf _)

theorem noTrail_listElemText (env : GoEnv)
    (hf : ∀ f, NoTrailingNewline (env.FormatFloat f)) (d : Nat) (v : Value)
    (hobj : ∀ val, v = .object val → val.length ≠ 0 →
      EndsInText (emitted (fun e => e.encodeObject env val false) (d + 2)))
    (harr : ∀ val, v = .array val →
      EndsInText (emitted (fun e => e.encodeArrayValue env val) (d + 1))) :
    NoTrailingNewline (listElemText env d v) := by
  cases v with
  | object val =>
    show NoTrailingNewline (if val.length = 0 then "\x7b\x7d"
      else "\n" ++ emitted (fun e => e.encodeObject env val false) (d + 2))
    split_ifs with hl
    · exact noTrail_of_ends (ends_literal "\x7b\x7d" '\x7d' rfl (by decide))
    · exact noTrail_of_ends (ends_append_right _ (hobj val rfl hl))
  | array val => exact noTrail_of_ends (harr val rfl)
  | null => exact noTrail_scalarText env hf _
  | bool b => exact noTrail_scalarText env hf _
  | int n => exact noTrail_scalarText env hf _
  | int64 n => exact noTrail_scalarText env hf _
  | float64 f => exact noTrail_scalarText env hf _
  | string s => exact noTrail_scalarText env hf _
  | other t => exact noTrail_scalarText env hf _

theorem objectValueOk_of_supported (env : GoEnv) (d : Nat) (v : Value)
    (hk : v.keysDistinct = true) (hs : v.supported = true) : ObjectValueOk env d v := by
  cases v with
  | object val =>
    intro _
    exact succeeds_of_dec
      (encodeObject_dec env val false (keysDistinct_object hk).1 (keysDistinct_object hk).2)
      (by simpa [Value.supported] using hs) _
  | array val =>
    exact succeeds_of_dec
      (encodeArrayValue_dec env val (by simpa [Value.keysDistinct] using hk))
      (by simpa [Value.supported] using hs) _
  | other t => simp [Value.supported] at hs
  | _ => trivial

theorem listElemOk_of_supported (env : GoEnv) (d : Nat) (v : Value)
    (hk : v.keysDistinct = true) (hs : v.supported = true) : ListElemOk env d v := by
  cases v with
  | object val =>
    intro _
    exact succeeds_of_dec
      (encodeObject_dec env val false (keysDistinct_object hk).1 (keysDistinct_object hk).2)
      (by simpa [Value.supported] using hs) _
  | array val =>
    exact succeeds_of_dec
      (encodeArrayValue_dec env val (by simpa [Value.keysDistinct] using hk))
      (by simpa [Value.supported] using hs) _
  | other t => simp [Value.supported] at hs
  | _ => trivial

theorem sizeOf_mapIndex_object_lt {obj val : List (String × Value)} {k : String}
    (h : mapIndex obj k = .object val) : sizeOf val < sizeOf obj := by
  unfold mapIndex at h
  cases hl : obj.lookup k with
  | none => rw [hl] at h; cases h
  | some v =>
    rw [hl] at h
    have h1 := @sizeOf_lookup_lt k v obj hl
    have h2 : v = .object val := h
    rw [h2] at h1
    simp only [Value.object.sizeOf_spec] at h1
    omega

theorem sizeOf_mapIndex_array_lt {obj : List (String × Value)} {val : List Value} {k : String}
    (h : mapIndex obj k = .array val) : sizeOf val < sizeOf obj := by
  unfold mapIndex at h
  cases hl : obj.lookup k with
  | none => rw [hl] at h; cases h
  | some v =>
    rw [hl] at h
    have h1 := @sizeOf_lookup_lt k v obj hl
    have h2 : v = .array val := h
    rw [h2] at h1
    simp only [Value.array.sizeOf_spec] at h1
    omega

theorem sizeOf_mem_object_lt {arr : List Value} {val : List (String × Value)}
    (h : Value.object val ∈ arr) : sizeOf val < sizeOf arr := by
  have h1 := List.sizeOf_lt_of_mem h
  simp only [Value.object.sizeOf_spec] at h1
  omega

theorem sizeOf_mem_array_lt {arr : List Value} {val : List Value}
    (h : Value.array val ∈ arr) : sizeOf val < sizeOf arr := by
  have h1 := List.sizeOf_lt_of_mem h
  simp only [Value.array.sizeOf_spec] at h1
  omega

mutual

theorem encodeObject_ends (env : GoEnv) (hf : ∀ f, NoTrailingNewline (env.FormatFloat f))
    (obj : List (String × Value)) (root : Bool) (d : Nat) (hroot : root = true → d = 0)
    (hnd : (rangeKeys obj).Nodup) (hk : keysDistinctEntries obj = true)
    (hs : supportedEntries obj = true) (hne : obj ≠ []) :
    EndsInText (emitted (fun e => e.encodeObject env obj root) d) := by
  have hok : ∀ k ∈ rangeKeys obj, ObjectValueOk env d (mapIndex obj k) := fun k _ =>
    objectValueOk_of_supported env d _ (keysDistinct_mapIndex obj k hk)
      (supported_mapIndex obj k hs)
  rw [emitted_of_run (encodeObject_keys_text env (Encoder.atDepth d) obj root d rfl rfl
    hroot hok)]
  refine ends_intercalate _ _ ?_ ?_
  · cases obj with
    | nil => exact absurd rfl hne
    | cons kv rest => simp [rangeKeys]
  · intro x hx
    obtain ⟨k, _, hxk⟩ := List.mem_map.mp hx
    rw [← hxk]
    unfold pairText
    refine ends_append_left (ends_append_right _ (ends_literal ":" ':' rfl (by decide))) ?_
    have hkk := keysDistinct_mapIndex obj k hk
    have hss := supported_mapIndex obj k hs
    refine noTrail_objectValueText env hf d _ ?_ ?_
    · intro val hv hl
      rw [hv] at hkk hss
      have _hlt : sizeOf val < sizeOf obj := sizeOf_mapIndex_object_lt hv
      exact encodeObject_ends env hf val false (d + 1) (by simp)
        (keysDistinct_object hkk).1 (keysDistinct_object hkk).2
        (by simpa [Value.supported] using hss)
        (by intro h0; exact hl (by rw [h0]; rfl))
    · intro val hv
      rw [hv] at hkk hss
      have _hlt : sizeOf val < sizeOf obj := sizeOf_mapIndex_array_lt hv
      exact encodeArrayValue_ends env hf val d
        (by simpa [Value.keysDistinct] using hkk) (by simpa [Value.supported] using hss)
termination_by sizeOf obj
decreasing_by
  all_goals simp_wf
  all_goals assumption

theorem encodeArrayValue_ends (env : GoEnv) (hf : ∀ f, NoTrailingNewline (env.FormatFloat f))
    (arr : List Value) (d : Nat) (hk : keysDistinctList arr = true)
    (hs : supportedList arr = true) :
    EndsInText (emitted (fun e => e.encodeArrayValue env arr) d) := by
  rcases arrayMode_cases arr with h0 | ⟨h0, h1⟩ | hm | hm
  · have hnil : arr = [] := List.length_eq_zero.mp h0
    subst hnil
    rw [emitted_of_run (encodeArrayValue_nil env (Encoder.atDepth d))]
    exact ends_literal "[0]:" ':' rfl (by decide)
  · rw [emitted_of_run (encodeArrayValue_inline_run env (Encoder.atDepth d) arr h0 h1)]
    refine ends_append_left (ends_append_right _ (ends_literal ": " ' ' rfl (by decide))) ?_
    refine noTrail_intercalate _ _ (noTrail_of_ends (ends_literal "," ',' rfl (by decide))) ?_
    intro x hx
    obtain ⟨y, _, hxy⟩ := List.mem_map.mp hx
    rw [← hxy]
    exact noTrail_scalarText env hf y
  · rw [emitted_of_run (encodeArrayValue_tabular_run env (Encoder.atDepth d) arr d rfl rfl hm)]
    have hne : arr ≠ [] := by
      intro h
      rw [h] at hm
      exact absurd hm (by decide)
    refine ends_append_right _ (ends_join _ (by simpa using hne) ?_)
    intro x hx
    obtain ⟨y, _, hxy⟩ := List.mem_map.mp hx
    rw [← hxy]
    refine ends_append_left (ends_append_right _ (ends_spaces _ (by omega))) ?_
    unfold rowText
    refine noTrail_intercalate _ _ (noTrail_of_ends (ends_literal "," ',' rfl (by decide))) ?_
    intro z hz
    obtain ⟨w, _, hzw⟩ := List.mem_map.mp hz
    rw [← hzw]
    exact noTrail_scalarText env hf _
  · have hkk := (keysDistinctList_iff arr).mp hk
    have hss := (supportedList_iff arr).mp hs
    have helems : ∀ x ∈ arr, ListElemOk env d x := fun x hx =>
      listElemOk_of_supported env d x (hkk x hx) (hss x hx)
    rw [emitted_of_run (encodeArrayValue_list_run env (Encoder.atDepth d) arr d rfl rfl hm
      helems)]
    have hne : arr ≠ [] := by
      intro h
      rw [h] at hm
      exact absurd hm (by decide)
    refine ends_append_right _ (ends_join _ (by simpa using hne) ?_)
    intro x hx
    obtain ⟨y, hy, hxy⟩ := List.mem_map.mp hx
    rw [← hxy]
    refine ends_append_left (ends_append_right _ (ends_literal "- " ' ' rfl (by decide))) ?_
    have hky := hkk y hy
    have hsy := hss y hy
    refine noTrail_listElemText env hf d y ?_ ?_
    · intro val hv hl
      rw [hv] at hky hsy hy
      have _hlt : sizeOf val < sizeOf arr := sizeOf_mem_object_lt hy
      exact encodeObject_ends env hf val false (d + 2) (by simp)
        (keysDistinct_object hky).1 (keysDistinct_object hky).2
        (by simpa [Value.supported] using hsy)
        (by intro h0; exact hl (by rw [h0]; rfl))
    · intro val hv
      rw [hv] at hky hsy hy
      have _hlt : sizeOf val < sizeOf arr := sizeOf_mem_array_lt hy
      exact encodeArrayValue_ends env hf val (d + 1)
        (by simpa [Value.keysDistinct] using hky) (by simpa [Value.supported] using hsy)
termination_by sizeOf arr
decreasing_by
  all_goals simp_wf
  all_goals assumption

end

theorem encodeObject_run_noTrail (env : GoEnv)
    (hf : ∀ f, NoTrailingNewline (env.FormatFloat f)) (obj : List (String × Value))
    (root : Bool) (d : Nat) (hroot : root = true → d = 0) (hnd : (rangeKeys obj).Nodup)
    (hk : keysDistinctEntries obj = true) (hs : supportedEntries obj = true)
    (e : Encoder) (hd : e.indent = (d : Int)) (hi : e.indentSize = 2) :
    e.encodeObject env obj root =
      (e.WriteString (emitted (fun e1 => e1.encodeObject env obj root) d), none) ∧
    NoTrailingNewline (emitted (fun e1 => e1.encodeObject env obj root) d) := by
  have hok : ∀ k ∈ rangeKeys obj, ObjectValueOk env d (mapIndex obj k) := fun k _ =>
    objectValueOk_of_supported env d _ (keysDistinct_mapIndex obj k hk)
      (supported_mapIndex obj k hs)
  have hrun := encodeObject_keys_text env (Encoder.atDepth d) obj root d rfl rfl hroot hok
  refine ⟨?_, ?_⟩
  · rw [emitted_of_run hrun]
    exact encodeObject_keys_text env e obj root d hd hi hroot hok
  · cases obj with
    | nil =>
      rw [emitted_of_run hrun]
      exact noTrail_empty
    | cons kv rest =>
      exact noTrail_of_ends
        (encodeObject_ends env hf (kv :: rest) root d hroot hnd hk hs (List.cons_ne_nil _ _))

/-- C13: for every value all of whose nodes are of a supported type, `Encode` returns
a text that does not end with a newline character, and every object of such a
value, written at any depth, appends a text that does not end with a newline
character: nothing follows its last pair.  The maps have pairwise distinct
keys and `strconv.FormatFloat` returns no text ending in a newline. -/
theorem Encode_no_trailing_newline (env : GoEnv)
    (hf : ∀ f, NoTrailingNewline (env.FormatFloat f)) (v : Value)
    (hk : v.keysDistinct = true) (hs : v.supported = true) :
    (Encode env v).2 = none ∧ NoTrailingNewline (Encode env v).1 ∧
    ∀ (obj : List (String × Value)) (root : Bool) (d : Nat) (e : Encoder),
      (root = true → d = 0) → (rangeKeys obj).Nodup → keysDistinctEntries obj = true →
      supportedEntries obj = true → e.indent = (d : Int) → e.indentSize = 2 →
      ∃ t, e.encodeObject env obj root = (e.WriteString t, none) ∧ NoTrailingNewline t := by
  refine ⟨?_, ?_, ?_⟩
  · have hd := encode_dec env v true hk NewEncoder
    simp only at hd
    unfold Encode
    rcases hr : NewEncoder.encode env v true with ⟨e1, _ | err⟩
    · rfl
    · rw [hr] at hd
      exact absurd (hd.mpr hs) (by simp)
  · cases v with
    | object val =>
      have h := encodeObject_run_noTrail env hf val true 0 (fun _ => rfl)
        (keysDistinct_object hk).1 (keysDistinct_object hk).2
        (by simpa [Value.supported] using hs) NewEncoder rfl rfl
      rw [Encode_of_encode env _ _ ((encode_object env NewEncoder val true).trans h.1)]
      exact h.2
    | array val =>
      have hk1 : keysDistinctList val = true := by simpa [Value.keysDistinct] using hk
      have hs1 : supportedList val = true := by simpa [Value.supported] using hs
      have hrun := wb_run (encodeArrayValue_wb env val) NewEncoder 0 rfl rfl
        (succeeds_of_dec (encodeArrayValue_dec env val hk1) hs1 0)
      rw [Encode_of_encode env _ _ ((encode_array env NewEncoder val true).trans hrun)]
      exact noTrail_of_ends (encodeArrayValue_ends env hf val 0 hk1 hs1)
    | other t => simp [Value.supported] at hs
    | null => rw [Encode_primitive env .null rfl]; exact noTrail_scalarText env hf _
    | bool b => rw [Encode_primitive env (.bool b) rfl]; exact noTrail_scalarText env hf _
    | int n => rw [Encode_primitive env (.int n) rfl]; exact noTrail_scalarText env hf _
    | int64 n => rw [Encode_primitive env (.int64 n) rfl]; exact noTrail_scalarText env hf _
    | float64 f => rw [Encode_primitive env (.float64 f) rfl]; exact noTrail_scalarText env hf _
    | string s => rw [Encode_primitive env (.string s) rfl]; exact noTrail_scalarText env hf _
  · intro obj root d e hroot hnd hk1 hs1 hd hi
    exact ⟨_, encodeObject_run_noTrail env hf obj root d hroot hnd hk1 hs1 e hd hi⟩

theorem Encode_no_trailing_newline_witness :
    (∀ f, NoTrailingNewline (exampleEnv.FormatFloat f)) ∧
    (Value.object sampleObject).keysDistinct = true ∧
    (Value.object sampleObject).supported = true ∧
    (Encode exampleEnv (.object sampleObject)).2 = none ∧
    NoTrailingNewline (Encode exampleEnv (.object sampleObject)).1 :=
  have h := Encode_no_trailing_newline exampleEnv (fun _ => noTrail_empty)
    (.object sampleObject) rfl rfl
  ⟨fun _ => noTrail_empty, rfl, rfl, h.1, h.2.1⟩

/-! ### Integer-valued floats -/

theorem FormatInt_numeral (n : Int) :
    ∃ digits : List Char,
      FormatInt n = (if n < 0 then "-" else "") ++ String.mk digits ∧
      (∀ c ∈ digits, isDecimalDigit c = true) ∧ numeralValue digits = n.natAbs ∧
      (n ≠ 0 → digits.head? ≠ some '0') := by
  unfold FormatInt
  by_cases hn : n < 0
  · obtain ⟨h1, h2, h3⟩ := natRepr_spec n.natAbs
    refine ⟨(Nat.repr n.natAbs).data, by rw [if_pos hn, if_pos hn], h1, h2, ?_⟩
    intro hne
    exact h3 (by omega)
  · obtain ⟨h1, h2, h3⟩ := natRepr_spec n.toNat
    refine ⟨(Nat.repr n.toNat).data, ?_, h1, ?_, ?_⟩
    · rw [if_neg hn, if_neg hn, String.empty_append]
    · rw [h2]; omega
    · intro hne
      exact h3 (by omega)

theorem size_sub_le (m e : Nat) (hm : m < 2 ^ 53) : (m * 2 ^ e).size - 53 ≤ e := by
  have h : m * 2 ^ e < 2 ^ (53 + e) := by
    rw [pow_add]
    exact Nat.mul_lt_mul_of_pos_right hm (by positivity)
  have := Nat.size_le.mpr h
  omega

theorem ofInt64_exact (t : Int) (hdvd : 2 ^ (t.natAbs.size - 53) ∣ t.natAbs) :
    Float64.ofInt64 t =
      .finite (decide (t < 0)) (t.natAbs / 2 ^ (t.natAbs.size - 53))
        ((t.natAbs.size - 53 : Nat) : Int) := by
  have hr : t.natAbs % 2 ^ (t.natAbs.size - 53) = 0 := Nat.mod_eq_zero_of_dvd hdvd
  have hpos : 0 < 2 ^ (t.natAbs.size - 53) := by positivity
  unfold Float64.ofInt64
  simp only [hr]
  rw [if_neg]
  intro h
  rcases h with h | ⟨h, _⟩ <;> omega

theorem eq_zero_iff (neg : Bool) (mant : Nat) (exp : Int) :
    (Float64.finite neg mant exp).eq (.finite false 0 0) = true ↔ mant = 0 := by
  simp only [Float64.eq, zero_mul, Bool.or_eq_true, Bool.and_eq_true, beq_iff_eq]
  constructor
  · rintro (h | ⟨_, h⟩)
    · exact h.1
    · have hp : 0 < 2 ^ (exp - min exp 0).toNat := by positivity
      rcases Nat.mul_eq_zero.mp h with h | h
      · exact h
      · omega
  · intro h
    exact Or.inl ⟨h, trivial⟩

theorem eq_of_scaled (n : Bool) (m1 m2 : Nat) (e1 e2 : Int)
    (h : m1 * 2 ^ (e1 - min e1 e2).toNat = m2 * 2 ^ (e2 - min e1 e2).toNat) :
    (Float64.finite n m1 e1).eq (.finite n m2 e2) = true := by
  simp only [Float64.eq, Bool.or_eq_true, Bool.and_eq_true, beq_iff_eq]
  exact Or.inr ⟨trivial, h⟩

theorem natAbs_signed (neg : Bool) (a : Nat) :
    (if neg then -(a : Int) else (a : Int)).natAbs = a := by
  cases neg <;> simp

theorem decide_signed_neg (neg : Bool) (a : Nat) (ha : 0 < a) :
    decide ((if neg then -(a : Int) else (a : Int)) < 0) = neg := by
  cases neg
  · simp
  · simp only [if_true, decide_eq_true_eq]
    omega

theorem eq_ofInt64_of_nat (neg : Bool) (mant e a : Nat) (hm : mant < 2 ^ 53)
    (h0 : mant ≠ 0) (ha : a = mant * 2 ^ e) :
    (Float64.finite neg mant (e : Int)).eq
      (Float64.ofInt64 (if neg then -(a : Int) else (a : Int))) = true := by
  have hpos : 0 < a := by
    rw [ha]
    exact Nat.mul_pos (Nat.pos_of_ne_zero h0) (by positivity)
  have hle : a.size - 53 ≤ e := by
    rw [ha]
    exact size_sub_le mant e hm
  have hsplit : a = mant * 2 ^ (e - (a.size - 53)) * 2 ^ (a.size - 53) := by
    rw [mul_assoc, ← pow_add, Nat.sub_add_cancel hle]
    exact ha
  have hdvd : 2 ^ (a.size - 53) ∣ a := Dvd.intro_left _ hsplit.symm
  rw [ofInt64_exact _ (by rw [natAbs_signed]; exact hdvd), decide_signed_neg neg a hpos,
    natAbs_signed]
  apply eq_of_scaled
  have hmin : min (e : Int) ((a.size - 53 : Nat) : Int) = ((a.size - 53 : Nat) : Int) := by
    apply min_eq_right
    exact_mod_cast hle
  rw [hmin, sub_self, Int.toNat_zero, pow_zero, mul_one]
  have h1 : ((e : Int) - ((a.size - 53 : Nat) : Int)).toNat = e - (a.size - 53) := by
    omega
  rw [h1]
  exact (Nat.div_eq_of_eq_mul_left (by positivity) hsplit).symm

theorem eq_ofInt64_of_neg (neg : Bool) (mant k a : Nat) (hm : mant < 2 ^ 53)
    (h0 : mant ≠ 0) (hdvd : mant % 2 ^ (k + 1) = 0) (ha : a = mant / 2 ^ (k + 1)) :
    (Float64.finite neg mant (-((k : Int) + 1))).eq
      (Float64.ofInt64 (if neg then -(a : Int) else (a : Int))) = true := by
  have hmul : a * 2 ^ (k + 1) = mant := by
    rw [ha]
    exact Nat.div_mul_cancel (Nat.dvd_of_mod_eq_zero hdvd)
  have hpos : 0 < a := by
    rcases Nat.eq_zero_or_pos a with h | h
    · rw [h, zero_mul] at hmul
      exact absurd hmul.symm h0
    · exact h
  have hlt : a < 2 ^ 53 := by
    rw [ha]
    exact lt_of_le_of_lt (Nat.div_le_self _ _) hm
  have hsh : a.size - 53 = 0 := by
    have := Nat.size_le.mpr hlt
    omega
  rw [ofInt64_exact _ (by rw [natAbs_signed, hsh]; simp), decide_signed_neg neg a hpos,
    natAbs_signed, hsh]
  apply eq_of_scaled
  have hmin : min (-((k : Int) + 1)) ((0 : Nat) : Int) = -((k : Int) + 1) := by
    apply min_eq_left
    omega
  rw [hmin, sub_self, Int.toNat_zero, pow_zero, mul_one, Nat.div_one]
  have h1 : (((0 : Nat) : Int) - -((k : Int) + 1)).toNat = k + 1 := by
    omega
  rw [h1, hmul]

theorem formatNumber_in_range (env : GoEnv) (neg : Bool) (mant : Nat) (exp : Int) (t : Int)
    (hm : mant < 2 ^ 53) (hint : (Float64.finite neg mant exp).isInteger = true)
    (ht : (Float64.finite neg mant exp).truncate = some t)
    (hr : -(2 : Int) ^ 63 ≤ t ∧ t < (2 : Int) ^ 63) :
    formatNumber env (.finite neg mant exp) = FormatInt t := by
  have hconv : (Float64.finite neg mant exp).toInt64 env = t := by
    unfold Float64.toInt64
    rw [ht]
    exact if_pos hr
  simp only [Float64.truncate, Option.some.injEq] at ht
  by_cases h0 : mant = 0
  · subst h0
    have ht0 : t = 0 := by
      rw [← ht]
      split_ifs <;> simp
    unfold formatNumber
    rw [if_pos ((eq_zero_iff neg 0 exp).mpr rfl), ht0]
    decide
  · have hz : ¬ (Float64.finite neg mant exp).eq (.finite false 0 0) = true :=
      fun h => h0 ((eq_zero_iff neg mant exp).mp h)
    unfold formatNumber
    rw [if_neg hz, hconv, if_pos]
    rw [← ht]
    cases exp with
    | ofNat e =>
      exact eq_ofInt64_of_nat neg mant e _ hm h0 (by simp)
    | negSucc k =>
      have hdvd : mant % 2 ^ (k + 1) = 0 := by
        simpa [Float64.isInteger, Int.neg_negSucc] using hint
      rw [Int.negSucc_eq]
      exact eq_ofInt64_of_neg neg mant k _ hm h0 hdvd (by simp; omega)

/-- C15 (the code at the failing input): the float `2^63` equals its integer truncation
`9223372036854775808`, which no `int64` holds; where the conversion `int64(f)`
then gives the smallest `int64`, the test `f == float64(int64(f))` fails
although the float is an integer, and `formatNumber` returns what
`strconv.FormatFloat` returns, `9223372036854776000`: a plain decimal integer
numeral, yet not the numeral of the value. -/
theorem formatNumber_two_pow_63 :
    twoPow63.Representable ∧ twoPow63.isInteger = true ∧
    twoPow63.truncate = some 9223372036854775808 ∧
    FormatInt 9223372036854775808 = "9223372036854775808" ∧
    formatNumber amd64Env twoPow63 = "9223372036854776000" ∧
    IsPlainInteger (formatNumber amd64Env twoPow63) ∧
    formatNumber amd64Env twoPow63 ≠ FormatInt 9223372036854775808 := by
  have hsize : (9223372036854775808 : Nat).size = 64 := by
    apply le_antisymm
    · exact Nat.size_le.mpr (by norm_num)
    · exact Nat.lt_size.mpr (by norm_num)
  have hconv : twoPow63.toInt64 amd64Env = -9223372036854775808 := by
    simp [Float64.toInt64, Float64.truncate, twoPow63, amd64Env]
  have hof : Float64.ofInt64 (-9223372036854775808) = .finite true 4503599627370496 11 := by
    simp [Float64.ofInt64, hsize]
  have hfmt : formatNumber amd64Env twoPow63 = "9223372036854776000" := by
    unfold formatNumber
    rw [hconv, hof]
    rfl
  refine ⟨by unfold Float64.Representable twoPow63; norm_num, by decide, by decide, by decide,
    hfmt, ⟨"9223372036854776000".data, by decide, Or.inl hfmt⟩, ?_⟩
  rw [hfmt]
  decide

/-- Inside the `int64` range: `formatNumber` returns `0` for a float equal to zero,
and for every `float64` whose value equals its integer truncation and lies in
the `int64` range it returns the plain decimal integer numeral of that value:
a `-` for a negative value, then decimal digits only that denote the absolute
value and do not start with `0` unless the value is zero; `42.0` gives `42`. -/
theorem formatNumber_integer (env : GoEnv) (neg : Bool) (mant : Nat) (exp : Int) (t : Int)
    (hm : (Float64.finite neg mant exp).Representable)
    (hint : (Float64.finite neg mant exp).isInteger = true)
    (ht : (Float64.finite neg mant exp).truncate = some t)
    (hr : -(2 : Int) ^ 63 ≤ t ∧ t < (2 : Int) ^ 63) :
    formatNumber env (.finite neg mant exp) = FormatInt t ∧
    (∃ digits : List Char,
      FormatInt t = (if t < 0 then "-" else "") ++ String.mk digits ∧
      (∀ c ∈ digits, isDecimalDigit c = true) ∧ numeralValue digits = t.natAbs ∧
      (t ≠ 0 → digits.head? ≠ some '0')) ∧
    (∀ f : Float64, f.eq (.finite false 0 0) = true → formatNumber env f = "0") ∧
    formatNumber env (.finite false 42 0) = "42" ∧
    formatNumber env (.finite false 5910974510923776 (-47)) = "42" := by
  refine ⟨formatNumber_in_range env neg mant exp t hm hint ht hr, FormatInt_numeral t, ?_, ?_, ?_⟩
  · intro f hf
    unfold formatNumber
    rw [if_pos hf]
  · rw [formatNumber_in_range env false 42 0 42 (by norm_num) (by decide) (by decide)
      (by norm_num)]
    decide
  · rw [formatNumber_in_range env false 5910974510923776 (-47) 42 (by norm_num) (by decide)
      (by decide) (by norm_num)]
    decide

theorem formatNumber_integer_witness :
    (Float64.finite true 21 1).Representable ∧
    (Float64.finite true 21 1).isInteger = true ∧
    (Float64.finite true 21 1).truncate = some (-42) ∧
    formatNumber exampleEnv (.finite true 21 1) = "-42" :=
  have h := formatNumber_integer exampleEnv true 21 1 (-42)
    (by unfold Float64.Representable; norm_num) (by decide) (by decide) (by norm_num)
  ⟨by unfold Float64.Representable; norm_num, by decide, by decide, h.1.trans (by decide)⟩

/-- The form of the result for every float: where `strconv.FormatFloat` returns
decimal digits only, with a `-` before them for a negative value, for the
floats that equal their integer truncation, `formatNumber` returns a plain
decimal integer numeral for every such float, inside the `int64` range and
outside it. -/
theorem formatNumber_plain_integer (env : GoEnv)
    (hfmt : ∀ f : Float64, f.isInteger = true → IsPlainInteger (env.FormatFloat f))
    (f : Float64) (hint : f.isInteger = true) : IsPlainInteger (formatNumber env f) := by
  have hInt : ∀ n : Int, IsPlainInteger (FormatInt n) := by
    intro n
    obtain ⟨digits, h1, h2, _, _⟩ := FormatInt_numeral n
    refine ⟨digits, h2, ?_⟩
    rw [h1]
    by_cases hn : n < 0
    · rw [if_pos hn]
      exact Or.inr rfl
    · rw [if_neg hn]
      exact Or.inl (by simp)
  unfold formatNumber
  split_ifs with h1 h2
  · exact ⟨['0'], by decide, Or.inl rfl⟩
  · exact hInt _
  · exact hfmt f hint

/-! ### Termination and stack depth -/

theorem depth_le_depthList {arr : List Value} {v : Value} (h : v ∈ arr) :
    v.depth ≤ depthList arr := by
  induction arr with
  | nil => simp at h
  | cons a rest ih =>
    simp only [depthList]
    rcases List.mem_cons.mp h with h | h
    · subst h; exact le_max_left _ _
    · exact le_trans (ih h) (le_max_right _ _)

theorem depth_le_depthEntries {obj : List (String × Value)} {kv : String × Value}
    (h : kv ∈ obj) : kv.2.depth ≤ depthEntries obj := by
  induction obj with
  | nil => simp at h
  | cons a rest ih =>
    obtain ⟨k1, v1⟩ := a
    simp only [depthEntries]
    rcases List.mem_cons.mp h with h | h
    · subst h; exact le_max_left _ _
    · exact le_trans (ih h) (le_max_right _ _)

theorem depth_mapIndex_le (obj : List (String × Value)) (k : String) :
    (mapIndex obj k).depth ≤ depthEntries obj := by
  rcases mapIndex_mem_or_null obj k with ⟨kv, hkv, h⟩ | h
  · rw [← h]
    exact depth_le_depthEntries hkv
  · rw [h]
    exact Nat.zero_le _

theorem andThenWithin_some (r : Result) (next : Encoder → Option Result)
    (next1 : Encoder → Result) (h : ∀ e, next e = some (next1 e)) :
    Result.andThenWithin (some r) next = some (r.andThen next1) := by
  rcases r with ⟨e, _ | err⟩
  · exact h e
  · rfl

theorem inlineLoopWithin_ok (env : GoEnv) (frames : Nat) (h : WithinOk env frames) :
    ∀ (arr : List Value) (i : Nat) (e : Encoder), 3 * depthList arr + 1 ≤ frames →
      e.inlineLoopWithin env frames arr i = some (e.inlineLoop env arr i)
  | [], i, e, _ => by rw [Encoder.inlineLoopWithin.eq_def, inlineLoop_nil]
  | v :: rest, i, e, hb => by
    have hv : 3 * v.depth + 1 ≤ frames := by
      have := @depth_le_depthList (v :: rest) v (List.mem_cons_self _ _)
      omega
    have hr : 3 * depthList rest + 1 ≤ frames := by
      simp only [depthList] at hb
      have := le_max_right v.depth (depthList rest)
      omega
    rw [Encoder.inlineLoopWithin.eq_def, inlineLoop_cons]
    dsimp only
    rw [h.1 _ v false hv]
    exact andThenWithin_some _ _ _ fun e2 => inlineLoopWithin_ok env frames h rest (i + 1) e2 hr

theorem fieldLoopWithin_ok (env : GoEnv) (frames : Nat) (h : WithinOk env frames)
    (obj : List (String × Value)) (hb : 3 * depthEntries obj + 1 ≤ frames) :
    ∀ (fields : List String) (j : Nat) (e : Encoder),
      e.fieldLoopWithin env frames obj fields j = some (e.fieldLoop env obj fields j)
  | [], j, e => by rw [Encoder.fieldLoopWithin.eq_def, fieldLoop_nil]
  | f :: rest, j, e => by
    have hv : 3 * (mapIndex obj f).depth + 1 ≤ frames := by
      have := depth_mapIndex_le obj f
      omega
    rw [Encoder.fieldLoopWithin.eq_def, fieldLoop_cons]
    dsimp only
    rw [h.1 _ _ false hv]
    exact andThenWithin_some _ _ _ fun e2 => fieldLoopWithin_ok env frames h obj hb rest (j + 1) e2

theorem tabularLoopWithin_ok (env : GoEnv) (frames : Nat) (h : WithinOk env frames)
    (fields : List String) (n : Nat) :
    ∀ (arr : List Value) (i : Nat) (e : Encoder), 3 * depthList arr + 1 ≤ frames →
      e.tabularLoopWithin env frames fields n arr i = some (e.tabularLoop env fields n arr i)
  | [], i, e, _ => by rw [Encoder.tabularLoopWithin.eq_def, tabularLoop_nil]
  | v :: rest, i, e, hb => by
    have hv : v.depth ≤ depthList (v :: rest) := depth_le_depthList (List.mem_cons_self _ _)
    have hr : 3 * depthList rest + 1 ≤ frames := by
      simp only [depthList] at hb
      have := le_max_right v.depth (depthList rest)
      omega
    rw [Encoder.tabularLoopWithin.eq_def]
    dsimp only
    cases v with
    | object obj =>
      simp only [Value.depth] at hv
      rw [tabularLoop_object]
      dsimp only
      rw [fieldLoopWithin_ok env frames h obj (by omega) fields 0 _]
      exact andThenWithin_some _ _ _ fun e2 =>
        tabularLoopWithin_ok env frames h fields n rest (i + 1) _ hr
    | null => rw [tabularLoop_panic _ _ _ _ _ _ _ (by simp)]
    | bool b => rw [tabularLoop_panic _ _ _ _ _ _ _ (by simp)]
    | int b => rw [tabularLoop_panic _ _ _ _ _ _ _ (by simp)]
    | int64 b => rw [tabularLoop_panic _ _ _ _ _ _ _ (by simp)]
    | float64 b => rw [tabularLoop_panic _ _ _ _ _ _ _ (by simp)]
    | string b => rw [tabularLoop_panic _ _ _ _ _ _ _ (by simp)]
    | array b => rw [tabularLoop_panic _ _ _ _ _ _ _ (by simp)]
    | other b => rw [tabularLoop_panic _ _ _ _ _ _ _ (by simp)]

theorem listLoopWithin_ok (env : GoEnv) (frames : Nat) (h : WithinOk env frames) (n : Nat) :
    ∀ (arr : List Value) (i : Nat) (e : Encoder), 3 * depthList arr + 1 ≤ frames →
      e.listLoopWithin env frames n arr i = some (e.listLoop env n arr i)
  | [], i, e, _ => by rw [Encoder.listLoopWithin.eq_def, listLoop_nil]
  | v :: rest, i, e, hb => by
    have hv : v.depth ≤ depthList (v :: rest) := depth_le_depthList (List.mem_cons_self _ _)
    have hr : 3 * depthList rest + 1 ≤ frames := by
      simp only [depthList] at hb
      have := le_max_right v.depth (depthList rest)
      omega
    have hnext : ∀ e3 : Encoder,
        (if (i : Int) < (n : Int) - 1 then e3.WriteString "\n" else e3).listLoopWithin env frames
          n rest (i + 1) =
        some ((if (i : Int) < (n : Int) - 1 then e3.WriteString "\n" else e3).listLoop env n
          rest (i + 1)) :=
      fun e3 => listLoopWithin_ok env frames h n rest (i + 1) _ hr
    rw [Encoder.listLoopWithin.eq_def, listLoop_cons]
    dsimp only
    cases v with
    | object val =>
      simp only [Value.depth] at hv
      simp only [Encoder.encodeListElem]
      by_cases hl : val.length = 0
      · simp only [hl, if_true]
        exact andThenWithin_some _ _ _ hnext
      · simp only [hl, if_false]
        rw [h.2.1 _ val false (by omega), andThenWithin_some _ _ _ (fun _ => rfl)]
        exact andThenWithin_some _ _ _ hnext
    | null =>
      simp only [Encoder.encodeListElem]
      rw [h.1 _ _ false (by omega)]
      exact andThenWithin_some _ _ _ hnext
    | bool b =>
      simp only [Encoder.encodeListElem]
      rw [h.1 _ _ false (by omega)]
      exact andThenWithin_some _ _ _ hnext
    | int b =>
      simp only [Encoder.encodeListElem]
      rw [h.1 _ _ false (by omega)]
      exact andThenWithin_some _ _ _ hnext
    | int64 b =>
      simp only [Encoder.encodeListElem]
      rw [h.1 _ _ false (by omega)]
      exact andThenWithin_some _ _ _ hnext
    | float64 b =>
      simp only [Encoder.encodeListElem]
      rw [h.1 _ _ false (by omega)]
      exact andThenWithin_some _ _ _ hnext
    | string b =>
      simp only [Encoder.encodeListElem]
      rw [h.1 _ _ false (by omega)]
      exact andThenWithin_some _ _ _ hnext
    | array b =>
      simp only [Encoder.encodeListElem]
      rw [h.1 _ _ false (by omega)]
      exact andThenWithin_some _ _ _ hnext
    | other b =>
      simp only [Encoder.encodeListElem]
      rw [h.1 _ _ false (by omega)]
      exact andThenWithin_some _ _ _ hnext

theorem encodeObjectLoopWithin_ok (env : GoEnv) (frames : Nat) (h : WithinOk env frames)
    (obj : List (String × Value)) (root : Bool) (hb : 3 * depthEntries obj + 1 ≤ frames) :
    ∀ (keys : List String) (i : Nat) (e : Encoder),
      e.encodeObjectLoopWithin env frames obj root keys i =
        some (e.encodeObjectLoop env obj root keys i)
  | [], i, e => by rw [Encoder.encodeObjectLoopWithin.eq_def, encodeObjectLoop_nil]
  | k :: rest, i, e => by
    have hd := depth_mapIndex_le obj k
    have hnext : ∀ e4 : Encoder,
        (if (i : Int) < ((rangeKeys obj).length : Int) - 1 then e4.WriteString "\n"
          else e4).encodeObjectLoopWithin env frames obj root rest (i + 1) =
        some ((if (i : Int) < ((rangeKeys obj).length : Int) - 1 then e4.WriteString "\n"
          else e4).encodeObjectLoop env obj root rest (i + 1)) :=
      fun e4 => encodeObjectLoopWithin_ok env frames h obj root hb rest (i + 1) _
    rw [Encoder.encodeObjectLoopWithin.eq_def, encodeObjectLoop_cons]
    dsimp only
    cases hv : mapIndex obj k with
    | object val =>
      rw [hv] at hd
      simp only [Value.depth] at hd
      simp only [Encoder.encodeValueOf]
      by_cases hl : val.length = 0
      · simp only [hl, if_true]
        exact andThenWithin_some _ _ _ hnext
      · simp only [hl, if_false]
        rw [h.2.1 _ val false (by omega), andThenWithin_some _ _ _ (fun _ => rfl)]
        exact andThenWithin_some _ _ _ hnext
    | array val =>
      rw [hv] at hd
      simp only [Value.depth] at hd
      simp only [Encoder.encodeValueOf]
      rw [h.2.2.1 _ val (by omega)]
      exact andThenWithin_some _ _ _ hnext
    | null =>
      simp only [Encoder.encodeValueOf]
      rw [h.1 _ _ false (by simp only [Value.depth]; omega)]
      exact andThenWithin_some _ _ _ hnext
    | bool b =>
      simp only [Encoder.encodeValueOf]
      rw [h.1 _ _ false (by simp only [Value.depth]; omega)]
      exact andThenWithin_some _ _ _ hnext
    | int b =>
      simp only [Encoder.encodeValueOf]
      rw [h.1 _ _ false (by simp only [Value.depth]; omega)]
      exact andThenWithin_some _ _ _ hnext
    | int64 b =>
      simp only [Encoder.encodeValueOf]
      rw [h.1 _ _ false (by simp only [Value.depth]; omega)]
      exact andThenWithin_some _ _ _ hnext
    | float64 b =>
      simp only [Encoder.encodeValueOf]
      rw [h.1 _ _ false (by simp only [Value.depth]; omega)]
      exact andThenWithin_some _ _ _ hnext
    | string b =>
      simp only [Encoder.encodeValueOf]
      rw [h.1 _ _ false (by simp only [Value.depth]; omega)]
      exact andThenWithin_some _ _ _ hnext
    | other b =>
      simp only [Encoder.encodeValueOf]
      rw [h.1 _ _ false (by simp only [Value.depth]; omega)]
      exact andThenWithin_some _ _ _ hnext

theorem withinOk_zero (env : GoEnv) : WithinOk env 0 :=
  ⟨fun _ _ _ h => absurd h (by omega), fun _ _ _ h => absurd h (by omega),
    fun _ _ h => absurd h (by omega), fun _ _ h => absurd h (by omega)⟩

theorem withinOk_succ (env : GoEnv) (frames : Nat) (h : WithinOk env frames) :
    WithinOk env (frames + 1) := by
  refine ⟨?_, ?_, ?_, ?_⟩
  · intro e v root hb
    rw [Encoder.encodeWithin.eq_def]
    dsimp only
    cases v with
    | array val =>
      simp only [Value.depth] at hb
      rw [encode_array]
      dsimp only
      rw [h.2.2.2 e val (by omega), Encoder.encodeArray]
    | object val =>
      simp only [Value.depth] at hb
      rw [encode_object]
      dsimp only
      exact h.2.1 e val root (by omega)
    | bool b => cases b <;> simp [Encoder.encode]
    | null => simp [Encoder.encode]
    | int b => simp [Encoder.encode]
    | int64 b => simp [Encoder.encode]
    | float64 b => simp [Encoder.encode]
    | string b => simp [Encoder.encode]
    | other b => simp [Encoder.encode]
  · intro e obj root hb
    rw [Encoder.encodeObjectWithin.eq_def]
    dsimp only
    rw [encodeObjectLoopWithin_ok env frames h obj root (by omega), Encoder.encodeObject]
  · intro e arr hb
    rw [Encoder.encodeArrayValueWithin.eq_def, encodeArrayValue_unfold]
    dsimp only
    split_ifs with h0 h1 h2
    · rfl
    · exact inlineLoopWithin_ok env frames h arr 0 _ (by omega)
    · rw [tabularLoopWithin_ok env frames h _ _ arr 0 _ (by omega)]
      exact andThenWithin_some _ _ _ fun _ => rfl
    · rw [listLoopWithin_ok env frames h _ arr 0 _ (by omega)]
      exact andThenWithin_some _ _ _ fun _ => rfl
  · intro e arr hb
    rw [Encoder.encodeArrayWithin.eq_def]
    dsimp only
    rw [h.2.2.1 e arr (by omega), Encoder.encodeArray]

theorem withinOk (env : GoEnv) : ∀ frames, WithinOk env frames
  | 0 => withinOk_zero env
  | frames + 1 => withinOk_succ env frames (withinOk env frames)

/-- C17: `encode`, `encodeObject` and `encodeArrayValue` return a result for every value:
run with a bounded stack, where each call of `encode`, `encodeArray`,
`encodeArrayValue` or `encodeObject` takes one frame, they return what they
return without a bound as soon as the frames are three for every level of
nesting of the argument plus one (two for `encodeObject` and
`encodeArrayValue`), whatever the number of elements and entries; three
frames do not suffice for the array `[1]` of nesting depth one. -/
theorem encode_within_depth (env : GoEnv) (e : Encoder) (root : Bool) (extra : Nat) :
    (∀ v : Value,
      e.encodeWithin env (3 * v.depth + 1 + extra) v root = some (e.encode env v root)) ∧
    (∀ obj : List (String × Value),
      e.encodeObjectWithin env (3 * depthEntries obj + 2 + extra) obj root =
        some (e.encodeObject env obj root)) ∧
    (∀ arr : List Value,
      e.encodeArrayValueWithin env (3 * depthList arr + 2 + extra) arr =
        some (e.encodeArrayValue env arr)) ∧
    (Value.array [.int 1]).depth = 1 ∧
    e.encodeWithin env 3 (.array [.int 1]) root = none :=
  ⟨fun v => (withinOk env _).1 e v root (by omega),
    fun obj => (withinOk env _).2.1 e obj root (by omega),
    fun arr => (withinOk env _).2.2.1 e arr (by omega),
    by simp [Value.depth, depthList],
    by
      simp [Encoder.encodeWithin, Encoder.encodeArrayWithin, Encoder.encodeArrayValueWithin,
        Encoder.inlineLoopWithin, allPrimitives, isPrimitive, Result.andThenWithin]⟩

/-! ### Quoted strings: one line, and the string is recovered -/

theorem join_data (l : List String) :
    (String.join l).data = (l.map String.data).flatten := by
  induction l with
  | nil => rfl
  | cons a rest ih =>
    rw [join_cons, String.data_append, ih, List.map_cons, List.flatten_cons]

theorem escapeString_data (s : String) :
    (escapeString s).data = (s.data.map fun c => (escapeOf c).data).flatten := by
  unfold escapeString
  rw [foldl_escapeStep, String.empty_append, join_data, List.map_map]
  rfl

/-- The escape of a code point is the code point itself, which then is none of the
five escaped ones, or a backslash and a second character that tells which of
the five it is. -/
theorem escapeOf_cases (c : Char) :
    ((escapeOf c).data = [c] ∧ c ≠ '\\' ∧ c ≠ '"' ∧ c ≠ '\n' ∧ c ≠ '\r' ∧ c ≠ '\t') ∨
    (∃ x, (escapeOf c).data = ['\\', x] ∧ x ≠ '\n' ∧ x ≠ '\r' ∧ x ≠ '\t' ∧
      ((c = '\\' ∧ x = '\\') ∨ (c = '"' ∧ x = '"') ∨ (c = '\n' ∧ x = 'n') ∨
        (c = '\r' ∧ x = 'r') ∨ (c = '\t' ∧ x = 't'))) := by
  unfold escapeOf
  split_ifs with h1 h2 h3 h4 h5
  · exact Or.inr ⟨'\\', rfl, by decide, by decide, by decide, Or.inl ⟨h1, rfl⟩⟩
  · exact Or.inr ⟨'"', rfl, by decide, by decide, by decide, Or.inr (Or.inl ⟨h2, rfl⟩)⟩
  · exact Or.inr ⟨'n', rfl, by decide, by decide, by decide,
      Or.inr (Or.inr (Or.inl ⟨h3, rfl⟩))⟩
  · exact Or.inr ⟨'r', rfl, by decide, by decide, by decide,
      Or.inr (Or.inr (Or.inr (Or.inl ⟨h4, rfl⟩)))⟩
  · exact Or.inr ⟨'t', rfl, by decide, by decide, by decide,
      Or.inr (Or.inr (Or.inr (Or.inr ⟨h5, rfl⟩)))⟩
  · exact Or.inl ⟨rfl, h1, h2, h3, h4, h5⟩

theorem escapes_injective :
    ∀ l1 l2 : List Char,
      (l1.map fun c => (escapeOf c).data).flatten =
        (l2.map fun c => (escapeOf c).data).flatten → l1 = l2
  | [], [], _ => rfl
  | [], c2 :: r2, h => by
    simp only [List.map_nil, List.flatten_nil, List.map_cons, List.flatten_cons] at h
    rcases escapeOf_cases c2 with ⟨h2, _⟩ | ⟨x, h2, _⟩ <;> rw [h2] at h <;> simp at h
  | c1 :: r1, [], h => by
    simp only [List.map_nil, List.flatten_nil, List.map_cons, List.flatten_cons] at h
    rcases escapeOf_cases c1 with ⟨h1, _⟩ | ⟨x, h1, _⟩ <;> rw [h1] at h <;> simp at h
  | c1 :: r1, c2 :: r2, h => by
    simp only [List.map_cons, List.flatten_cons] at h
    rcases escapeOf_cases c1 with ⟨h1, n1, _⟩ | ⟨x1, h1, _, _, _, k1⟩ <;>
    rcases escapeOf_cases c2 with ⟨h2, n2, _⟩ | ⟨x2, h2, _, _, _, k2⟩ <;>
    rw [h1, h2] at h <;>
    simp only [List.cons_append, List.nil_append, List.cons.injEq, true_and] at h
    · rw [h.1, escapes_injective r1 r2 h.2]
    · exact absurd h.1 n1
    · exact absurd h.1.symm n2
    · have hx := h.1
      have hr := escapes_injective r1 r2 h.2
      have hc : c1 = c2 := by
        rcases k1 with ⟨a, b⟩ | ⟨a, b⟩ | ⟨a, b⟩ | ⟨a, b⟩ | ⟨a, b⟩ <;>
        rcases k2 with ⟨a2, b2⟩ | ⟨a2, b2⟩ | ⟨a2, b2⟩ | ⟨a2, b2⟩ | ⟨a2, b2⟩ <;>
        first
          | (exfalso; rw [b, b2] at hx; revert hx; decide)
          | (rw [a, a2])
      rw [hc, hr]

theorem escapeString_injective (s t : String) (h : escapeString s = escapeString t) :
    s = t := by
  apply String.ext
  apply escapes_injective
  rw [← escapeString_data, ← escapeString_data, h]

theorem not_quote_of_unquoted (s : String) (d : Nat) (h : needsQuoting s d = false) :
    ∀ c ∈ s.data, isStructuralRune c = false := by
  unfold needsQuoting at h
  split_ifs at h
  exact needsQuotingRunes_false d s.data h

/-- C26: for every delimiter, two different strings have different scalar encodings:
`quoteString` is injective. -/
theorem quoteString_injective (d : Nat) (s t : String) (hst : s ≠ t) :
    quoteString s d ≠ quoteString t d := by
  intro h
  have hquoted : ∀ a b : String, needsQuoting a d = true → needsQuoting b d = false →
      quoteString a d ≠ quoteString b d := by
    intro a b ha hb hab
    unfold quoteString at hab
    rw [if_pos ha, if_neg (by simp [hb])] at hab
    have hd := congrArg String.data hab
    simp only [String.data_append] at hd
    have hmem : '"' ∈ b.data := by
      rw [← hd]
      simp
    have := not_quote_of_unquoted b d hb '"' hmem
    exact absurd this (by decide)
  cases hs : needsQuoting s d <;> cases ht : needsQuoting t d
  · unfold quoteString at h
    rw [if_neg (by simp [hs]), if_neg (by simp [ht])] at h
    exact hst h
  · exact hquoted t s ht hs h.symm
  · exact hquoted s t hs ht h
  · unfold quoteString at h
    rw [if_pos hs, if_pos ht] at h
    have hd := congrArg String.data h
    simp only [String.data_append] at hd
    have h1 : (escapeString s).data = (escapeString t).data := by
      have h2 := List.append_cancel_left (List.append_cancel_right hd)
      exact h2
    exact hst (escapeString_injective s t (String.ext h1))

theorem quoteString_injective_witness :
    "a" ≠ "\"a\"" ∧ quoteString "a" ','.toNat ≠ quoteString "\"a\"" ','.toNat ∧
    quoteString "a" ','.toNat = "a" ∧ quoteString "\"a\"" ','.toNat = "\"\\\"a\\\"\"" :=
  ⟨by decide, quoteString_injective ','.toNat "a" "\"a\"" (by decide), by decide, by decide⟩

theorem escapes_no_raw :
    ∀ (l : List Char), ∀ c ∈ (l.map fun c => (escapeOf c).data).flatten,
      c ≠ '\n' ∧ c ≠ '\r' ∧ c ≠ '\t'
  | [], c, hc => by simp at hc
  | a :: rest, c, hc => by
    simp only [List.map_cons, List.flatten_cons, List.mem_append] at hc
    rcases hc with hc | hc
    · rcases escapeOf_cases a with ⟨h1, _, _, n3, n4, n5⟩ | ⟨x, h1, m1, m2, m3, _⟩
      · rw [h1, List.mem_singleton] at hc
        rw [hc]
        exact ⟨n3, n4, n5⟩
      · rw [h1] at hc
        simp only [List.mem_cons, List.mem_singleton, List.not_mem_nil, or_false] at hc
        rcases hc with hc | hc
        · rw [hc]; exact ⟨by decide, by decide, by decide⟩
        · rw [hc]; exact ⟨m1, m2, m3⟩
    · exact escapes_no_raw rest c hc

theorem escapes_quote_escaped :
    ∀ (l pre post : List Char),
      (l.map fun c => (escapeOf c).data).flatten = pre ++ '"' :: post →
      pre.getLast? = some '\\'
  | [], pre, post, h => by
    cases pre <;> simp at h
  | a :: rest, pre, post, h => by
    simp only [List.map_cons, List.flatten_cons] at h
    rcases escapeOf_cases a with ⟨h1, _, n2, _⟩ | ⟨x, h1, _, _, _, _⟩
    · rw [h1] at h
      cases pre with
      | nil =>
        simp only [List.cons_append, List.nil_append, List.cons.injEq] at h
        exact absurd h.1 n2
      | cons p pre1 =>
        simp only [List.cons_append, List.nil_append, List.cons.injEq] at h
        have ih := escapes_quote_escaped rest pre1 post h.2
        cases pre1 with
        | nil => simp at ih
        | cons q pre2 => rw [List.getLast?_cons_cons]; exact ih
    · rw [h1] at h
      cases pre with
      | nil =>
        simp only [List.cons_append, List.nil_append, List.cons.injEq] at h
        exact absurd h.1 (by decide)
      | cons p pre1 =>
        simp only [List.cons_append, List.nil_append, List.cons.injEq] at h
        cases pre1 with
        | nil =>
          rw [← h.1]
          rfl
        | cons q pre2 =>
          simp only [List.cons_append, List.cons.injEq] at h
          have ih := escapes_quote_escaped rest pre2 post h.2.2
          cases pre2 with
          | nil => simp at ih
          | cons r pre3 =>
            rw [List.getLast?_cons_cons, List.getLast?_cons_cons]
            exact ih

/-- C27: for every string and delimiter the text `quoteString` returns holds no raw
newline, carriage return or tab; when the string is quoted, the text is the
escaped string between two double quotes and every double quote of the
escaped string comes right after a backslash; when it is not, the text holds
no double quote.  A key as `formatKey` writes it holds no raw newline,
carriage return or tab either. -/
theorem quoteString_one_line (s : String) (d : Nat) :
    (∀ c ∈ (quoteString s d).data, c ≠ '\n' ∧ c ≠ '\r' ∧ c ≠ '\t') ∧
    (needsQuoting s d = true →
      (quoteString s d).data = '"' :: (escapeString s).data ++ ['"'] ∧
      ∀ pre post, (escapeString s).data = pre ++ '"' :: post → pre.getLast? = some '\\') ∧
    (needsQuoting s d = false → quoteString s d = s ∧ '"' ∉ s.data) ∧
    (∀ c ∈ (formatKey s).data, c ≠ '\n' ∧ c ≠ '\r' ∧ c ≠ '\t') := by
  have hq : ∀ (a : String) (b : Nat), ∀ c ∈ (quoteString a b).data,
      c ≠ '\n' ∧ c ≠ '\r' ∧ c ≠ '\t' := by
    intro a b c hc
    unfold quoteString at hc
    cases hn : needsQuoting a b with
    | true =>
      rw [if_pos hn] at hc
      simp only [String.data_append, List.mem_append] at hc
      rcases hc with (hc | hc) | hc
      · have : c = '"' := by simpa using hc
        rw [this]; exact ⟨by decide, by decide, by decide⟩
      · rw [escapeString_data] at hc
        exact escapes_no_raw _ c hc
      · have : c = '"' := by simpa using hc
        rw [this]; exact ⟨by decide, by decide, by decide⟩
    | false =>
      rw [if_neg (by simp [hn])] at hc
      have h1 := not_quote_of_unquoted a b hn c hc
      simp only [isStructuralRune, Bool.or_eq_false_iff, beq_eq_false_iff_ne, ne_eq] at h1
      exact ⟨h1.1.1.2, h1.1.2, h1.2⟩
  refine ⟨hq s d, ?_, ?_, ?_⟩
  · intro hn
    refine ⟨?_, ?_⟩
    · unfold quoteString
      rw [if_pos hn]
      simp only [String.data_append]
      rfl
    · intro pre post h
      rw [escapeString_data] at h
      exact escapes_quote_escaped _ pre post h
  · intro hn
    refine ⟨?_, ?_⟩
    · unfold quoteString
      rw [if_neg (by simp [hn])]
    · intro hmem
      have := not_quote_of_unquoted s d hn '"' hmem
      exact absurd this (by decide)
  · intro c hc
    unfold formatKey at hc
    split_ifs at hc with hk
    · obtain ⟨c0, rest, hdata, h0, hrest⟩ := (unquotedKeyRe_iff s).mp hk
      rw [hdata] at hc
      have hcl : isAsciiLetter c = true ∨ isDecimalDigit c = true ∨ c = '_' ∨ c = '.' := by
        rcases List.mem_cons.mp hc with hc | hc
        · rw [hc]
          rcases h0 with h0 | h0
          · exact Or.inl h0
          · exact Or.inr (Or.inr (Or.inl h0))
        · exact hrest c hc
      refine ⟨?_, ?_, ?_⟩ <;>
      · intro hcc
        rw [hcc] at hcl
        revert hcl
        decide
    · exact hq s _ c hc

/-! ### Indentation depth -/

theorem nb_congr {f g : Encoder → Result} (hf : NeverBelow f) (h : ∀ e, g e = f e) :
    NeverBelow g := by
  have : g = f := funext h
  rw [this]; exact hf

theorem nb_pure {p : Encoder → Encoder} (hp : Appends p) :
    NeverBelow (fun e => (p e, none)) :=
  fun e => le_of_eq (hp e "").2.2.symm

theorem nb_fail (err : EncodeError) {p : Encoder → Encoder} (hp : Appends p) :
    NeverBelow (fun e => (p e, some err)) :=
  fun e => le_of_eq (hp e "").2.2.symm

theorem nb_pre {f : Encoder → Result} {p : Encoder → Encoder} (hf : NeverBelow f)
    (hp : Appends p) : NeverBelow (fun e => f (p e)) := by
  intro e
  have h1 := hf (p e)
  rw [(hp e "").2.2] at h1
  exact h1

theorem nb_andThen {f g : Encoder → Result} (hf : NeverBelow f) (hg : NeverBelow g) :
    NeverBelow (fun e => (f e).andThen g) := by
  intro e
  have h1 := hf e
  beta_reduce
  rcases hfe : f e with ⟨e1, _ | err⟩
  · rw [hfe] at h1
    simp only [Result.andThen]
    exact le_trans h1 (hg e1)
  · rw [hfe] at h1
    simp only [Result.andThen]
    exact h1

theorem nb_indented_pre {f : Encoder → Result} (hw : WellBehaved f) (hf : NeverBelow f)
    (t : String) :
    NeverBelow (fun e => (f (e.WriteString t).incIndent).andThen fun e2 =>
      (e2.decIndent, none)) := by
  intro e
  have h1 := hf (e.WriteString t).incIndent
  have h3 := (hw (e.WriteString t).incIndent "").2.2
  beta_reduce
  rcases hfe : f (e.WriteString t).incIndent with ⟨e1, _ | err⟩
  · rw [hfe] at h3
    have hk := h3 rfl
    simp only [Result.andThen, Encoder.decIndent]
    simp only [Encoder.incIndent, Encoder.WriteString] at hk
    omega
  · rw [hfe] at h1
    simp only [Result.andThen]
    simp only [Encoder.incIndent, Encoder.WriteString] at h1
    omega

mutual

theorem encode_nb (env : GoEnv) (v : Value) (root : Bool) :
    NeverBelow (fun e => e.encode env v root) :=
  match v with
  | .null => nb_congr (nb_pure (appends_write "null")) (fun e => by rw [Encoder.encode])
  | .bool true =>
    nb_congr (nb_pure (appends_write "true")) (fun e => by rw [Encoder.encode]; rfl)
  | .bool false =>
    nb_congr (nb_pure (appends_write "false")) (fun e => by rw [Encoder.encode]; rfl)
  | .int val => nb_congr (nb_pure (appends_write _)) (fun e => by rw [Encoder.encode])
  | .int64 val => nb_congr (nb_pure (appends_write _)) (fun e => by rw [Encoder.encode])
  | .float64 val => nb_congr (nb_pure (appends_write _)) (fun e => by rw [Encoder.encode])
  | .string val => nb_congr (nb_pure (appends_write _)) (fun e => by rw [Encoder.encode])
  | .array val => nb_congr (encodeArray_nb env val) (fun e => by rw [Encoder.encode])
  | .object val => nb_congr (encodeObject_nb env val root) (fun e => by rw [Encoder.encode])
  | .other t => nb_congr (nb_fail _ appends_id) (fun e => by rw [Encoder.encode])
termination_by (sizeOf v, 0)

theorem encodeObject_nb (env : GoEnv) (obj : List (String × Value)) (root : Bool) :
    NeverBelow (fun e => e.encodeObject env obj root) :=
  nb_congr (encodeObjectLoop_nb env obj root (rangeKeys obj) 0)
    (fun e => by rw [Encoder.encodeObject])
termination_by (sizeOf obj, (rangeKeys obj).length + 2)

theorem encodeValueOf_nb (env : GoEnv) (obj : List (String × Value)) (k : String)
    (rank : Nat) : NeverBelow (fun e => e.encodeValueOf env (mapIndex obj k)) :=
  match h : mapIndex obj k with
  | .object val => by
    unfold Encoder.encodeValueOf
    by_cases hl : val.length = 0
    · simp only [hl, if_true]
      exact nb_pure (appends_write _)
    · simp only [hl, if_false]
      exact nb_indented_pre (encodeObject_wb env val false) (encodeObject_nb env val false) "\n"
  | .array val => encodeArrayValue_nb env val
  | .null => nb_pre (encode_nb env .null false) (appends_write " ")
  | .bool b => nb_pre (encode_nb env (.bool b) false) (appends_write " ")
  | .int b => nb_pre (encode_nb env (.int b) false) (appends_write " ")
  | .int64 b => nb_pre (encode_nb env (.int64 b) false) (appends_write " ")
  | .float64 b => nb_pre (encode_nb env (.float64 b) false) (appends_write " ")
  | .string b => nb_pre (encode_nb env (.string b) false) (appends_write " ")
  | .other b => nb_pre (encode_nb env (.other b) false) (appends_write " ")
termination_by (sizeOf obj, rank + 1)
decreasing_by
  all_goals simp_wf
  all_goals simp only [Prod.lex_def, true_and]
  · have := sizeOf_mapIndex_object h; omega
  · have := sizeOf_mapIndex_array h; omega
  all_goals first
    | omega
    | (have hle := sizeOf_mapIndex_le obj k; rw [h] at hle; simp at hle; omega)

theorem encodeObjectLoop_nb (env : GoEnv) (obj : List (String × Value)) (root : Bool)
    (keys : List String) (i : Nat) :
    NeverBelow (fun e => e.encodeObjectLoop env obj root keys i) :=
  match keys with
  | [] => nb_congr (nb_pure appends_id) (fun e => encodeObjectLoop_nil env e obj root i)
  | k :: rest =>
    nb_congr
      (nb_andThen
        (nb_pre (encodeValueOf_nb env obj k rest.length)
          (appends_comp (appends_comp (appends_ite _ appends_writeIndent appends_id)
            (appends_write (formatKey k))) (appends_write ":")))
        (nb_pre (encodeObjectLoop_nb env obj root rest (i + 1))
          (appends_sep ((i : Int) < ((rangeKeys obj).length : Int) - 1) "\n")))
      (fun e => encodeObjectLoop_cons env e obj root k rest i)
termination_by (sizeOf obj, keys.length + 1)

theorem encodeArrayValue_nb (env : GoEnv) (arr : List Value) :
    NeverBelow (fun e => e.encodeArrayValue env arr) := by
  by_cases h0 : arr.length = 0
  · exact nb_congr (nb_pure (appends_write (lenHeader arr.length ++ ":")))
      (fun e => by rw [encodeArrayValue_unfold, if_pos h0])
  by_cases h1 : allPrimitives arr = true
  · exact nb_congr (nb_pre (inlineLoop_nb env arr 0) (appends_write _))
      (fun e => by rw [encodeArrayValue_unfold, if_neg h0, if_pos h1])
  by_cases h2 : ((uniformObjectFields arr).2 &&
      decide ((uniformObjectFields arr).1.length > 0)) = true
  · exact nb_congr
      (nb_indented_pre (tabularLoop_wb env (uniformObjectFields arr).1 arr.length arr 0)
        (tabularLoop_nb env (uniformObjectFields arr).1 arr.length arr 0) _)
      (fun e => by rw [encodeArrayValue_unfold, if_neg h0, if_neg h1, if_pos h2])
  · exact nb_congr
      (nb_indented_pre (listLoop_wb env arr.length arr 0) (listLoop_nb env arr.length arr 0) _)
      (fun e => by rw [encodeArrayValue_unfold, if_neg h0, if_neg h1, if_neg h2])
termination_by (sizeOf arr, 2)

theorem inlineLoop_nb (env : GoEnv) (arr : List Value) (i : Nat) :
    NeverBelow (fun e => e.inlineLoop env arr i) :=
  match arr with
  | [] => nb_congr (nb_pure appends_id) (fun e => inlineLoop_nil env e i)
  | v :: rest =>
    nb_congr
      (nb_andThen (nb_pre (encode_nb env v false) (appends_sep (i > 0) ","))
        (inlineLoop_nb env rest (i + 1)))
      (fun e => inlineLoop_cons env e v rest i)
termination_by (sizeOf arr, 1)

theorem tabularLoop_nb (env : GoEnv) (fields : List String) (n : Nat) (arr : List Value)
    (i : Nat) : NeverBelow (fun e => e.tabularLoop env fields n arr i) :=
  match arr with
  | [] => nb_congr (nb_pure appends_id) (fun e => tabularLoop_nil env e fields n i)
  | .object obj :: rest =>
    nb_congr
      (nb_andThen (nb_pre (fieldLoop_nb env obj fields 0) appends_writeIndent)
        (nb_pre (tabularLoop_nb env fields n rest (i + 1))
          (appends_sep ((i : Int) < (n : Int) - 1) "\n")))
      (fun e => tabularLoop_object env e fields n obj rest i)
  | .null :: rest => nb_congr (nb_fail _ appends_writeIndent)
      (fun e => tabularLoop_panic env e fields n _ rest i (by simp))
  | .bool _ :: rest => nb_congr (nb_fail _ appends_writeIndent)
      (fun e => tabularLoop_panic env e fields n _ rest i (by simp))
  | .int _ :: rest => nb_congr (nb_fail _ appends_writeIndent)
      (fun e => tabularLoop_panic env e fields n _ rest i (by simp))
  | .int64 _ :: rest => nb_congr (nb_fail _ appends_writeIndent)
      (fun e => tabularLoop_panic env e fields n _ rest i (by simp))
  | .float64 _ :: rest => nb_congr (nb_fail _ appends_writeIndent)
      (fun e => tabularLoop_panic env e fields n _ rest i (by simp))
  | .string _ :: rest => nb_congr (nb_fail _ appends_writeIndent)
      (fun e => tabularLoop_panic env e fields n _ rest i (by simp))
  | .array _ :: rest => nb_congr (nb_fail _ appends_writeIndent)
      (fun e => tabularLoop_panic env e fields n _ rest i (by simp))
  | .other _ :: rest => nb_congr (nb_fail _ appends_writeIndent)
      (fun e => tabularLoop_panic env e fields n _ rest i (by simp))
termination_by (sizeOf arr, 1)

theorem fieldLoop_nb (env : GoEnv) (obj : List (String × Value)) (fields : List String)
    (j : Nat) : NeverBelow (fun e => e.fieldLoop env obj fields j) :=
  match fields with
  | [] => nb_congr (nb_pure appends_id) (fun e => fieldLoop_nil env e obj j)
  | f :: rest =>
    nb_congr
      (nb_andThen (nb_pre (encode_nb env (mapIndex obj f) false) (appends_sep (j > 0) ","))
        (fieldLoop_nb env obj rest (j + 1)))
      (fun e => fieldLoop_cons env e obj f rest j)
termination_by (sizeOf obj, fields.length)
decreasing_by
  all_goals simp_wf
  all_goals simp only [Prod.lex_def, true_and]
  all_goals first
    | omega
    | (have hle := sizeOf_mapIndex_le obj ‹String›; omega)

theorem encodeListElem_nb (env : GoEnv) (v : Value) :
    NeverBelow (fun e => e.encodeListElem env v) :=
  match v with
  | .object val => by
    unfold Encoder.encodeListElem
    by_cases hl : val.length = 0
    · simp only [hl, if_true]
      exact nb_pure (appends_write _)
    · simp only [hl, if_false]
      exact nb_indented_pre (encodeObject_wb env val false) (encodeObject_nb env val false) "\n"
  | .array val => encode_nb env (.array val) false
  | .null => encode_nb env .null false
  | .bool b => encode_nb env (.bool b) false
  | .int b => encode_nb env (.int b) false
  | .int64 b => encode_nb env (.int64 b) false
  | .float64 b => encode_nb env (.float64 b) false
  | .string b => encode_nb env (.string b) false
  | .other b => encode_nb env (.other b) false
termination_by (sizeOf v, 1)

theorem listLoop_nb (env : GoEnv) (n : Nat) (arr : List Value) (i : Nat) :
    NeverBelow (fun e => e.listLoop env n arr i) :=
  match arr with
  | [] => nb_congr (nb_pure appends_id) (fun e => listLoop_nil env e n i)
  | v :: rest =>
    nb_congr
      (nb_andThen
        (nb_pre (encodeListElem_nb env v)
          (appends_comp appends_writeIndent (appends_write "- ")))
        (nb_pre (listLoop_nb env n rest (i + 1))
          (appends_sep ((i : Int) < (n : Int) - 1) "\n")))
      (fun e => listLoop_cons env e n v rest i)
termination_by (sizeOf arr, 1)

theorem encodeArray_nb (env : GoEnv) (arr : List Value) :
    NeverBelow (fun e => e.encodeArray env arr) :=
  nb_congr (encodeArrayValue_nb env arr) (fun e => by rw [Encoder.encodeArray])
termination_by (sizeOf arr, 3)

end

/-- C28: every successful call of `encode`, `encodeObject` or `encodeArrayValue` leaves
the indentation depth as it found it, for every encoder state and every value;
and a call, successful or not, never leaves the depth below the one it found,
so that it is not negative when it was not negative before the call, as in
the state `NewEncoder` returns. -/
theorem indent_restored (env : GoEnv) (e : Encoder) :
    (∀ (v : Value) (root : Bool),
      ((e.encode env v root).2 = none → (e.encode env v root).1.indent = e.indent) ∧
      e.indent ≤ (e.encode env v root).1.indent ∧
      (0 ≤ e.indent → 0 ≤ (e.encode env v root).1.indent)) ∧
    (∀ (obj : List (String × Value)) (root : Bool),
      ((e.encodeObject env obj root).2 = none →
        (e.encodeObject env obj root).1.indent = e.indent) ∧
      e.indent ≤ (e.encodeObject env obj root).1.indent ∧
      (0 ≤ e.indent → 0 ≤ (e.encodeObject env obj root).1.indent)) ∧
    (∀ arr : List Value,
      ((e.encodeArrayValue env arr).2 = none →
        (e.encodeArrayValue env arr).1.indent = e.indent) ∧
      e.indent ≤ (e.encodeArrayValue env arr).1.indent ∧
      (0 ≤ e.indent → 0 ≤ (e.encodeArrayValue env arr).1.indent)) ∧
    NewEncoder.indent = 0 := by
  refine ⟨fun v root => ?_, fun obj root => ?_, fun arr => ?_, rfl⟩
  · have h1 := (encode_wb env v root e "").2.2
    have h2 := encode_nb env v root e
    exact ⟨h1, h2, fun h0 => le_trans h0 h2⟩
  · have h1 := (encodeObject_wb env obj root e "").2.2
    have h2 := encodeObject_nb env obj root e
    exact ⟨h1, h2, fun h0 => le_trans h0 h2⟩
  · have h1 := (encodeArrayValue_wb env arr e "").2.2
    have h2 := encodeArrayValue_nb env arr e
    exact ⟨h1, h2, fun h0 => le_trans h0 h2⟩

end Toon

namespace Heuristics

/-! ### Junction detection -/

theorem fkColumnsOf_contains (t : Table) (c : String) :
    (fkColumnsOf t.OutgoingForeignKeys).contains c = isFKColumn t c := by
  unfold fkColumnsOf isFKColumn
  induction t.OutgoingForeignKeys with
  | nil => rfl
  | cons fk rest ih =>
    rw [List.map_cons, List.flatten_cons, List.any_cons, ← ih]
    rw [Bool.eq_iff_iff]
    simp only [List.contains_eq_any_beq, List.any_append, Bool.or_eq_true]

theorem pkAllLoop_true (fkColumns : List String) :
    ∀ (cols : List String) (acc : Bool),
      pkAllLoop fkColumns cols acc = true ↔
        acc = true ∧ ∀ c ∈ cols, fkColumns.contains c = true
  | [], acc => by simp [pkAllLoop]
  | c :: rest, acc => by
    unfold pkAllLoop
    by_cases h : fkColumns.contains c = true
    · rw [if_neg (by rw [h]; decide), pkAllLoop_true fkColumns rest acc]
      constructor
      · rintro ⟨h1, h2⟩
        refine ⟨h1, fun x hx => ?_⟩
        rcases List.mem_cons.mp hx with hx | hx
        · rw [hx]; exact h
        · exact h2 x hx
      · rintro ⟨h1, h2⟩
        exact ⟨h1, fun x hx => h2 x (List.mem_cons_of_mem _ hx)⟩
    · rw [if_pos (by rw [Bool.not_eq_true] at h; rw [h]; rfl)]
      constructor
      · intro h1
        exact absurd h1 Bool.false_ne_true
      · rintro ⟨_, h2⟩
        exact absurd (h2 c (List.mem_cons_self _ _)) h

theorem pkColumnsOf_eq_find (cs : List Constraint) :
    pkColumnsOf cs =
      match cs.find? fun con => con.ConstraintType == "PRIMARY KEY" with
      | some con => con.Columns
      | none => [] := by
  induction cs with
  | nil => rfl
  | cons con rest ih =>
    unfold pkColumnsOf
    by_cases h : con.ConstraintType = "PRIMARY KEY"
    · rw [if_pos h, List.find?_cons_of_pos _ (by simpa using h)]
    · rw [if_neg h, List.find?_cons_of_neg _ (by simpa using h)]
      exact ih

theorem nonFKLoop_eq (ToLower : String → String) (t : Table) :
    ∀ (cols : List Column) (n : Nat),
      nonFKLoop ToLower (fkColumnsOf t.OutgoingForeignKeys) cols n =
        n + (cols.filter (isExtraColumn ToLower t)).length
  | [], n => by simp [nonFKLoop]
  | col :: rest, n => by
    unfold nonFKLoop
    rw [fkColumnsOf_contains]
    by_cases h : isExtraColumn ToLower t col = true
    · have h1 := h
      unfold isExtraColumn at h1
      rw [if_pos h1, nonFKLoop_eq ToLower t rest (n + 1), List.filter_cons_of_pos h,
        List.length_cons]
      omega
    · have h1 := h
      unfold isExtraColumn at h1
      rw [if_neg h1, nonFKLoop_eq ToLower t rest n, List.filter_cons_of_neg h]

theorem junctionPatternLoop_spec (name : String) (fkCount : Nat) (table : Table) :
    ∀ pats : List String,
      ((junctionPatternLoop name fkCount table pats).IsJunction = true ↔
        (∃ p ∈ pats, Contains name p = true) ∧ 2 ≤ fkCount) ∧
      ((junctionPatternLoop name fkCount table pats).IsJunction = true →
        (junctionPatternLoop name fkCount table pats).JunctionReasoning ≠ "")
  | [] => by simp [junctionPatternLoop]
  | p :: rest => by
    unfold junctionPatternLoop
    by_cases h : (Contains name p && decide (fkCount ≥ 2)) = true
    · rw [if_pos h]
      simp only [Bool.and_eq_true, decide_eq_true_eq] at h
      refine ⟨⟨fun _ => ⟨⟨p, List.mem_cons_self _ _, h.1⟩, h.2⟩, fun _ => rfl⟩,
        fun _ => by dsimp only; decide⟩
    · rw [if_neg h]
      obtain ⟨ih1, ih2⟩ := junctionPatternLoop_spec name fkCount table rest
      refine ⟨?_, ih2⟩
      rw [ih1]
      simp only [Bool.and_eq_true, decide_eq_true_eq, not_and] at h
      constructor
      · rintro ⟨⟨q, hq, hc⟩, hk⟩
        exact ⟨⟨q, List.mem_cons_of_mem _ hq, hc⟩, hk⟩
      · rintro ⟨⟨q, hq, hc⟩, hk⟩
        rcases List.mem_cons.mp hq with hq | hq
        · subst hq
          exact absurd hk (h hc)
        · exact ⟨⟨q, hq, hc⟩, hk⟩

/-- C19: after `detectJunctionTable`, `IsJunction` is true if and only if the table has at
least 2 outgoing foreign keys and (a) the first `PRIMARY KEY` constraint has a
non-empty column list all of whose columns are from-columns of an outgoing
foreign key, or (b) at most 2 columns are neither foreign-key columns nor,
lower-cased, metadata columns and the table has at most 8 columns, or (c) the
lower-cased table name contains one of the junction patterns.  A table with
fewer than 2 outgoing foreign keys is not a junction, and `JunctionReasoning`
is not empty when `IsJunction` is true after the call.  The table of the test
with a composite primary key is a junction, the table with one foreign key is
not. -/
theorem detectJunctionTable_spec (ToLower : String → String) (t : Table) :
    ((detectJunctionTable ToLower t).IsJunction = true ↔
      2 ≤ t.OutgoingForeignKeys.length ∧
      ((∃ con, (t.Constraints.find? fun con => con.ConstraintType == "PRIMARY KEY") = some con ∧
          con.Columns ≠ [] ∧ ∀ c ∈ con.Columns, ∃ fk ∈ t.OutgoingForeignKeys, c ∈ fk.FromColumns) ∨
       ((t.Columns.filter (isExtraColumn ToLower t)).length ≤ 2 ∧ t.Columns.length ≤ 8) ∨
       ∃ p ∈ ["_to_", "_x_", "_has_", "_rel_", "_link_", "_map_", "_assoc_"],
          Contains (ToLower t.TableName) p = true)) ∧
    (t.OutgoingForeignKeys.length < 2 → (detectJunctionTable ToLower t).IsJunction = false) ∧
    ((detectJunctionTable ToLower t).IsJunction = true →
      (detectJunctionTable ToLower t).JunctionReasoning ≠ "") ∧
    (detectJunctionTable ToLower sampleUserRoles).IsJunction = true ∧
    (detectJunctionTable ToLower sampleOrders).IsJunction = false := by
  have hpk : pkAllLoop (fkColumnsOf t.OutgoingForeignKeys) (pkColumnsOf t.Constraints)
      (decide ((pkColumnsOf t.Constraints).length > 0)) = true ↔
      ∃ con, (t.Constraints.find? fun con => con.ConstraintType == "PRIMARY KEY") = some con ∧
        con.Columns ≠ [] ∧ ∀ c ∈ con.Columns, ∃ fk ∈ t.OutgoingForeignKeys, c ∈ fk.FromColumns := by
    rw [pkAllLoop_true, pkColumnsOf_eq_find]
    have hmem : ∀ c, (fkColumnsOf t.OutgoingForeignKeys).contains c = true ↔
        ∃ fk ∈ t.OutgoingForeignKeys, c ∈ fk.FromColumns := by
      intro c
      rw [fkColumnsOf_contains]
      simp [isFKColumn]
    simp only [hmem, decide_eq_true_eq]
    cases hfind : t.Constraints.find? fun con => con.ConstraintType == "PRIMARY KEY" with
    | none => simp
    | some con =>
      simp only [Option.some.injEq, exists_eq_left', List.length_pos, ne_eq]
  have hcount := nonFKLoop_eq ToLower t t.Columns 0
  rw [Nat.zero_add] at hcount
  have hpat := junctionPatternLoop_spec (ToLower t.TableName) t.OutgoingForeignKeys.length t
    junctionPatterns
  refine ⟨?_, ?_, ?_, ?_, ?_⟩
  · unfold detectJunctionTable
    simp only []
    by_cases hfk : t.OutgoingForeignKeys.length < 2
    · rw [if_pos hfk]
      simp only [Bool.false_eq_true, false_iff, not_and]
      intro h
      omega
    · rw [if_neg hfk]
      have hfk2 : 2 ≤ t.OutgoingForeignKeys.length := by omega
      by_cases h1 : pkAllLoop (fkColumnsOf t.OutgoingForeignKeys) (pkColumnsOf t.Constraints)
          (decide ((pkColumnsOf t.Constraints).length > 0)) = true
      · rw [if_pos h1]
        exact ⟨fun _ => ⟨hfk2, Or.inl (hpk.mp h1)⟩, fun _ => rfl⟩
      · rw [if_neg h1, hcount]
        by_cases h2 : t.OutgoingForeignKeys.length ≥ 2 ∧
            (t.Columns.filter (isExtraColumn ToLower t)).length ≤ 2 ∧ t.Columns.length ≤ 8
        · rw [if_pos h2]
          exact ⟨fun _ => ⟨hfk2, Or.inr (Or.inl h2.2)⟩, fun _ => rfl⟩
        · rw [if_neg h2, hpat.1]
          constructor
          · rintro ⟨h3, _⟩
            exact ⟨hfk2, Or.inr (Or.inr h3)⟩
          · rintro ⟨_, h3 | h3 | h3⟩
            · exact absurd (hpk.mpr h3) h1
            · exact absurd ⟨hfk2, h3⟩ h2
            · exact ⟨h3, hfk2⟩
  · intro hfk
    unfold detectJunctionTable
    simp only []
    rw [if_pos hfk]
  · unfold detectJunctionTable
    simp only []
    by_cases hfk : t.OutgoingForeignKeys.length < 2
    · rw [if_pos hfk]
      intro h
      exact absurd h (by simp)
    · rw [if_neg hfk]
      split_ifs
      · intro _; dsimp only; decide
      · intro _; dsimp only; decide
      · exact hpat.2
  · simp [detectJunctionTable, sampleUserRoles, fkColumnsOf, pkColumnsOf, pkAllLoop]
  · simp [detectJunctionTable, sampleOrders]

/-! ### Table tags -/

theorem applyTableTags_eq_filter (ToLower : String → String) (t : Table) :
    (applyTableTags ToLower t).Tags =
      ["core", "junction", "lookup", "audit", "config", "log"].filter
        (tagApplies ToLower t) := by
  unfold applyTableTags
  simp only [List.filter, tagApplies]
  by_cases h1 : t.IncomingForeignKeys.length ≥ 3 <;>
  cases h2 : t.IsJunction <;>
  cases h3 : isLookupTable ToLower t <;>
  cases h4 : isAuditTable ToLower t <;>
  cases h5 : isConfigTable ToLower t <;>
  cases h6 : isLogTable ToLower t <;>
  simp [h1]

theorem mem_applyTableTags (ToLower : String → String) (t : Table) (tag : String) :
    tag ∈ (applyTableTags ToLower t).Tags ↔
      tag ∈ ["core", "junction", "lookup", "audit", "config", "log"] ∧
        tagApplies ToLower t tag = true := by
  rw [applyTableTags_eq_filter, List.mem_filter]

/-- C20: after `applyTableTags`, `Tags` is the sub-list of `core`, `junction`, `lookup`,
`audit`, `config`, `log`, in that order and without duplicates, that holds
`core` iff the table has at least 3 incoming foreign keys, `junction` iff
`IsJunction`, `lookup` iff `isLookupTable`, `audit` iff `isAuditTable`,
`config` iff `isConfigTable` and `log` iff `isLogTable`; the tags the table
had before the call play no part.  The table of the test with three incoming
foreign keys gets the tag `core`. -/
theorem applyTableTags_spec (ToLower : String → String) (t : Table) :
    (applyTableTags ToLower t).Tags =
      ["core", "junction", "lookup", "audit", "config", "log"].filter (tagApplies ToLower t) ∧
    (applyTableTags ToLower t).Tags.Sublist
      ["core", "junction", "lookup", "audit", "config", "log"] ∧
    (applyTableTags ToLower t).Tags.Nodup ∧
    ("core" ∈ (applyTableTags ToLower t).Tags ↔ 3 ≤ t.IncomingForeignKeys.length) ∧
    ("junction" ∈ (applyTableTags ToLower t).Tags ↔ t.IsJunction = true) ∧
    ("lookup" ∈ (applyTableTags ToLower t).Tags ↔ isLookupTable ToLower t = true) ∧
    ("audit" ∈ (applyTableTags ToLower t).Tags ↔ isAuditTable ToLower t = true) ∧
    ("config" ∈ (applyTableTags ToLower t).Tags ↔ isConfigTable ToLower t = true) ∧
    ("log" ∈ (applyTableTags ToLower t).Tags ↔ isLogTable ToLower t = true) ∧
    (∀ tags : List String,
      (applyTableTags ToLower { t with Tags := tags }).Tags = (applyTableTags ToLower t).Tags) ∧
    "core" ∈ (applyTableTags ToLower sampleUsers).Tags := by
  have heq := applyTableTags_eq_filter ToLower t
  have hsub : (applyTableTags ToLower t).Tags.Sublist
      ["core", "junction", "lookup", "audit", "config", "log"] := by
    rw [heq]
    exact List.filter_sublist _
  have hmem := mem_applyTableTags ToLower t
  refine ⟨heq, hsub, hsub.nodup (by decide), ?_, ?_, ?_, ?_, ?_, ?_, ?_, ?_⟩
  · rw [hmem]; simp [tagApplies]
  · rw [hmem]; simp [tagApplies]
  · rw [hmem]; simp [tagApplies]
  · rw [hmem]; simp [tagApplies]
  · rw [hmem]; simp [tagApplies]
  · rw [hmem]; simp [tagApplies]
  · intro tags
    rfl
  · rw [mem_applyTableTags]
    simp [tagApplies, sampleUsers]

/-! ### Cardinality of a foreign key -/

theorem columnsMatchLoop_iff (set : List String) :
    ∀ cols2 : List String, columnsMatchLoop set cols2 = true ↔ ∀ c ∈ cols2, c ∈ set
  | [] => by simp [columnsMatchLoop]
  | c :: rest => by
    unfold columnsMatchLoop
    by_cases h : c ∈ set
    · rw [if_neg (by simp [h]), columnsMatchLoop_iff set rest]
      simp [h]
    · rw [if_pos (by simp [h])]
      simp [h]

theorem columnsMatch_iff (cols1 cols2 : List String) :
    columnsMatch cols1 cols2 = true ↔
      cols1.length = cols2.length ∧ ∀ c ∈ cols2, c ∈ cols1 := by
  unfold columnsMatch
  by_cases h : cols1.length = cols2.length
  · rw [if_neg (by simp [h]), columnsMatchLoop_iff]
    simp [h]
  · rw [if_pos h]
    simp [h]

theorem columnsMatch_iff_perm (cols1 cols2 : List String) (h2 : cols2.Nodup) :
    columnsMatch cols1 cols2 = true ↔ cols1.Perm cols2 := by
  rw [columnsMatch_iff]
  constructor
  · rintro ⟨hlen, hsub⟩
    exact ((List.subperm_of_subset h2 hsub).perm_of_length_le (le_of_eq hlen)).symm
  · intro hp
    exact ⟨hp.length_eq, fun c hc => hp.symm.subset hc⟩

/-- C23 (the code at the failing input): `columnsMatch` on `[a, b]` and `[a, a]` is true
although the two lists do not hold the same columns, `b` being in the first
alone, and with the arguments exchanged it is false: after the length test the
loop only looks up each column of the second list among those of the first. -/
theorem columnsMatch_not_symmetric :
    columnsMatch ["a", "b"] ["a", "a"] = true ∧ columnsMatch ["a", "a"] ["a", "b"] = false ∧
    "b" ∈ ["a", "b"] ∧ "b" ∉ ["a", "a"] := by
  decide

/-- What the loop of `columnsMatch` decides: the two lists have the same length and
every column of the second occurs in the first.  For lists without repeated
column names that is exactly when they hold the same columns whatever the
order, and then the result is the same with the arguments exchanged. -/
theorem columnsMatch_spec (cols1 cols2 : List String) (h1 : cols1.Nodup) (h2 : cols2.Nodup) :
    (columnsMatch cols1 cols2 = true ↔ cols1.Perm cols2) ∧
    (columnsMatch cols1 cols2 = true ↔ ∀ c, c ∈ cols1 ↔ c ∈ cols2) ∧
    columnsMatch cols1 cols2 = columnsMatch cols2 cols1 ∧
    ∀ d1 d2 : List String,
      columnsMatch d1 d2 = true ↔ d1.length = d2.length ∧ ∀ c ∈ d2, c ∈ d1 := by
  refine ⟨columnsMatch_iff_perm cols1 cols2 h2, ?_, ?_, columnsMatch_iff⟩
  · rw [columnsMatch_iff_perm cols1 cols2 h2]
    exact List.perm_ext_iff_of_nodup h1 h2
  · rw [Bool.eq_iff_iff, columnsMatch_iff_perm cols1 cols2 h2,
      columnsMatch_iff_perm cols2 cols1 h1]
    exact ⟨List.Perm.symm, List.Perm.symm⟩

theorem columnsMatch_spec_witness :
    ["id", "name"].Nodup ∧ ["name", "id"].Nodup ∧
    (columnsMatch ["id", "name"] ["name", "id"] = true ↔ ["id", "name"].Perm ["name", "id"]) ∧
    columnsMatch ["id", "name"] ["name", "id"] = true :=
  ⟨by decide, by decide,
    (columnsMatch_spec ["id", "name"] ["name", "id"] (by decide) (by decide)).1, by decide⟩

/-- The branches of `determineCardinality` in terms of `columnsMatch`: the result is
one of the four cardinalities: `many-to-many` when the table is a junction;
otherwise `one-to-one` when the from-columns of the foreign key are not empty
and `columnsMatch` holds between the columns of a `PRIMARY KEY` or `UNIQUE`
constraint of the table, or of a unique index of it, and the from-columns;
otherwise `many-to-one`.  The result does not depend on `Nullable`. -/
theorem determineCardinality_spec (t : Table) (fk : ForeignKey) :
    determineCardinality t fk ∈ ["one-to-one", "one-to-many", "many-to-one", "many-to-many"] ∧
    (t.IsJunction = true → determineCardinality t fk = "many-to-many") ∧
    (t.IsJunction = false →
      (determineCardinality t fk = "one-to-one" ↔
        fk.FromColumns ≠ [] ∧
        ((∃ con ∈ t.Constraints,
            (con.ConstraintType = "PRIMARY KEY" ∨ con.ConstraintType = "UNIQUE") ∧
            columnsMatch con.Columns fk.FromColumns = true) ∨
         ∃ idx ∈ t.Indexes, idx.Unique = true ∧
            columnsMatch idx.Columns fk.FromColumns = true)) ∧
      (determineCardinality t fk ≠ "one-to-one" → determineCardinality t fk = "many-to-one")) ∧
    (∀ b : Bool, determineCardinality t { fk with Nullable := b } = determineCardinality t fk) := by
  have huniq : hasFKUniqueConstraint t fk.FromColumns = true ↔
      fk.FromColumns ≠ [] ∧
      ((∃ con ∈ t.Constraints,
          (con.ConstraintType = "PRIMARY KEY" ∨ con.ConstraintType = "UNIQUE") ∧
          columnsMatch con.Columns fk.FromColumns = true) ∨
       ∃ idx ∈ t.Indexes, idx.Unique = true ∧
          columnsMatch idx.Columns fk.FromColumns = true) := by
    unfold hasFKUniqueConstraint
    by_cases h0 : fk.FromColumns.length = 0
    · rw [if_pos h0]
      have : fk.FromColumns = [] := List.length_eq_zero.mp h0
      simp [this]
    · rw [if_neg h0]
      have hne : fk.FromColumns ≠ [] := fun h => h0 (by rw [h]; rfl)
      simp only [List.any_eq_true, Bool.and_eq_true, Bool.or_eq_true, beq_iff_eq, ne_eq, hne,
        not_false_eq_true, true_and]
      split_ifs with h1 h2
      · simp only [true_iff]
        exact Or.inl h1
      · simp only [true_iff]
        exact Or.inr h2
      · simp only [Bool.false_eq_true, false_iff, not_or]
        exact ⟨h1, h2⟩
  have hindep : ∀ b : Bool,
      determineCardinality t { fk with Nullable := b } = determineCardinality t fk := by
    intro b
    unfold determineCardinality
    simp only []
    split_ifs <;> rfl
  refine ⟨?_, ?_, ?_, hindep⟩
  · unfold determineCardinality
    simp only []
    split_ifs <;> decide
  · intro hj
    unfold determineCardinality
    simp only []
    rw [if_pos hj]
  · intro hj
    unfold determineCardinality
    simp only []
    rw [if_neg (by simp [hj])]
    by_cases hu : hasFKUniqueConstraint t fk.FromColumns = true
    · rw [if_pos hu]
      exact ⟨⟨fun _ => huniq.mp hu, fun _ => rfl⟩, fun h => absurd rfl h⟩
    · rw [if_neg hu]
      refine ⟨⟨fun h => ?_, fun h => absurd (huniq.mpr h) hu⟩, fun _ => ?_⟩
      · split_ifs at h <;> exact absurd h (by decide)
      · split_ifs <;> rfl

/-- C24 (the code at the failing input): the table is no junction, its one constraint is
the primary key `(a, b)` and it has no index; the foreign key has the
from-columns `(a, a)`, which are not the columns of that key, neither as lists
up to order nor as sets, since `b` is not among them.  Yet
`hasFKUniqueConstraint` is true, because `columnsMatch` only looks up each
from-column among the columns of the key, and `determineCardinality` returns
`one-to-one` where the claim gives `many-to-one`. -/
theorem determineCardinality_repeated_column :
    sampleCompositeKey.IsJunction = false ∧
    sampleRepeatedColumn.FromColumns ≠ [] ∧
    (∀ con ∈ sampleCompositeKey.Constraints,
      ¬ con.Columns.Perm sampleRepeatedColumn.FromColumns ∧
      ¬ (∀ c, c ∈ con.Columns ↔ c ∈ sampleRepeatedColumn.FromColumns)) ∧
    (∀ idx ∈ sampleCompositeKey.Indexes,
      ¬ idx.Columns.Perm sampleRepeatedColumn.FromColumns ∧
      ¬ (∀ c, c ∈ idx.Columns ↔ c ∈ sampleRepeatedColumn.FromColumns)) ∧
    hasFKUniqueConstraint sampleCompositeKey sampleRepeatedColumn.FromColumns = true ∧
    determineCardinality sampleCompositeKey sampleRepeatedColumn = "one-to-one" ∧
    determineCardinality sampleCompositeKey sampleRepeatedColumn ≠ "many-to-one" := by
  refine ⟨rfl, by decide, ?_, ?_, by decide, by decide, by decide⟩
  · intro con hcon
    have hc : con = { ConstraintType := "PRIMARY KEY", Columns := ["a", "b"] } := by
      simpa [sampleCompositeKey] using hcon
    subst hc
    refine ⟨?_, ?_⟩
    · intro hp
      exact absurd (hp.subset (show "b" ∈ ["a", "b"] by decide)) (by decide)
    · intro h
      exact absurd ((h "b").mp (by decide)) (by decide)
  · intro idx hidx
    simp [sampleCompositeKey] at hidx

/-- For a foreign key whose from-columns hold no column twice, the result of
`determineCardinality` on a table that is no junction is `one-to-one` exactly
when the from-columns are not empty and are, up to order, the columns of a
`PRIMARY KEY` or `UNIQUE` constraint of the table or of a unique index of it,
and `many-to-one` otherwise. -/
theorem determineCardinality_nodup (t : Table) (fk : ForeignKey) (hj : t.IsJunction = false)
    (hn : fk.FromColumns.Nodup) :
    (determineCardinality t fk = "one-to-one" ↔
      fk.FromColumns ≠ [] ∧
      ((∃ con ∈ t.Constraints,
          (con.ConstraintType = "PRIMARY KEY" ∨ con.ConstraintType = "UNIQUE") ∧
          con.Columns.Perm fk.FromColumns) ∨
       ∃ idx ∈ t.Indexes, idx.Unique = true ∧ idx.Columns.Perm fk.FromColumns)) ∧
    (determineCardinality t fk ≠ "one-to-one" → determineCardinality t fk = "many-to-one") := by
  have h := (determineCardinality_spec t fk).2.2.1 hj
  refine ⟨?_, h.2⟩
  rw [h.1]
  simp only [columnsMatch_iff_perm _ _ hn]

theorem determineCardinality_nodup_witness :
    ({ Constraints := [{ ConstraintType := "UNIQUE", Columns := ["x", "y"] }] } : Table).IsJunction
      = false ∧
    (["y", "x"] : List String).Nodup ∧
    determineCardinality { Constraints := [{ ConstraintType := "UNIQUE", Columns := ["x", "y"] }] }
      { FromColumns := ["y", "x"] } = "one-to-one" :=
  ⟨rfl, by decide,
    ((determineCardinality_nodup
      { Constraints := [{ ConstraintType := "UNIQUE", Columns := ["x", "y"] }] }
      { FromColumns := ["y", "x"] } rfl (by decide)).1).mpr
      ⟨by decide, Or.inl ⟨{ ConstraintType := "UNIQUE", Columns := ["x", "y"] },
        by simp, Or.inr rfl, by decide⟩⟩⟩

/-! ### Domains -/

/-- C29 (failing input): the four tables `éx_a`, `éx_b`, `ĩx_c`, `ĩx_d` have pairwise
distinct names and form the two prefix groups `éx` and `ĩx`, whose domain names
are the same byte string, because `formatDomainName` upper-cases the first
byte alone; the group handled second replaces the first, and the two tables of
the first are in no domain, whichever the order of the range. -/
theorem GroupIntoDomains_loses_tables :
    (sampleAccented.map fun t => t.TableName).Nodup ∧
    groupByPrefix id sampleAccented =
      [(utf8Bytes "éx", ["éx_a", "éx_b"]),
       (utf8Bytes "ĩx", ["ĩx_c", "ĩx_d"])] ∧
    formatDomainName toUpperOneByte (utf8Bytes "éx") =
      formatDomainName toUpperOneByte (utf8Bytes "ĩx") ∧
    GroupIntoDomains id toUpperOneByte id (fun _ => domainPatterns) sampleAccented =
      [([0xEF, 0xBF, 0xBD, 0xA9, 0x78], ["ĩx_c", "ĩx_d"])] ∧
    GroupIntoDomains id toUpperOneByte List.reverse (fun _ => domainPatterns) sampleAccented =
      [([0xEF, 0xBF, 0xBD, 0xA9, 0x78], ["éx_a", "éx_b"])] := by
  refine ⟨by decide, by decide, by decide, by decide, by decide⟩

theorem mapSet_keys (m : List (List Nat × List String)) (k : List Nat) (v : List String) :
    (mapSet m k v).map Prod.fst =
      if k ∈ m.map Prod.fst then m.map Prod.fst else m.map Prod.fst ++ [k] := by
  induction m with
  | nil => simp [mapSet]
  | cons e rest ih =>
    obtain ⟨k1, v1⟩ := e
    unfold mapSet
    by_cases h : k1 = k
    · rw [if_pos h, h]
      simp
    · rw [if_neg h, List.map_cons, ih]
      have hk : k ≠ k1 := fun h1 => h h1.symm
      by_cases hm : k ∈ rest.map Prod.fst
      · simp [hm]
      · simp [hm, hk]

theorem mapSet_keys_nodup (m : List (List Nat × List String)) (k : List Nat)
    (v : List String) (h : (m.map Prod.fst).Nodup) : ((mapSet m k v).map Prod.fst).Nodup := by
  rw [mapSet_keys]
  split_ifs with hk
  · exact h
  · exact List.nodup_append.mpr ⟨h, List.nodup_singleton k, by
      intro a ha hb
      rw [List.mem_singleton] at hb
      exact hk (hb ▸ ha)⟩

theorem mapSet_of_not_mem (m : List (List Nat × List String)) (k : List Nat)
    (v : List String) (h : k ∉ m.map Prod.fst) : mapSet m k v = m ++ [(k, v)] := by
  induction m with
  | nil => rfl
  | cons e rest ih =>
    obtain ⟨k1, v1⟩ := e
    simp only [List.map_cons, List.mem_cons, not_or] at h
    unfold mapSet
    rw [if_neg (fun h1 => h.1 h1.symm), ih h.2]
    rfl

theorem mapSet_append_perm (m : List (List Nat × List String)) (k : List Nat)
    (x : List String) :
    ((mapSet m k (mapGet m k ++ x)).map Prod.snd).flatten.Perm
      ((m.map Prod.snd).flatten ++ x) := by
  induction m with
  | nil => simp [mapSet, mapGet]
  | cons e rest ih =>
    obtain ⟨k1, v1⟩ := e
    unfold mapSet mapGet
    by_cases h : k1 = k
    · simp only [if_pos h, List.map_cons, List.flatten_cons, List.append_assoc]
      exact List.Perm.append_left v1 List.perm_append_comm
    · simp only [if_neg h, List.map_cons, List.flatten_cons, List.append_assoc]
      exact List.Perm.append_left v1 ih

theorem groupByPrefix_fold (ToLower : String → String) :
    ∀ (tables : List Table) (acc : List (List Nat × List String)),
      (acc.map Prod.fst).Nodup →
      ((tables.foldl (groupStep ToLower) acc).map Prod.fst).Nodup ∧
      ∃ sub : List Table, sub.Sublist tables ∧
        (((tables.foldl (groupStep ToLower) acc).map Prod.snd).flatten).Perm
          ((acc.map Prod.snd).flatten ++ sub.map fun t => t.TableName)
  | [], acc, h => ⟨h, [], List.Sublist.refl _, by simp⟩
  | t :: rest, acc, h => by
    rw [List.foldl_cons]
    have hstep : ((groupStep ToLower acc t).map Prod.fst).Nodup ∧
        ((((groupStep ToLower acc t).map Prod.snd).flatten).Perm
            ((acc.map Prod.snd).flatten ++ [t.TableName]) ∨
          groupStep ToLower acc t = acc) := by
      unfold groupStep
      simp only []
      split_ifs
      · exact ⟨mapSet_keys_nodup _ _ _ h, Or.inl (mapSet_append_perm _ _ _)⟩
      · exact ⟨h, Or.inr rfl⟩
      · exact ⟨h, Or.inr rfl⟩
    obtain ⟨h1, sub, hsub, hperm⟩ := groupByPrefix_fold ToLower rest _ hstep.1
    refine ⟨h1, ?_⟩
    rcases hstep.2 with h2 | h2
    · refine ⟨t :: sub, hsub.cons₂ t, hperm.trans ?_⟩
      rw [List.map_cons]
      exact (List.Perm.append_right _ h2).trans (by simp)
    · rw [h2] at hperm ⊢
      exact ⟨sub, hsub.cons t, hperm⟩

theorem prefixPass_fold (ToUpper : List Nat → List Nat) :
    ∀ (l : List (List Nat × List String)) (st : Pass),
      ((l.filter fun e => decide (e.2.length ≥ 2)).map
        fun e => formatDomainName ToUpper e.1).Nodup →
      (∀ e ∈ l, e.2.length ≥ 2 → formatDomainName ToUpper e.1 ∉ st.domains.map Prod.fst) →
      (l.foldl (prefixStep ToUpper) st).domains =
        st.domains ++ (l.filter fun e => decide (e.2.length ≥ 2)).map
          (fun e => (formatDomainName ToUpper e.1, e.2)) ∧
      (l.foldl (prefixStep ToUpper) st).assigned =
        st.assigned ++ ((l.filter fun e => decide (e.2.length ≥ 2)).map Prod.snd).flatten
  | [], st, _, _ => by simp
  | e :: rest, st, hnd, hdisj => by
    rw [List.foldl_cons]
    by_cases hbig : e.2.length ≥ 2
    · have hf : (List.filter (fun e => decide (e.2.length ≥ 2)) (e :: rest)) =
          e :: List.filter (fun e => decide (e.2.length ≥ 2)) rest :=
        List.filter_cons_of_pos (by simpa using hbig)
      rw [hf, List.map_cons, List.nodup_cons] at hnd
      have hstep : prefixStep ToUpper st e =
          { domains := st.domains ++ [(formatDomainName ToUpper e.1, e.2)],
            assigned := st.assigned ++ e.2 } := by
        unfold prefixStep
        rw [if_pos hbig, mapSet_of_not_mem _ _ _ (hdisj e (List.mem_cons_self _ _) hbig)]
      obtain ⟨h1, h2⟩ := prefixPass_fold ToUpper rest (prefixStep ToUpper st e) hnd.2 (by
        intro e1 he1 hb1
        rw [hstep]
        simp only [List.map_append, List.map_cons, List.map_nil, List.mem_append,
          List.mem_singleton, not_or]
        refine ⟨hdisj e1 (List.mem_cons_of_mem _ he1) hb1, ?_⟩
        intro heq
        apply hnd.1
        rw [← heq]
        exact List.mem_map.mpr ⟨e1, List.mem_filter.mpr ⟨he1, by simpa using hb1⟩, rfl⟩)
      rw [h1, h2, hstep, hf]
      simp
    · have hf : (List.filter (fun e => decide (e.2.length ≥ 2)) (e :: rest)) =
          List.filter (fun e => decide (e.2.length ≥ 2)) rest :=
        List.filter_cons_of_neg (by simpa using hbig)
      rw [hf] at hnd ⊢
      have hstep : prefixStep ToUpper st e = st := by
        unfold prefixStep
        rw [if_neg hbig]
      rw [hstep]
      exact prefixPass_fold ToUpper rest st hnd
        (fun e1 he1 hb1 => hdisj e1 (List.mem_cons_of_mem _ he1) hb1)

theorem contentPass_fold (ToLower : String → String)
    (patterns : Table → List (String × List String)) :
    ∀ (u : List Table) (d : List (List Nat × List String)), (d.map Prod.fst).Nodup →
      ((u.foldl (contentStep ToLower patterns) d).map Prod.fst).Nodup ∧
      (((u.foldl (contentStep ToLower patterns) d).map Prod.snd).flatten).Perm
        ((d.map Prod.snd).flatten ++ u.map fun t => t.TableName)
  | [], d, h => ⟨h, by simp⟩
  | t :: rest, d, h => by
    rw [List.foldl_cons]
    have hk : ((contentStep ToLower patterns d t).map Prod.fst).Nodup :=
      mapSet_keys_nodup _ _ _ h
    have hp : (((contentStep ToLower patterns d t).map Prod.snd).flatten).Perm
        ((d.map Prod.snd).flatten ++ [t.TableName]) := mapSet_append_perm _ _ _
    obtain ⟨h1, h2⟩ := contentPass_fold ToLower patterns rest _ hk
    refine ⟨h1, h2.trans ?_⟩
    rw [List.map_cons]
    exact (List.Perm.append_right _ hp).trans (by simp)

theorem flatten_filter_nonempty (m : List (List Nat × List String)) :
    ((m.filter fun entry => !decide (entry.2.length = 0)).map Prod.snd).flatten =
      (m.map Prod.snd).flatten := by
  induction m with
  | nil => rfl
  | cons e rest ih =>
    by_cases h : e.2.length = 0
    · rw [List.filter_cons_of_neg (by simp [h]), ih, List.map_cons, List.flatten_cons,
        List.length_eq_zero.mp h, List.nil_append]
    · rw [List.filter_cons_of_pos (by simp [h]), List.map_cons, List.flatten_cons, ih,
        List.map_cons, List.flatten_cons]

theorem flatten_filter_sublist (p : List Nat × List String → Bool) :
    ∀ l : List (List Nat × List String),
      (((l.filter p).map Prod.snd).flatten).Sublist ((l.map Prod.snd).flatten)
  | [] => List.Sublist.refl _
  | e :: rest => by
    by_cases h : p e = true
    · rw [List.filter_cons_of_pos h, List.map_cons, List.flatten_cons, List.map_cons,
        List.flatten_cons]
      exact List.Sublist.append_left (flatten_filter_sublist p rest) e.2
    · rw [List.filter_cons_of_neg h, List.map_cons, List.flatten_cons]
      exact (flatten_filter_sublist p rest).trans (List.sublist_append_right _ _)

theorem assigned_split (tables : List Table) (a : List String)
    (hnd : (tables.map fun t => t.TableName).Nodup) (ha : a.Nodup)
    (hsub : ∀ n ∈ a, n ∈ tables.map fun t => t.TableName) :
    (a ++ (tables.filter fun t => !a.contains t.TableName).map fun t => t.TableName).Perm
      (tables.map fun t => t.TableName) := by
  have h1 : ((tables.filter fun t => a.contains t.TableName).map fun t => t.TableName).Perm
      a := by
    apply (List.perm_ext_iff_of_nodup ?_ ha).mpr
    · intro n
      constructor
      · intro hn
        obtain ⟨t, ht, htn⟩ := List.mem_map.mp hn
        have := (List.mem_filter.mp ht).2
        rw [← htn]
        simpa using this
      · intro hn
        obtain ⟨t, ht, htn⟩ := List.mem_map.mp (hsub n hn)
        exact List.mem_map.mpr ⟨t, List.mem_filter.mpr ⟨ht, by simp only [htn]; simpa using hn⟩,
          htn⟩
    · exact (hnd.sublist ((List.filter_sublist _).map _))
  have h2 := (List.filter_append_perm (fun t => a.contains t.TableName) tables).map
    fun t => t.TableName
  rw [List.map_append] at h2
  exact (List.Perm.append_right _ h1.symm).trans h2

/-- The tables of `GroupIntoDomains` are divided among the domains when no two prefix
groups of two tables or more get the same domain name: every table name is in
one domain list, once; the domain lists hold table names only; none is empty;
and the keys are pairwise distinct.  The names of the tables are pairwise
distinct and `range` yields every entry of `prefixGroups` once. -/
theorem GroupIntoDomains_partition (ToLower : String → String)
    (ToUpper : List Nat → List Nat)
    (rangeOrder : List (List Nat × List String) → List (List Nat × List String))
    (patterns : Table → List (String × List String)) (tables : List Table)
    (hnd : (tables.map fun t => t.TableName).Nodup)
    (horder : ∀ m, (rangeOrder m).Perm m)
    (hinj : ∀ e1 ∈ groupByPrefix ToLower tables, ∀ e2 ∈ groupByPrefix ToLower tables,
      e1.2.length ≥ 2 → e2.2.length ≥ 2 →
      formatDomainName ToUpper e1.1 = formatDomainName ToUpper e2.1 → e1.1 = e2.1) :
    (((GroupIntoDomains ToLower ToUpper rangeOrder patterns tables).map Prod.snd).flatten).Perm
      (tables.map fun t => t.TableName) ∧
    (∀ entry ∈ GroupIntoDomains ToLower ToUpper rangeOrder patterns tables, entry.2 ≠ []) ∧
    ((GroupIntoDomains ToLower ToUpper rangeOrder patterns tables).map Prod.fst).Nodup := by
  obtain ⟨hgk, sub, hsub, hgp⟩ := groupByPrefix_fold ToLower tables [] List.nodup_nil
  have hG : tables.foldl (groupStep ToLower) [] = groupByPrefix ToLower tables := rfl
  rw [hG] at hgk hgp
  simp only [List.map_nil, List.flatten_nil, List.nil_append] at hgp
  have hperm := horder (groupByPrefix ToLower tables)
  have hLk : ((rangeOrder (groupByPrefix ToLower tables)).map Prod.fst).Nodup :=
    ((hperm.map Prod.fst).nodup_iff).mpr hgk
  have hbigk : (((rangeOrder (groupByPrefix ToLower tables)).filter
      fun e => decide (e.2.length ≥ 2)).map Prod.fst).Nodup :=
    hLk.sublist ((List.filter_sublist _).map _)
  have hbignd : (((rangeOrder (groupByPrefix ToLower tables)).filter
      fun e => decide (e.2.length ≥ 2)).map fun e => formatDomainName ToUpper e.1).Nodup := by
    have hpair : ((rangeOrder (groupByPrefix ToLower tables)).filter
        fun e => decide (e.2.length ≥ 2)).Nodup := List.Nodup.of_map _ hbigk
    apply List.Nodup.map_on ?_ hpair
    intro x hx y hy hxy
    obtain ⟨hx1, hx2⟩ := List.mem_filter.mp hx
    obtain ⟨hy1, hy2⟩ := List.mem_filter.mp hy
    have hk := hinj x (hperm.subset hx1) y (hperm.subset hy1) (by simpa using hx2)
      (by simpa using hy2) hxy
    exact List.inj_on_of_nodup_map hbigk hx hy hk
  obtain ⟨hd1, ha1⟩ := prefixPass_fold ToUpper (rangeOrder (groupByPrefix ToLower tables))
    { domains := [], assigned := [] } hbignd (by intro e _ _; simp)
  simp only [List.nil_append] at hd1 ha1
  have hd1k : (((rangeOrder (groupByPrefix ToLower tables)).foldl (prefixStep ToUpper)
      { domains := [], assigned := [] }).domains.map Prod.fst).Nodup := by
    rw [hd1, List.map_map]
    exact hbignd
  have hd1v : ((((rangeOrder (groupByPrefix ToLower tables)).foldl (prefixStep ToUpper)
      { domains := [], assigned := [] }).domains.map Prod.snd).flatten) =
      ((rangeOrder (groupByPrefix ToLower tables)).foldl (prefixStep ToUpper)
        { domains := [], assigned := [] }).assigned := by
    rw [hd1, ha1, List.map_map]
    rfl
  have hasub : (((rangeOrder (groupByPrefix ToLower tables)).foldl (prefixStep ToUpper)
      { domains := [], assigned := [] }).assigned).Subperm
      (tables.map fun t => t.TableName) := by
    rw [ha1]
    have s1 : ((((rangeOrder (groupByPrefix ToLower tables)).filter
        fun e => decide (e.2.length ≥ 2)).map Prod.snd).flatten).Sublist
        (((rangeOrder (groupByPrefix ToLower tables)).map Prod.snd).flatten) :=
      flatten_filter_sublist _ _
    have s2 : (((rangeOrder (groupByPrefix ToLower tables)).map Prod.snd).flatten).Perm
        (sub.map fun t => t.TableName) :=
      ((hperm.map Prod.snd).flatten).trans hgp
    exact (s1.subperm.trans s2.subperm).trans (hsub.map _).subperm
  obtain ⟨hk2, hp2⟩ := contentPass_fold ToLower patterns
    (tables.filter fun t =>
      !((rangeOrder (groupByPrefix ToLower tables)).foldl (prefixStep ToUpper)
        { domains := [], assigned := [] }).assigned.contains t.TableName)
    _ hd1k
  rw [hd1v] at hp2
  have hand : (((rangeOrder (groupByPrefix ToLower tables)).foldl (prefixStep ToUpper)
      { domains := [], assigned := [] }).assigned).Nodup := by
    obtain ⟨l, hl, hs⟩ := hasub
    exact (hl.nodup_iff).mp (hnd.sublist hs)
  have hfinal := assigned_split tables _ hnd hand (fun n hn => hasub.subset hn)
  refine ⟨?_, ?_, ?_⟩
  · unfold GroupIntoDomains
    simp only []
    rw [flatten_filter_nonempty]
    exact hp2.trans hfinal
  · intro entry hentry
    unfold GroupIntoDomains at hentry
    have := (List.mem_filter.mp hentry).2
    intro h0
    rw [h0] at this
    simp at this
  · unfold GroupIntoDomains
    simp only []
    exact hk2.sublist ((List.filter_sublist _).map _)

end Heuristics

namespace Postgres

/-! ### Routine arguments -/

theorem buildArgumentsLoop_length (ToLower : String → String) (names modes : List String) :
    ∀ (types : List String) (i : Nat),
      (buildArgumentsLoop ToLower names modes types i).length = types.length
  | [], _ => rfl
  | t :: rest, i => by
    simp only [buildArgumentsLoop, List.length_cons,
      buildArgumentsLoop_length ToLower names modes rest (i + 1)]

theorem buildArgumentsLoop_get (ToLower : String → String) (names modes : List String) :
    ∀ (types : List String) (i j : Nat) (t : String), types[j]? = some t →
      (buildArgumentsLoop ToLower names modes types i)[j]? =
        some { Name := names.getD (i + j) "",
               DataType := t,
               Mode := if i + j < modes.length then
                 mapArgMode ToLower (modes.getD (i + j) "") else "IN" }
  | [], _, _, _, h => by simp at h
  | t0 :: rest, i, 0, t, h => by
    simp only [List.getElem?_cons_zero, Option.some.injEq] at h
    subst h
    simp only [buildArgumentsLoop, List.getElem?_cons_zero, Nat.add_zero, Option.some.injEq]
    by_cases hn : i < names.length ∧ names.getD i "" ≠ ""
    · rw [if_pos hn]
      split_ifs <;> rfl
    · rw [if_neg hn]
      have hname : names.getD i "" = "" := by
        by_cases hi : i < names.length
        · by_contra hne
          exact hn ⟨hi, hne⟩
        · simp only [List.getD_eq_getElem?_getD]
          rw [List.getElem?_eq_none (by omega)]
          rfl
      rw [hname]
      split_ifs <;> rfl
  | t0 :: rest, i, j + 1, t, h => by
    simp only [List.getElem?_cons_succ] at h
    have ih := buildArgumentsLoop_get ToLower names modes rest (i + 1) j t h
    simp only [buildArgumentsLoop, List.getElem?_cons_succ]
    rw [ih]
    have : i + 1 + j = i + (j + 1) := by omega
    rw [this]

/-- C21: `buildArguments` returns the nil slice when `types` is empty, and otherwise
`len(types)` arguments, the argument at index `i` having the data type
`types[i]`, the name `names[i]` if `i < len(names)` and the empty name
otherwise, and the mode `mapArgMode(modes[i])` if `i < len(modes)` and `IN`
otherwise; `mapArgMode` gives `OUT`, `INOUT`, `VARIADIC`, `TABLE` for a mode
whose lower-cased form is `o`, `b`, `v`, `t`, and `IN` for every other mode,
among them those whose lower-cased form is `i`. -/
theorem buildArguments_spec (ToLower : String → String) (names types modes : List String) :
    (types = [] → buildArguments ToLower names types modes = []) ∧
    (buildArguments ToLower names types modes).length = types.length ∧
    (∀ (i : Nat) (t : String), types[i]? = some t →
      (buildArguments ToLower names types modes)[i]? =
        some { Name := if i < names.length then names.getD i "" else "",
               DataType := t,
               Mode := if i < modes.length then mapArgMode ToLower (modes.getD i "")
                 else "IN" }) ∧
    (∀ mode : String,
      (ToLower mode = "i" → mapArgMode ToLower mode = "IN") ∧
      (ToLower mode = "o" → mapArgMode ToLower mode = "OUT") ∧
      (ToLower mode = "b" → mapArgMode ToLower mode = "INOUT") ∧
      (ToLower mode = "v" → mapArgMode ToLower mode = "VARIADIC") ∧
      (ToLower mode = "t" → mapArgMode ToLower mode = "TABLE") ∧
      (ToLower mode ≠ "o" → ToLower mode ≠ "b" → ToLower mode ≠ "v" → ToLower mode ≠ "t" →
        mapArgMode ToLower mode = "IN")) ∧
    buildArguments ToLower ["a", "b"] ["text", "integer"] ["i"] =
      [{ Name := "a", DataType := "text", Mode := mapArgMode ToLower "i" },
       { Name := "b", DataType := "integer", Mode := "IN" }] := by
  refine ⟨?_, ?_, ?_, ?_, ?_⟩
  · intro h
    rw [h]
    rfl
  · unfold buildArguments
    split_ifs with h
    · rw [h]; rfl
    · exact buildArgumentsLoop_length ToLower names modes types 0
  · intro i t h
    have hne : ¬ types.length = 0 := by
      intro h0
      rw [List.length_eq_zero.mp h0] at h
      simp at h
    unfold buildArguments
    rw [if_neg hne, buildArgumentsLoop_get ToLower names modes types 0 i t h]
    simp only [Nat.zero_add]
    by_cases hi : i < names.length
    · rw [if_pos hi]
    · rw [if_neg hi]
      have hname : names.getD i "" = "" := by
        simp only [List.getD_eq_getElem?_getD]
        rw [List.getElem?_eq_none (by omega)]
        rfl
      rw [hname]
  · intro mode
    unfold mapArgMode
    refine ⟨?_, ?_, ?_, ?_, ?_, ?_⟩
    · intro h; rw [if_pos h]
    · intro h; rw [h]; decide
    · intro h; rw [h]; decide
    · intro h; rw [h]; decide
    · intro h; rw [h]; decide
    · intro h1 h2 h3 h4
      split_ifs <;> rfl
  · simp [buildArguments, buildArgumentsLoop]

end Postgres

namespace Generator

/-! ### File names -/

theorem collapseLoop_of_contains (name : List Char)
    (h : containsDoubleUnderscore name = true) :
    collapseLoop name = collapseLoop (replaceDoubleUnderscore name) := by
  rw [collapseLoop, dif_pos h]

theorem collapseLoop_of_not_contains (name : List Char)
    (h : containsDoubleUnderscore name = false) : collapseLoop name = name := by
  rw [collapseLoop, dif_neg (by simp [h])]

theorem containsDoubleUnderscore_iff (name : List Char) :
    containsDoubleUnderscore name = true ↔ ∃ pre post, name = pre ++ '_' :: '_' :: post := by
  induction name with
  | nil =>
    simp only [containsDoubleUnderscore, Bool.false_eq_true, false_iff]
    rintro ⟨pre, post, h⟩
    cases pre <;> simp at h
  | cons c rest ih =>
    unfold containsDoubleUnderscore
    simp only [Bool.or_eq_true, Bool.and_eq_true, beq_iff_eq, ih]
    constructor
    · rintro (⟨hc, hr⟩ | ⟨pre, post, h⟩)
      · cases rest with
        | nil => simp at hr
        | cons d rest2 =>
          simp only [List.head?_cons, Option.some.injEq] at hr
          exact ⟨[], rest2, by rw [hc, hr]; rfl⟩
      · exact ⟨c :: pre, post, by rw [h]; rfl⟩
    · rintro ⟨pre, post, h⟩
      cases pre with
      | nil =>
        simp only [List.nil_append, List.cons.injEq] at h
        exact Or.inl ⟨h.1, by rw [h.2]; rfl⟩
      | cons p pre2 =>
        simp only [List.cons_append, List.cons.injEq] at h
        exact Or.inr ⟨pre2, post, h.2⟩

theorem mem_replaceDoubleUnderscore :
    ∀ (name : List Char) (x : Char), x ∈ replaceDoubleUnderscore name → x ∈ name
  | [], x, h => by simp [replaceDoubleUnderscore] at h
  | [c], x, h => by simpa [replaceDoubleUnderscore] using h
  | c :: d :: rest, x, h => by
    unfold replaceDoubleUnderscore at h
    split_ifs at h with hcd
    · rcases List.mem_cons.mp h with h | h
      · rw [h, ← hcd.1]; exact List.mem_cons_self _ _
      · exact List.mem_cons_of_mem _
          (List.mem_cons_of_mem _ (mem_replaceDoubleUnderscore rest x h))
    · rcases List.mem_cons.mp h with h | h
      · rw [h]; exact List.mem_cons_self _ _
      · exact List.mem_cons_of_mem _ (mem_replaceDoubleUnderscore (d :: rest) x h)

theorem collapseLoop_spec (n : Nat) :
    ∀ name : List Char, name.length ≤ n →
      containsDoubleUnderscore (collapseLoop name) = false ∧
      ∀ x ∈ collapseLoop name, x ∈ name := by
  induction n with
  | zero =>
    intro name hn
    have : name = [] := List.length_eq_zero.mp (by omega)
    subst this
    rw [collapseLoop_of_not_contains [] rfl]
    exact ⟨rfl, fun _ h => h⟩
  | succ n ih =>
    intro name hn
    cases h : containsDoubleUnderscore name with
    | false =>
      rw [collapseLoop_of_not_contains name h]
      exact ⟨h, fun _ hx => hx⟩
    | true =>
      rw [collapseLoop_of_contains name h]
      have hlt := length_replaceDoubleUnderscore_lt name h
      obtain ⟨h1, h2⟩ := ih (replaceDoubleUnderscore name) (by omega)
      exact ⟨h1, fun x hx => mem_replaceDoubleUnderscore name x (h2 x hx)⟩

theorem trimUnderscores_head (name : List Char) :
    (trimUnderscores name).head? ≠ some '_' := by
  unfold trimUnderscores
  intro h
  obtain ⟨t, ht⟩ := List.rdropWhile_prefix (fun c => c == '_')
    (List.dropWhile (fun c => c == '_') name)
  cases hr : List.rdropWhile (fun c => c == '_') (List.dropWhile (fun c => c == '_') name) with
  | nil => rw [hr] at h; simp at h
  | cons a rest =>
    rw [hr] at h ht
    simp only [List.head?_cons, Option.some.injEq] at h
    have h2 := List.head?_dropWhile_not (fun c => c == '_') name
    rw [← ht] at h2
    simp [h] at h2

theorem trimUnderscores_getLast (name : List Char) :
    (trimUnderscores name).getLast? ≠ some '_' := by
  unfold trimUnderscores
  intro h
  have hne : List.rdropWhile (fun c => c == '_')
      (List.dropWhile (fun c => c == '_') name) ≠ [] := by
    intro h0
    rw [h0] at h
    simp at h
  have h2 := List.rdropWhile_last_not (fun c => c == '_')
    (List.dropWhile (fun c => c == '_') name) hne
  rw [List.getLast?_eq_getLast _ hne, Option.some.injEq] at h
  rw [h] at h2
  simp at h2

theorem trimUnderscores_cut (name : List Char) :
    ∃ pre post, name = pre ++ trimUnderscores name ++ post := by
  unfold trimUnderscores
  obtain ⟨post, hpost⟩ := List.rdropWhile_prefix (fun c => c == '_')
    (List.dropWhile (fun c => c == '_') name)
  obtain ⟨pre, hpre⟩ := List.dropWhile_suffix (l := name) (fun c => c == '_')
  exact ⟨pre, post, by rw [List.append_assoc, hpost, hpre]⟩

theorem trimUnderscores_of_trimmed (name : List Char) (hh : name.head? ≠ some '_')
    (hl : name.getLast? ≠ some '_') : trimUnderscores name = name := by
  unfold trimUnderscores
  have h1 : List.dropWhile (fun c => c == '_') name = name := by
    cases name with
    | nil => rfl
    | cons a rest =>
      have ha : (a == '_') = false := by simpa using hh
      simp only [List.dropWhile, ha]
  rw [h1, List.rdropWhile_eq_self_iff]
  intro hne
  rw [List.getLast?_eq_getLast _ hne] at hl
  simpa using hl

theorem trimUnderscores_all_underscores (name : List Char) (h : ∀ c ∈ name, c = '_') :
    trimUnderscores name = [] := by
  unfold trimUnderscores
  have h1 : List.dropWhile (fun c => c == '_') name = [] := by
    rw [List.dropWhile_eq_nil_iff]
    intro x hx
    simp [h x hx]
  rw [h1]
  rfl

theorem isSafeChar_replaceUnsafe (name : List Char) :
    ∀ c ∈ replaceUnsafe name, isSafeChar c = true := by
  intro c hc
  obtain ⟨x, _, hx⟩ := List.mem_map.mp hc
  by_cases h : isSafeChar x = true
  · rw [if_pos h] at hx
    rw [← hx]; exact h
  · rw [if_neg h] at hx
    rw [← hx]; decide

theorem replaceSpaces_of_safe (name : List Char) (h : ∀ c ∈ name, isSafeChar c = true) :
    replaceSpaces name = name := by
  unfold replaceSpaces
  conv_rhs => rw [← List.map_id name]
  apply List.map_congr_left
  intro c hc
  have : c ≠ ' ' := by
    intro h0
    have := h c hc
    rw [h0] at this
    exact absurd this (by decide)
  simp [this]

theorem replaceUnsafe_of_safe (name : List Char) (h : ∀ c ∈ name, isSafeChar c = true) :
    replaceUnsafe name = name := by
  unfold replaceUnsafe
  conv_rhs => rw [← List.map_id name]
  apply List.map_congr_left
  intro c hc
  simp [h c hc]

/-- The text before the test `name == ""` of `sanitizeName`. -/
theorem sanitizeName_eq (ToLower : String → String) (name : String) :
    sanitizeName ToLower name =
      if trimUnderscores (collapseLoop (replaceUnsafe (replaceSpaces (ToLower name).data))) = []
      then "unnamed"
      else String.mk
        (trimUnderscores (collapseLoop (replaceUnsafe (replaceSpaces (ToLower name).data)))) := by
  unfold sanitizeName
  simp only []
  by_cases h : trimUnderscores
      (collapseLoop (replaceUnsafe (replaceSpaces (ToLower name).data))) = []
  · rw [if_pos h, if_pos (by rw [h])]
  · rw [if_neg h]
    exact if_neg (fun h0 => h (congrArg String.data h0))

/-- What the text before the test `name == ""` satisfies. -/
theorem trimmed_spec (l : List Char) :
    (∀ c ∈ trimUnderscores (collapseLoop (replaceUnsafe l)), isSafeChar c = true) ∧
    (trimUnderscores (collapseLoop (replaceUnsafe l))).head? ≠ some '_' ∧
    (trimUnderscores (collapseLoop (replaceUnsafe l))).getLast? ≠ some '_' ∧
    containsDoubleUnderscore (trimUnderscores (collapseLoop (replaceUnsafe l))) = false := by
  obtain ⟨hc1, hc2⟩ := collapseLoop_spec _ (replaceUnsafe l) (Nat.le_refl _)
  obtain ⟨pre, post, hcut⟩ := trimUnderscores_cut (collapseLoop (replaceUnsafe l))
  refine ⟨?_, trimUnderscores_head _, trimUnderscores_getLast _, ?_⟩
  · intro c hc
    apply isSafeChar_replaceUnsafe l c
    apply hc2
    rw [hcut]
    simp [hc]
  · cases h : containsDoubleUnderscore (trimUnderscores (collapseLoop (replaceUnsafe l))) with
    | false => rfl
    | true =>
      obtain ⟨a, b, hab⟩ := (containsDoubleUnderscore_iff _).mp h
      have : containsDoubleUnderscore (collapseLoop (replaceUnsafe l)) = true := by
        rw [containsDoubleUnderscore_iff]
        refine ⟨pre ++ a, b ++ post, ?_⟩
        rw [hcut, hab]
        simp
      rw [hc1] at this
      exact absurd this (by decide)

theorem sanitizeName_fixed (ToLower : String → String)
    (hlow : ∀ s : String, (∀ c ∈ s.data, isSafeChar c = true) → ToLower s = s)
    (y : String) (hsafe : ∀ c ∈ y.data, isSafeChar c = true) (hne : y ≠ "")
    (hh : y.data.head? ≠ some '_') (hl : y.data.getLast? ≠ some '_')
    (hd : containsDoubleUnderscore y.data = false) : sanitizeName ToLower y = y := by
  rw [sanitizeName_eq, hlow y hsafe, replaceSpaces_of_safe _ hsafe, replaceUnsafe_of_safe _ hsafe,
    collapseLoop_of_not_contains _ hd, trimUnderscores_of_trimmed _ hh hl,
    if_neg (fun h0 => hne (String.ext h0))]

theorem sanitizeName_props (ToLower : String → String) (name : String) :
    sanitizeName ToLower name ≠ "" ∧
    (∀ c ∈ (sanitizeName ToLower name).data, isSafeChar c = true) ∧
    (sanitizeName ToLower name).data.head? ≠ some '_' ∧
    (sanitizeName ToLower name).data.getLast? ≠ some '_' ∧
    containsDoubleUnderscore (sanitizeName ToLower name).data = false := by
  have hs := trimmed_spec (replaceSpaces (ToLower name).data)
  rw [sanitizeName_eq]
  split_ifs with h
  · exact ⟨by decide, by decide, by decide, by decide, by decide⟩
  · refine ⟨?_, hs.1, hs.2.1, hs.2.2.1, hs.2.2.2⟩
    intro h0
    exact h (congrArg String.data h0)

theorem lowerASCII_of_safe (s : String) (h : ∀ c ∈ s.data, isSafeChar c = true) :
    lowerASCII s = s := by
  unfold lowerASCII
  apply String.ext
  show List.map _ s.data = s.data
  conv_rhs => rw [← List.map_id s.data]
  apply List.map_congr_left
  intro c hc
  have hsafe := h c hc
  simp only [isSafeChar, Bool.or_eq_true, Bool.and_eq_true, decide_eq_true_eq,
    beq_iff_eq] at hsafe
  have : ¬ (65 ≤ c.toNat ∧ c.toNat ≤ 90) := by
    rcases hsafe with (h1 | h1) | h1
    · omega
    · omega
    · rw [h1]; decide
  rw [if_neg this]
  rfl

theorem sanitizeName_sample :
    sanitizeName lowerASCII "User  Accounts!" = "user_accounts" := by
  have h0 : (lowerASCII "User  Accounts!").data = "user  accounts!".data := by decide
  have h1 : replaceUnsafe (replaceSpaces "user  accounts!".data) = "user__accounts_".data := by
    decide
  have h2 : collapseLoop "user__accounts_".data = "user_accounts_".data := by
    rw [collapseLoop_of_contains _ (by decide)]
    exact collapseLoop_of_not_contains _ (by decide)
  have h3 : trimUnderscores "user_accounts_".data = "user_accounts".data := by decide
  rw [sanitizeName_eq, h0, h1, h2, h3]
  decide

/-- C22: `sanitizeName` returns, for every name, a text that is not empty, consists of
the characters `a` to `z`, `0` to `9` and `_` only, neither starts nor ends with
`_` and holds no two `_` in a row; it returns `unnamed` when the lower-cased
name holds no letter `a` to `z` and no digit.  With a lower-casing of the ASCII
letters, `User  Accounts!` gives `user_accounts`. -/
theorem sanitizeName_safe (ToLower : String → String) (name : String) :
    sanitizeName ToLower name ≠ "" ∧
    (∀ c ∈ (sanitizeName ToLower name).data,
      (97 ≤ c.toNat ∧ c.toNat ≤ 122) ∨ (48 ≤ c.toNat ∧ c.toNat ≤ 57) ∨ c = '_') ∧
    (∀ rest, (sanitizeName ToLower name).data ≠ '_' :: rest) ∧
    (∀ init, (sanitizeName ToLower name).data ≠ init ++ ['_']) ∧
    (∀ pre post, (sanitizeName ToLower name).data ≠ pre ++ '_' :: '_' :: post) ∧
    ((∀ c ∈ (ToLower name).data,
        ¬ (97 ≤ c.toNat ∧ c.toNat ≤ 122) ∧ ¬ (48 ≤ c.toNat ∧ c.toNat ≤ 57)) →
      sanitizeName ToLower name = "unnamed") ∧
    sanitizeName lowerASCII "User  Accounts!" = "user_accounts" ∧
    sanitizeName lowerASCII "--" = "unnamed" := by
  obtain ⟨h1, h2, h3, h4, h5⟩ := sanitizeName_props ToLower name
  refine ⟨h1, ?_, ?_, ?_, ?_, ?_, sanitizeName_sample, ?_⟩
  · intro c hc
    have := h2 c hc
    simp only [isSafeChar, Bool.or_eq_true, Bool.and_eq_true, decide_eq_true_eq,
      beq_iff_eq] at this
    tauto
  · intro rest h
    rw [h] at h3
    exact h3 rfl
  · intro init h
    rw [h] at h4
    exact h4 (by simp)
  · intro pre post h
    have := (containsDoubleUnderscore_iff _).mpr ⟨pre, post, h⟩
    rw [h5] at this
    exact absurd this (by decide)
  · intro hall
    have hu : ∀ c ∈ replaceUnsafe (replaceSpaces (ToLower name).data), c = '_' := by
      intro c hc
      obtain ⟨x, hx, hxc⟩ := List.mem_map.mp hc
      obtain ⟨y, hy, hyx⟩ := List.mem_map.mp hx
      by_cases hs : isSafeChar x = true
      · rw [if_pos hs] at hxc
        by_cases hsp : y = ' '
        · rw [if_pos hsp] at hyx
          rw [← hxc, ← hyx]
        · rw [if_neg hsp] at hyx
          rw [← hyx] at hs
          have := hall y hy
          simp only [isSafeChar, Bool.or_eq_true, Bool.and_eq_true, decide_eq_true_eq,
            beq_iff_eq] at hs
          rw [← hxc, ← hyx]
          tauto
      · rw [if_neg hs] at hxc
        exact hxc.symm
    have hc : ∀ c ∈ collapseLoop (replaceUnsafe (replaceSpaces (ToLower name).data)),
        c = '_' := fun c hc => hu c ((collapseLoop_spec _ _ (Nat.le_refl _)).2 c hc)
    rw [sanitizeName_eq, if_pos (trimUnderscores_all_underscores _ hc)]
  · have h0 : (lowerASCII "--").data = "--".data := by decide
    have h1 : replaceUnsafe (replaceSpaces "--".data) = "__".data := by decide
    have h2 : collapseLoop "__".data = "_".data := by
      rw [collapseLoop_of_contains _ (by decide)]
      exact collapseLoop_of_not_contains _ (by decide)
    have h3 : trimUnderscores "_".data = [] := by decide
    rw [sanitizeName_eq, h0, h1, h2, h3]
    rfl

/-- C30: `sanitizeName` is idempotent: applied to one of its results it returns that
result, when `strings.ToLower` leaves every text of the characters `a` to `z`,
`0` to `9` and `_` as it is. -/
theorem sanitizeName_idempotent (ToLower : String → String)
    (hlow : ∀ s : String, (∀ c ∈ s.data, isSafeChar c = true) → ToLower s = s)
    (x : String) :
    sanitizeName ToLower (sanitizeName ToLower x) = sanitizeName ToLower x := by
  obtain ⟨h1, h2, h3, h4, h5⟩ := sanitizeName_props ToLower x
  exact sanitizeName_fixed ToLower hlow _ h2 h1 h3 h4 h5

theorem sanitizeName_idempotent_witness :
    (∀ s : String, (∀ c ∈ s.data, isSafeChar c = true) → lowerASCII s = s) ∧
    sanitizeName lowerASCII (sanitizeName lowerASCII "User  Accounts!") =
      sanitizeName lowerASCII "User  Accounts!" :=
  ⟨lowerASCII_of_safe, sanitizeName_idempotent lowerASCII lowerASCII_of_safe "User  Accounts!"⟩

/-! ### Recommended start tables -/

theorem foldl_tag_add (tag0 : String) (k : Int) :
    ∀ (tags : List String) (acc : Int),
      tags.foldl (fun score tag => if tag = tag0 then score + k else score) acc =
        acc + k * (tags.count tag0 : Int)
  | [], acc => by simp
  | t :: rest, acc => by
    rw [List.foldl_cons, foldl_tag_add tag0 k rest]
    by_cases h : t = tag0
    · rw [if_pos h, h, List.count_cons_self]
      push_cast
      ring
    · rw [if_neg h, List.count_cons_of_ne (fun h1 => h h1.symm)]

theorem foldl_tag_sub (tag0 : String) (k : Int) :
    ∀ (tags : List String) (acc : Int),
      tags.foldl (fun score tag => if tag = tag0 then score - k else score) acc =
        acc - k * (tags.count tag0 : Int)
  | [], acc => by simp
  | t :: rest, acc => by
    rw [List.foldl_cons, foldl_tag_sub tag0 k rest]
    by_cases h : t = tag0
    · rw [if_pos h, h, List.count_cons_self]
      push_cast
      ring
    · rw [if_neg h, List.count_cons_of_ne (fun h1 => h h1.symm)]

theorem scoreOf_eq (t : Heuristics.Table) :
    scoreOf t = 2 * (t.IncomingForeignKeys.length : Int) + 5 * (t.Tags.count "core" : Int)
      - (if t.IsJunction = true then 3 else 0) - 2 * (t.Tags.count "lookup" : Int) := by
  unfold scoreOf
  simp only []
  rw [foldl_tag_add "core" 5 t.Tags]
  split_ifs
  · rw [foldl_tag_sub "lookup" 2 t.Tags]; ring
  · rw [foldl_tag_sub "lookup" 2 t.Tags]; ring

theorem resultLoop_eq :
    ∀ (scores : List tableScore) (i : Nat),
      resultLoop scores i =
        ((scores.take (5 - i)).filter fun s => decide (s.score > 0)).map fun s => s.name
  | [], i => by simp [resultLoop]
  | s :: rest, i => by
    unfold resultLoop
    by_cases hi : i < 5
    · rw [if_pos hi]
      have h5 : 5 - i = (5 - (i + 1)) + 1 := by omega
      rw [h5, List.take_succ_cons]
      by_cases hs : s.score > 0
      · rw [if_pos hs, resultLoop_eq rest (i + 1), List.filter_cons_of_pos (by simpa using hs),
          List.map_cons]
      · rw [if_neg hs, resultLoop_eq rest (i + 1), List.filter_cons_of_neg (by simpa using hs)]
    · rw [if_neg hi]
      have h5 : 5 - i = 0 := by omega
      rw [h5]
      rfl

theorem insertByScore_perm (s : tableScore) :
    ∀ l : List tableScore, (insertByScore s l).Perm (s :: l)
  | [] => List.Perm.refl _
  | a :: rest => by
    unfold insertByScore
    split_ifs
    · exact List.Perm.refl _
    · exact ((insertByScore_perm s rest).cons a).trans (List.Perm.swap s a rest)

theorem insertByScore_sorted (s : tableScore) :
    ∀ l : List tableScore, l.Pairwise (fun a b => a.score ≥ b.score) →
      (insertByScore s l).Pairwise fun a b => a.score ≥ b.score
  | [], _ => List.pairwise_singleton _ _
  | a :: rest, h => by
    unfold insertByScore
    have ha := List.pairwise_cons.mp h
    split_ifs with hs
    · refine List.pairwise_cons.mpr ⟨?_, h⟩
      intro b hb
      rcases List.mem_cons.mp hb with hb | hb
      · rw [hb]; omega
      · have := ha.1 b hb
        omega
    · refine List.pairwise_cons.mpr ⟨?_, insertByScore_sorted s rest ha.2⟩
      intro b hb
      rcases List.mem_cons.mp ((insertByScore_perm s rest).subset hb) with hb | hb
      · rw [hb]; omega
      · exact ha.1 b hb

theorem sortByScore_spec :
    ∀ l : List tableScore,
      (sortByScore l).Perm l ∧ (sortByScore l).Pairwise fun a b => a.score ≥ b.score
  | [] => ⟨List.Perm.refl _, List.Pairwise.nil⟩
  | s :: rest => by
    obtain ⟨h1, h2⟩ := sortByScore_spec rest
    exact ⟨(insertByScore_perm s _).trans (h1.cons s), insertByScore_sorted s _ h2⟩

/-- C25: `findRecommendedStartTables` returns at most 5 names; they are the names of
entries of the score list, in non-increasing score order, each with a score
above 0; the entries left out, together with those returned, make up the score
list, and none of them has a score above that of a returned entry.  The score
of a table is 2 for every incoming foreign key, plus 5 for every tag `core`,
minus 3 if it is a junction, minus 2 for every tag `lookup`.  `sort.Slice` is
taken to return a permutation of the slice that is sorted by `less`. -/
theorem findRecommendedStartTables_spec (sortSlice : List tableScore → List tableScore)
    (hsort : ∀ l, (sortSlice l).Perm l ∧
      (sortSlice l).Pairwise fun a b => ¬ (b.score > a.score))
    (tables : List Heuristics.Table) :
    (findRecommendedStartTables sortSlice tables).length ≤ 5 ∧
    (∃ chosen rest : List tableScore,
      findRecommendedStartTables sortSlice tables = chosen.map (fun s => s.name) ∧
      (chosen ++ rest).Perm
        (tables.map fun t => ({ name := t.TableName, score := scoreOf t } : tableScore)) ∧
      chosen.Pairwise (fun a b => a.score ≥ b.score) ∧
      (∀ s ∈ chosen, s.score > 0) ∧
      (∀ a ∈ rest, ∀ b ∈ chosen, a.score ≤ b.score)) ∧
    (∀ t : Heuristics.Table,
      scoreOf t = 2 * (t.IncomingForeignKeys.length : Int) + 5 * (t.Tags.count "core" : Int)
        - (if t.IsJunction = true then 3 else 0) - 2 * (t.Tags.count "lookup" : Int)) := by
  obtain ⟨hperm, hsorted⟩ := hsort
    (tables.map fun t => ({ name := t.TableName, score := scoreOf t } : tableScore))
  generalize hsc : (tables.map fun t =>
    ({ name := t.TableName, score := scoreOf t } : tableScore)) = scores at hperm hsorted
  have hres : findRecommendedStartTables sortSlice tables =
      (((sortSlice scores).take 5).filter fun s => decide (s.score > 0)).map fun s => s.name := by
    unfold findRecommendedStartTables
    simp only []
    rw [hsc, resultLoop_eq]
  have hsplit : (sortSlice scores).take 5 ++ (sortSlice scores).drop 5 = sortSlice scores :=
    List.take_append_drop 5 _
  have hpw := hsorted
  rw [← hsplit, List.pairwise_append] at hpw
  refine ⟨?_, ⟨((sortSlice scores).take 5).filter fun s => decide (s.score > 0),
    (((sortSlice scores).take 5).filter fun s => !decide (s.score > 0)) ++
      (sortSlice scores).drop 5, hres, ?_, ?_, ?_, ?_⟩, scoreOf_eq⟩
  · rw [hres, List.length_map]
    exact le_trans (List.length_filter_le _ _) (by simp)
  · rw [← List.append_assoc]
    refine List.Perm.trans ?_ hperm
    conv_rhs => rw [← hsplit]
    exact List.Perm.append_right _ (List.filter_append_perm _ _)
  · have h1 : (((sortSlice scores).take 5).filter fun s => decide (s.score > 0)).Sublist
        (sortSlice scores) :=
      (List.filter_sublist _).trans (List.take_sublist _ _)
    exact (hsorted.sublist h1).imp (by intro a b hab; omega)
  · intro s hs
    simpa using (List.mem_filter.mp hs).2
  · intro a ha b hb
    have hb1 := List.mem_filter.mp hb
    have hbpos : b.score > 0 := by simpa using hb1.2
    rcases List.mem_append.mp ha with ha | ha
    · have ha1 := (List.mem_filter.mp ha).2
      simp only [Bool.not_eq_true', decide_eq_false_iff_not] at ha1
      omega
    · have := hpw.2.2 b hb1.1 a ha
      omega

theorem findRecommendedStartTables_spec_witness :
    (∀ l, (sortByScore l).Perm l ∧
      (sortByScore l).Pairwise fun a b => ¬ (b.score > a.score)) ∧
    (findRecommendedStartTables sortByScore sampleTables).length ≤ 5 ∧
    findRecommendedStartTables sortByScore sampleTables = ["users", "orders"] :=
  have hs : ∀ l, (sortByScore l).Perm l ∧
      (sortByScore l).Pairwise fun a b => ¬ (b.score > a.score) := fun l =>
    ⟨(sortByScore_spec l).1, (sortByScore_spec l).2.imp (by intro a b hab; omega)⟩
  ⟨hs, (findRecommendedStartTables_spec sortByScore hs sampleTables).1, by decide⟩

end Generator
